import Mathlib

/-!
# Attributes.cpp (TableGen backend `gen-attrs`): a shallow embedding

The backend reads a record database and writes C++ text to a `raw_ostream`.
The stream is modelled as the sequence of output statements executed so far
(`Piece`), one constructor per output statement of the source, together with
the text each of them writes (`Piece.render`).  `PrintFatalError` ends a run;
a run that ended that way is `Result.fatal`, carrying what the stream held at
that moment and the diagnostic.

The counter `unsigned Value` is a natural number: it starts at 1 and is
incremented once per listed definition, so it wraps only after 2^32 - 1 listed
definitions.

Records are typed: every record carries the fields the backend reads, so the
fatal errors of the database itself on a missing field are outside the model.

Properties of the text itself are stated on `renderAll`: `linesOf` splits the
text of a stream into lines, and a line is read as a preprocessor directive
when its first non-blank character is `#` (`isDirective`).
-/

namespace Attributes

/-! ## The record database (llvm/TableGen/Record.h, not part of this file's source) -/

/-- Modelled from the spec: a record of the definition database, which is
declared in llvm/TableGen/Record.h. The spec gives the fields the backend reads
by name: `AttrString` (display string) and `Properties` (list of records, each
resolved to its name) on attribute definitions, `CompatFunc` and `AttrName` on
`CompatRule` records, `MergeFunc` on `MergeRule` records. `AttrName` is the
empty string when the rule has none. -/
structure Record where
  Name : String
  AttrString : String
  Properties : List String
  CompatFunc : String
  AttrName : String
  MergeFunc : String
deriving DecidableEq, Repr

/-- Modelled from the spec: the database, declared in llvm/TableGen/Record.h.
The one operation the backend uses enumerates all records of a given class
name in stable declaration order. -/
structure RecordKeeper where
  getAllDerivedDefinitions : String → List Record

/-! ## The output stream -/

/-- One output statement of Attributes.cpp, with the values it streams. -/
inductive Piece where
  /-- A statement writing only a literal. -/
  | text (s : String)
  /-- Line 43. -/
  | ifndefMacro (MacroName : String)
  /-- Lines 44-45. -/
  | defineMacro (MacroName : String)
  /-- Lines 49-50. -/
  | invoke (MacroName Name AttrString : String)
  /-- Line 53. -/
  | undefMacro (MacroName : String)
  /-- Line 71. -/
  | enumFirst (KindName : String) (Value : Nat)
  /-- Line 73. -/
  | enumDef (Name : String) (Value : Nat)
  /-- Line 76; `Value` is the number printed, the counter minus one. -/
  | enumLast (KindName : String) (Value : Nat)
  /-- Line 91. -/
  | compatCall (FuncName : String)
  /-- Line 94. -/
  | compatAttr (AttrName : String)
  /-- Line 95. -/
  | compatClose
  /-- Line 107. -/
  | mergeCall (FuncName : String)
  /-- Line 124. -/
  | propZero
  /-- Line 133. -/
  | propTag (Name : String)
  /-- Line 135. -/
  | propEnd
deriving DecidableEq, Repr

/-- The text an output statement writes. -/
def Piece.render : Piece → String
  | .text s => s
  | .ifndefMacro MacroName => "#ifndef " ++ MacroName ++ "\n"
  | .defineMacro MacroName =>
      "#define " ++ MacroName ++ "(FIRST, SECOND) ATTRIBUTE_ALL(FIRST, SECOND)\n"
  | .invoke MacroName Name AttrString =>
      MacroName ++ "(" ++ Name ++ "," ++ AttrString ++ ")\n"
  | .undefMacro MacroName => "#undef " ++ MacroName ++ "\n\n"
  | .enumFirst KindName Value => "First" ++ KindName ++ " = " ++ toString Value ++ ",\n"
  | .enumDef Name Value => Name ++ " = " ++ toString Value ++ ",\n"
  | .enumLast KindName Value => "Last" ++ KindName ++ " = " ++ toString Value ++ ",\n"
  | .compatCall FuncName => "  Ret &= " ++ FuncName ++ "(Caller, Callee"
  | .compatAttr AttrName => ", \"" ++ AttrName ++ "\""
  | .compatClose => ");\n"
  | .mergeCall FuncName => "  " ++ FuncName ++ "(Caller, Callee);\n"
  | .propZero => "0"
  | .propTag Name => " | AttributeProperty::" ++ Name
  | .propEnd => ",\n"

/-- The stream: the output statements executed so far, oldest first. -/
abbrev raw_ostream := List Piece

/-- The text held by a stream. -/
def renderAll : raw_ostream → String
  | [] => ""
  | p :: ps => p.render ++ renderAll ps

/-- How a run of an emitter ends: normally, or in `PrintFatalError`. -/
inductive Result where
  | ok (OS : raw_ostream)
  | fatal (OS : raw_ostream) (Msg : String)
deriving DecidableEq, Repr

/-! ## emitTargetIndependentNames (lines 34-79) -/

/-- The five class names of lines 57-58, 69-70 and 119-120. -/
def EnumKindNames : List String :=
  ["EnumAttr", "TypeAttr", "IntAttr", "ConstantRangeAttr", "ConstantRangeListAttr"]

/-- The seven class names of lines 57-61. -/
def AttrKindNames : List String :=
  EnumKindNames ++ ["StrBoolAttr", "ComplexStrAttr"]

/-- Lines 48-51: the inner loop of the lambda `Emit`. -/
def emitInvocations (MacroName : String) (Defs : List Record) (OS : raw_ostream) :
    raw_ostream :=
  Defs.foldl (fun OS A => OS ++ [Piece.invoke MacroName A.Name A.AttrString]) OS

/-- Lines 42-54: the lambda `Emit`. -/
def Emit (Records : RecordKeeper) (KindNames : List String) (MacroName : String)
    (OS : raw_ostream) : raw_ostream :=
  let OS := OS ++ [Piece.ifndefMacro MacroName]
  let OS := OS ++ [Piece.defineMacro MacroName]
  let OS := OS ++ [Piece.text "#endif\n\n"]
  let OS := KindNames.foldl
    (fun OS KindName => emitInvocations MacroName (Records.getAllDerivedDefinitions KindName) OS)
    OS
  OS ++ [Piece.undefMacro MacroName]

/-- Lines 72-75: the inner loop of the enum block, on the stream and `Value`. -/
def emitEnumDefs (Defs : List Record) (st : raw_ostream × Nat) : raw_ostream × Nat :=
  Defs.foldl (fun st A => (st.1 ++ [Piece.enumDef A.Name st.2], st.2 + 1)) st

/-- Lines 71-76: the body of the outer loop of the enum block. -/
def emitEnumKind (Records : RecordKeeper) (st : raw_ostream × Nat) (KindName : String) :
    raw_ostream × Nat :=
  let OS := st.1 ++ [Piece.enumFirst KindName st.2]
  let st := emitEnumDefs (Records.getAllDerivedDefinitions KindName) (OS, st.2)
  (st.1 ++ [Piece.enumLast KindName (st.2 - 1)], st.2)

/-- Lines 34-79. -/
def emitTargetIndependentNames (Records : RecordKeeper) (OS : raw_ostream) : raw_ostream :=
  let OS := OS ++ [Piece.text "#ifdef GET_ATTR_NAMES\n"]
  let OS := OS ++ [Piece.text "#undef GET_ATTR_NAMES\n"]
  let OS := OS ++ [Piece.text "#ifndef ATTRIBUTE_ALL\n"]
  let OS := OS ++ [Piece.text "#define ATTRIBUTE_ALL(FIRST, SECOND)\n"]
  let OS := OS ++ [Piece.text "#endif\n\n"]
  let OS := Emit Records EnumKindNames "ATTRIBUTE_ENUM" OS
  let OS := Emit Records ["StrBoolAttr"] "ATTRIBUTE_STRBOOL" OS
  let OS := Emit Records ["ComplexStrAttr"] "ATTRIBUTE_COMPLEXSTR" OS
  let OS := OS ++ [Piece.text "#undef ATTRIBUTE_ALL\n"]
  let OS := OS ++ [Piece.text "#endif\n\n"]
  let OS := OS ++ [Piece.text "#ifdef GET_ATTR_ENUM\n"]
  let OS := OS ++ [Piece.text "#undef GET_ATTR_ENUM\n"]
  let Value : Nat := 1
  let st := EnumKindNames.foldl (emitEnumKind Records) (OS, Value)
  st.1 ++ [Piece.text "#endif\n\n"]

/-! ## emitFnAttrCompatCheck (lines 81-113) -/

/-- Lines 90-95: the body of the loop over the `CompatRule` records. -/
def emitCompatRule (OS : raw_ostream) (Rule : Record) : raw_ostream :=
  let FuncName := Rule.CompatFunc
  let OS := OS ++ [Piece.compatCall FuncName]
  let AttrName := Rule.AttrName
  let OS := if !AttrName.isEmpty then OS ++ [Piece.compatAttr AttrName] else OS
  OS ++ [Piece.compatClose]

/-- Lines 106-107: the body of the loop over the `MergeRule` records. -/
def emitMergeRule (OS : raw_ostream) (Rule : Record) : raw_ostream :=
  let FuncName := Rule.MergeFunc
  OS ++ [Piece.mergeCall FuncName]

/-- Lines 81-113. -/
def emitFnAttrCompatCheck (Records : RecordKeeper) (OS : raw_ostream)
    (IsStringAttr : Bool) : raw_ostream :=
  let _ := IsStringAttr
  let OS := OS ++ [Piece.text "#ifdef GET_ATTR_COMPAT_FUNC\n"]
  let OS := OS ++ [Piece.text "#undef GET_ATTR_COMPAT_FUNC\n"]
  let OS := OS ++ [Piece.text
    ("static inline bool hasCompatibleFnAttrs(const Function &Caller,\n" ++
     "                                        const Function &Callee) \x7b\n")]
  let OS := OS ++ [Piece.text "  bool Ret = true;\n\n"]
  let OS := (Records.getAllDerivedDefinitions "CompatRule").foldl emitCompatRule OS
  let OS := OS ++ [Piece.text "\n"]
  let OS := OS ++ [Piece.text "  return Ret;\n"]
  let OS := OS ++ [Piece.text "\x7d\n\n"]
  let OS := OS ++ [Piece.text
    ("static inline void mergeFnAttrs(Function &Caller,\n" ++
     "                                const Function &Callee) \x7b\n")]
  let OS := (Records.getAllDerivedDefinitions "MergeRule").foldl emitMergeRule OS
  let OS := OS ++ [Piece.text "\x7d\n\n"]
  OS ++ [Piece.text "#endif\n"]

/-! ## emitAttributeProperties (lines 115-140) -/

/-- Lines 125-134: the loop over the `Properties` of one definition. -/
def emitProperties (AllowIntersectAnd AllowIntersectMin : Bool) :
    List String → raw_ostream → Result
  | [], OS => Result.ok OS
  | P :: Ps, OS =>
    if !AllowIntersectAnd && P == "IntersectAnd" then
      Result.fatal OS "'IntersectAnd' only compatible with 'EnumAttr'"
    else if !AllowIntersectMin && P == "IntersectMin" then
      Result.fatal OS "'IntersectMin' only compatible with 'IntAttr'"
    else
      emitProperties AllowIntersectAnd AllowIntersectMin Ps (OS ++ [Piece.propTag P])

/-- Lines 123-136: the loop over the definitions of one class. -/
def emitPropDefs (AllowIntersectAnd AllowIntersectMin : Bool) :
    List Record → raw_ostream → Result
  | [], OS => Result.ok OS
  | A :: As, OS =>
    match emitProperties AllowIntersectAnd AllowIntersectMin A.Properties
        (OS ++ [Piece.propZero]) with
    | Result.fatal OS Msg => Result.fatal OS Msg
    | Result.ok OS =>
      emitPropDefs AllowIntersectAnd AllowIntersectMin As (OS ++ [Piece.propEnd])

/-- Lines 119-137: the loop over the class names. -/
def emitPropKinds (Records : RecordKeeper) : List String → raw_ostream → Result
  | [], OS => Result.ok OS
  | KindName :: KindNames, OS =>
    let AllowIntersectAnd : Bool := KindName == "EnumAttr"
    let AllowIntersectMin : Bool := KindName == "IntAttr"
    match emitPropDefs AllowIntersectAnd AllowIntersectMin
        (Records.getAllDerivedDefinitions KindName) OS with
    | Result.fatal OS Msg => Result.fatal OS Msg
    | Result.ok OS => emitPropKinds Records KindNames OS

/-- Lines 115-140. -/
def emitAttributeProperties (Records : RecordKeeper) (OS : raw_ostream) : Result :=
  let OS := OS ++ [Piece.text "#ifdef GET_ATTR_PROP_TABLE\n"]
  let OS := OS ++ [Piece.text "#undef GET_ATTR_PROP_TABLE\n"]
  let OS := OS ++ [Piece.text "static const uint8_t AttrPropTable[] = \x7b\n"]
  match emitPropKinds Records EnumKindNames OS with
  | Result.fatal OS Msg => Result.fatal OS Msg
  | Result.ok OS =>
    let OS := OS ++ [Piece.text "\x7d;\n"]
    Result.ok (OS ++ [Piece.text "#endif\n"])

/-- Lines 142-146. -/
def run (Records : RecordKeeper) (OS : raw_ostream) : Result :=
  let OS := emitTargetIndependentNames Records OS
  let OS := emitFnAttrCompatCheck Records OS false
  emitAttributeProperties Records OS

/-! ## Reading the stream back -/

/-- The definitions that receive a code: the five listings, concatenated in the
order of `EnumKindNames`, each in declaration order. -/
def codeBearing (Records : RecordKeeper) : List Record :=
  EnumKindNames.flatMap Records.getAllDerivedDefinitions

/-- The number of definitions listed under the class names that come before
`KindName` in `EnumKindNames`. -/
def precedingCount (Records : RecordKeeper) (KindName : String) : Nat :=
  ((EnumKindNames.takeWhile (fun K => K != KindName)).flatMap
    Records.getAllDerivedDefinitions).length

/-- The assignment `Name = Value` of an output statement of line 73. -/
def Piece.assignment? : Piece → Option (String × Nat)
  | Piece.enumDef Name Value => some (Name, Value)
  | _ => none

/-- The assignments `Name = Value` of the enum block, in the order written. -/
def enumAssignments (OS : raw_ostream) : List (String × Nat) :=
  OS.filterMap Piece.assignment?

/-- Whether an output statement is a `First` or `Last` marker (lines 71, 76). -/
def Piece.isMarker : Piece → Bool
  | Piece.enumFirst _ _ => true
  | Piece.enumLast _ _ => true
  | _ => false

/-- The `First` and `Last` markers of the enum block, in the order written. -/
def enumMarkers (OS : raw_ostream) : List Piece :=
  OS.filter Piece.isMarker

/-- The value bound to `First<KindName>`, if the stream has such a marker. -/
def firstOf (OS : raw_ostream) (KindName : String) : Option Nat :=
  (enumMarkers OS).findSome? (fun p =>
    match p with
    | Piece.enumFirst K Value => if K = KindName then some Value else none
    | _ => none)

/-- The value bound to `Last<KindName>`, if the stream has such a marker. -/
def lastOf (OS : raw_ostream) (KindName : String) : Option Nat :=
  (enumMarkers OS).findSome? (fun p =>
    match p with
    | Piece.enumLast K Value => if K = KindName then some Value else none
    | _ => none)

/-! ## The shape of what the loops write -/

/-- The assignments written by lines 72-75 for a listing, starting at `Value`. -/
def enumDefPieces (Value : Nat) (Defs : List Record) : List Piece :=
  (Defs.enumFrom Value).map (fun p => Piece.enumDef p.2.Name p.1)

/-- What one round of the outer loop of the enum block writes. -/
def enumSection (Records : RecordKeeper) (Value : Nat) (KindName : String) : List Piece :=
  Piece.enumFirst KindName Value ::
    (enumDefPieces Value (Records.getAllDerivedDefinitions KindName) ++
      [Piece.enumLast KindName
        (Value + (Records.getAllDerivedDefinitions KindName).length - 1)])

/-- What the outer loop of the enum block writes for a list of class names. -/
def enumSections (Records : RecordKeeper) : Nat → List String → List Piece
  | _, [] => []
  | Value, KindName :: KindNames =>
    enumSection Records Value KindName ++
      enumSections Records (Value + (Records.getAllDerivedDefinitions KindName).length)
        KindNames

/-- What the lambda `Emit` writes. -/
def emitPieces (Records : RecordKeeper) (KindNames : List String) (MacroName : String) :
    List Piece :=
  [Piece.ifndefMacro MacroName, Piece.defineMacro MacroName, Piece.text "#endif\n\n"] ++
    ((KindNames.flatMap Records.getAllDerivedDefinitions).map
      (fun A => Piece.invoke MacroName A.Name A.AttrString) ++
    [Piece.undefMacro MacroName])

/-- What lines 35-64 write. -/
def namesBlock (Records : RecordKeeper) : List Piece :=
  [Piece.text "#ifdef GET_ATTR_NAMES\n", Piece.text "#undef GET_ATTR_NAMES\n",
    Piece.text "#ifndef ATTRIBUTE_ALL\n", Piece.text "#define ATTRIBUTE_ALL(FIRST, SECOND)\n",
    Piece.text "#endif\n\n"] ++
  (emitPieces Records EnumKindNames "ATTRIBUTE_ENUM" ++
  (emitPieces Records ["StrBoolAttr"] "ATTRIBUTE_STRBOOL" ++
  (emitPieces Records ["ComplexStrAttr"] "ATTRIBUTE_COMPLEXSTR" ++
  [Piece.text "#undef ATTRIBUTE_ALL\n", Piece.text "#endif\n\n"])))

/-- What lines 66-78 write. -/
def enumBlock (Records : RecordKeeper) : List Piece :=
  [Piece.text "#ifdef GET_ATTR_ENUM\n", Piece.text "#undef GET_ATTR_ENUM\n"] ++
  (enumSections Records 1 EnumKindNames ++ [Piece.text "#endif\n\n"])

/-- The markers written by the outer loop of the enum block when it starts
with `P` definitions already numbered. -/
def sectionMarkers (Records : RecordKeeper) : Nat → List String → List Piece
  | _, [] => []
  | P, KindName :: KindNames =>
    Piece.enumFirst KindName (1 + P) ::
    Piece.enumLast KindName (P + (Records.getAllDerivedDefinitions KindName).length) ::
    sectionMarkers Records (P + (Records.getAllDerivedDefinitions KindName).length) KindNames

/-! ## The property table, read back -/

/-- Whether lines 126-131 stop on the tag `P` under the two flags. -/
def rejected (AllowIntersectAnd AllowIntersectMin : Bool) (P : String) : Bool :=
  (!AllowIntersectAnd && P == "IntersectAnd") || (!AllowIntersectMin && P == "IntersectMin")

/-- No tag of a definition listed under one of `KindNames` is rejected. -/
def AllAccepted (Records : RecordKeeper) (KindNames : List String) : Prop :=
  ∀ K ∈ KindNames, ∀ A ∈ Records.getAllDerivedDefinitions K, ∀ P ∈ A.Properties,
    rejected (K == "EnumAttr") (K == "IntAttr") P = false

/-- What lines 124-135 write for a definition whose tags are all accepted. -/
def entryPieces (A : Record) : List Piece :=
  Piece.propZero :: (A.Properties.map Piece.propTag ++ [Piece.propEnd])

/-- What lines 116-139 write when no tag is rejected. -/
def propBlock (Records : RecordKeeper) : List Piece :=
  [Piece.text "#ifdef GET_ATTR_PROP_TABLE\n", Piece.text "#undef GET_ATTR_PROP_TABLE\n",
    Piece.text "static const uint8_t AttrPropTable[] = \x7b\n"] ++
  ((codeBearing Records).flatMap entryPieces ++
  [Piece.text "\x7d;\n", Piece.text "#endif\n"])

/-- The entries of the table in a stream, with `cur` the entry being read: an
entry starts at a `0` (line 124), takes the tags that follow (line 133) and is
complete at the next `,` (line 135), which is not part of it. -/
def readEntries : List Piece → List Piece → List (List Piece)
  | [], _ => []
  | Piece.propZero :: ps, _ => readEntries ps [Piece.propZero]
  | Piece.propTag Name :: ps, cur => readEntries ps (cur ++ [Piece.propTag Name])
  | Piece.propEnd :: ps, cur => cur :: readEntries ps []
  | _ :: ps, cur => readEntries ps cur

/-- The entries of `AttrPropTable` in a stream, in the order written. -/
def propTableEntries (OS : raw_ostream) : List (List Piece) :=
  readEntries OS []

/-- The value of a table entry `0 | AttributeProperty::t1 | ...` when the
enumerator `AttributeProperty::t` has the value `flag t`. -/
def entryValue (flag : String → Nat) (entry : List Piece) : Nat :=
  entry.foldl
    (fun acc p =>
      match p with
      | Piece.propTag Name => acc ||| flag Name
      | _ => acc)
    0

/-- The expression `0 | AttributeProperty::t1 | ... | AttributeProperty::tn`. -/
def entryText (tags : List String) : String :=
  "0" ++ tags.foldr (fun t rest => " | AttributeProperty::" ++ t ++ rest) ""

/-- Whether a run ended in `PrintFatalError`. -/
def Result.isFatal : Result → Bool
  | Result.fatal _ _ => true
  | Result.ok _ => false

/-! ## The generated functions, read back -/

/-- The text of lines 85-86, which opens `hasCompatibleFnAttrs`. -/
def compatSignature : String :=
  "static inline bool hasCompatibleFnAttrs(const Function &Caller,\n" ++
  "                                        const Function &Callee) \x7b\n"

/-- The text of lines 102-103, which opens `mergeFnAttrs`. -/
def mergeSignature : String :=
  "static inline void mergeFnAttrs(Function &Caller,\n" ++
  "                                const Function &Callee) \x7b\n"

/-- The text of lines 100 and 110, which closes a generated function. -/
def closeFunction : String := "\x7d\n\n"

/-- The body of the generated function opened by `signature`: what the stream
holds after the statement writing `signature`, up to the statement that closes
the function. -/
def functionBody (signature : String) (OS : raw_ostream) : List Piece :=
  ((OS.dropWhile (fun p => p != Piece.text signature)).drop 1).takeWhile
    (fun p => p != Piece.text closeFunction)

/-- The `Ret &= ...` statements of a stream, with `cur` the statement being
read: a statement starts at line 91, may take the argument of line 94 and is
complete at line 95. -/
def readStatements : List Piece → List Piece → List (List Piece)
  | [], _ => []
  | Piece.compatCall FuncName :: ps, _ => readStatements ps [Piece.compatCall FuncName]
  | Piece.compatAttr AttrName :: ps, cur => readStatements ps (cur ++ [Piece.compatAttr AttrName])
  | Piece.compatClose :: ps, cur => (cur ++ [Piece.compatClose]) :: readStatements ps []
  | _ :: ps, cur => readStatements ps cur

/-- The `Ret &= ...` statements of a stream, in the order written. -/
def compatStatements (OS : raw_ostream) : List (List Piece) :=
  readStatements OS []

/-- The statement of lines 91-95 for a rule. -/
def compatStatement (Rule : Record) : List Piece :=
  Piece.compatCall Rule.CompatFunc ::
    ((if Rule.AttrName = "" then [] else [Piece.compatAttr Rule.AttrName]) ++
      [Piece.compatClose])

/-- The state of a run of the generated `hasCompatibleFnAttrs`: the variable
`Ret`, the calls made so far with what each returned, and the program state the
called functions act on. -/
structure CompatRun (σ : Type) where
  Ret : Bool
  calls : List (List Piece × Bool)
  env : σ

/-- A run of the body of the generated `hasCompatibleFnAttrs`: `Ret` starts as
`true`; each statement `Ret &= f(...)` makes its call, whatever `Ret` holds, and
ands the result into `Ret`. `call` gives what the call of a statement returns
and does to the program state. -/
def runCompatBody {σ : Type} (call : List Piece → σ → Bool × σ) (body : List Piece)
    (env : σ) : CompatRun σ :=
  (compatStatements body).foldl
    (fun st stmt =>
      { Ret := st.Ret && (call stmt st.env).1,
        calls := st.calls ++ [(stmt, (call stmt st.env).1)],
        env := (call stmt st.env).2 })
    { Ret := true, calls := [], env := env }

/-- What lines 82-112 write. -/
def compatBlock (Records : RecordKeeper) : List Piece :=
  [Piece.text "#ifdef GET_ATTR_COMPAT_FUNC\n", Piece.text "#undef GET_ATTR_COMPAT_FUNC\n",
    Piece.text compatSignature] ++
  (([Piece.text "  bool Ret = true;\n\n"] ++
    ((Records.getAllDerivedDefinitions "CompatRule").flatMap compatStatement ++
    [Piece.text "\n", Piece.text "  return Ret;\n"])) ++
  (Piece.text closeFunction ::
  (([Piece.text mergeSignature] ++
    (Records.getAllDerivedDefinitions "MergeRule").map (fun Rule => Piece.mergeCall Rule.MergeFunc)) ++
  [Piece.text closeFunction, Piece.text "#endif\n"])))

/-! ## Example databases -/

/-- An attribute definition: a record with the fields of an attribute. -/
def attrDef (Name AttrString : String) (Properties : List String) : Record :=
  { Name := Name, AttrString := AttrString, Properties := Properties,
    CompatFunc := "", AttrName := "", MergeFunc := "" }

/-- A `CompatRule` record. -/
def compatRule (Name CompatFunc AttrName : String) : Record :=
  { Name := Name, AttrString := "", Properties := [],
    CompatFunc := CompatFunc, AttrName := AttrName, MergeFunc := "" }

/-- A `MergeRule` record. -/
def mergeRule (Name MergeFunc : String) : Record :=
  { Name := Name, AttrString := "", Properties := [],
    CompatFunc := "", AttrName := "", MergeFunc := MergeFunc }

/-- A database with one EnumAttr definition `NoReturn`, one IntAttr definition
`Alignment` carrying `IntersectMin`, two compatibility rules and two merge rules. -/
def sampleRecords : RecordKeeper where
  getAllDerivedDefinitions := fun ClassName =>
    if ClassName = "EnumAttr" then [attrDef "NoReturn" "noreturn" []]
    else if ClassName = "IntAttr" then [attrDef "Alignment" "align" ["IntersectMin"]]
    else if ClassName = "CompatRule" then
      [compatRule "anonymous_0" "isEqual" "", compatRule "anonymous_1" "isEqual" "sanitize"]
    else if ClassName = "MergeRule" then
      [mergeRule "anonymous_2" "setAND", mergeRule "anonymous_3" "setOR"]
    else []

/-- The property table block written for `sampleRecords`. -/
def samplePropTable : raw_ostream :=
  [Piece.text "#ifdef GET_ATTR_PROP_TABLE\n", Piece.text "#undef GET_ATTR_PROP_TABLE\n",
    Piece.text "static const uint8_t AttrPropTable[] = \x7b\n",
    Piece.propZero, Piece.propEnd,
    Piece.propZero, Piece.propTag "IntersectMin", Piece.propEnd,
    Piece.text "\x7d;\n", Piece.text "#endif\n"]

/-- A database whose only definition is a StrBoolAttr carrying `IntersectAnd`. -/
def strBoolRecords : RecordKeeper where
  getAllDerivedDefinitions := fun ClassName =>
    if ClassName = "StrBoolAttr" then [attrDef "NoInfsFPMath" "no-infs-fp-math" ["IntersectAnd"]]
    else []

/-- A database whose only definition is a TypeAttr carrying `IntersectAnd`. -/
def misplacedRecords : RecordKeeper where
  getAllDerivedDefinitions := fun ClassName =>
    if ClassName = "TypeAttr" then [attrDef "ByVal" "byval" ["IntersectAnd"]]
    else []

/-! ## The name table, read back -/

/-- The name-table block of a stream: what it holds before the statement of
line 66, which opens the enum block. -/
def nameTable (OS : raw_ostream) : List Piece :=
  OS.takeWhile (fun p => p != Piece.text "#ifdef GET_ATTR_ENUM\n")

/-- A group of the name table: the default definition of the macro (lines
43-46), one invocation per definition (lines 49-50), the `#undef` (line 53). -/
def macroGroup (MacroName : String) (Defs : List Record) : List Piece :=
  [Piece.ifndefMacro MacroName, Piece.defineMacro MacroName, Piece.text "#endif\n\n"] ++
    (Defs.map (fun A => Piece.invoke MacroName A.Name A.AttrString) ++
    [Piece.undefMacro MacroName])

/-- The invocation `MacroName(Name,AttrString)` of a statement of lines 49-50. -/
def Piece.invocation? : Piece → Option (String × String × String)
  | Piece.invoke MacroName Name AttrString => some (MacroName, Name, AttrString)
  | _ => none

/-- The macro invocations of a stream, in the order written. -/
def invocations (OS : raw_ostream) : List (String × String × String) :=
  OS.filterMap Piece.invocation?

/-- The database of the end-to-end example: the EnumAttr definition `NoReturn`,
the IntAttr definition `Alignment` carrying `IntersectMin`, and nothing else. -/
def endToEndRecords : RecordKeeper where
  getAllDerivedDefinitions := fun ClassName =>
    if ClassName = "EnumAttr" then [attrDef "NoReturn" "noreturn" []]
    else if ClassName = "IntAttr" then [attrDef "Alignment" "align" ["IntersectMin"]]
    else []


/-! ## The order in which tags are examined -/

/-- The tags examined by lines 119-134 for a list of class names, in the order
examined: class names in order, definitions in declaration order, tags in
declared order; each tag with the class name its definition is listed under. -/
def scannedTags (Records : RecordKeeper) (KindNames : List String) : List (String × String) :=
  KindNames.flatMap (fun K =>
    ((Records.getAllDerivedDefinitions K).flatMap (fun A => A.Properties)).map
      (fun P => (K, P)))

/-- Whether a tag violates the restriction of its class name: `IntersectAnd`
outside EnumAttr, or `IntersectMin` outside IntAttr. -/
def violates (kp : String × String) : Bool :=
  (kp.2 == "IntersectAnd" && kp.1 != "EnumAttr") ||
  (kp.2 == "IntersectMin" && kp.1 != "IntAttr")

/-- The first violating tag in the order of examination, with its class name. -/
def firstViolation (Records : RecordKeeper) : Option (String × String) :=
  (scannedTags Records EnumKindNames).find? violates

/-- The diagnostic that names a restricted tag and the class name it requires. -/
def diagnosticFor (P : String) : String :=
  if P = "IntersectAnd" then "'IntersectAnd' only compatible with 'EnumAttr'"
  else "'IntersectMin' only compatible with 'IntAttr'"

/-- A database where a TypeAttr definition carries `IntersectMin` before an
IntAttr definition carries `IntersectAnd`. -/
def twoViolationsRecords : RecordKeeper where
  getAllDerivedDefinitions := fun ClassName =>
    if ClassName = "TypeAttr" then [attrDef "ByVal" "byval" ["IntersectMin"]]
    else if ClassName = "IntAttr" then [attrDef "Alignment" "align" ["IntersectAnd"]]
    else []


/-- What the stream holds when a run ends. -/
def Result.written : Result → raw_ostream
  | Result.ok OS => OS
  | Result.fatal OS _ => OS


/-! ## The text as lines and preprocessor directives -/

/-- The lines of a text, with `cur` the line being read: every newline ends a
line, and characters after the last newline form a last line. -/
def splitLines : List Char → List Char → List (List Char)
  | cur, [] =>
    match cur with
    | [] => []
    | _ :: _ => [cur]
  | cur, c :: cs => if c = '\n' then cur :: splitLines [] cs else splitLines (cur ++ [c]) cs

/-- The lines of the text held by a stream. -/
def linesOf (OS : raw_ostream) : List String :=
  (splitLines [] (renderAll OS).data).map String.mk

/-- The text made of the given lines, each ended by a newline. -/
def unlines : List String → String
  | [] => ""
  | l :: ls => l ++ "\n" ++ unlines ls

/-- A space or a tab. -/
def isBlank (c : Char) : Bool := c == ' ' || c == '\t'

/-- Whether the first character after leading blanks is `#`. -/
def startsHash (cs : List Char) : Bool :=
  match cs.dropWhile isBlank with
  | '#' :: _ => true
  | _ => false

/-- Whether a line is a preprocessor directive: its first non-blank character
is `#`. -/
def isDirective (line : String) : Bool := startsHash line.data

/-- The name of the directive of a line: the letters that follow the `#`. -/
def directiveName (line : String) : String :=
  match line.data.dropWhile isBlank with
  | '#' :: rest => String.mk ((rest.dropWhile isBlank).takeWhile Char.isAlpha)
  | _ => ""

/-- Whether a line opens a conditional: `#if`, `#ifdef` or `#ifndef`. -/
def opensConditional (line : String) : Bool :=
  isDirective line &&
    (directiveName line == "if" || directiveName line == "ifdef" ||
      directiveName line == "ifndef")

/-- Whether a line closes a conditional: `#endif`. -/
def closesConditional (line : String) : Bool :=
  isDirective line && directiveName line == "endif"

/-- The nesting depth of conditionals after the lines, starting from depth `d`;
`none` when an `#endif` comes at depth 0, where no conditional is open. -/
def depthAfter : Nat → List String → Option Nat
  | d, [] => some d
  | d, l :: ls =>
    if opensConditional l then depthAfter (d + 1) ls
    else if closesConditional l then
      match d with
      | 0 => none
      | d + 1 => depthAfter d ls
    else depthAfter d ls

/-- Whether the lines that follow the opening of a block end the block as they
should: at nesting depth `d` inside the block, the `#endif` that closes the
block's own conditional is the line `#endif` and only empty lines follow it. -/
def closesBlock : Nat → List String → Bool
  | _, [] => false
  | d, l :: ls =>
    if opensConditional l then closesBlock (d + 1) ls
    else if closesConditional l then
      match d with
      | 0 => l == "#endif" && ls.all (fun m => m == "")
      | d + 1 => closesBlock d ls
    else closesBlock d ls

/-- Whether the lines are a block guarded by the toggle `T`: the line
`#ifdef T`, then the line `#undef T`, and the `#endif` matching that `#ifdef`
is the last line of the block apart from empty lines. -/
def isGuardedBlock (T : String) (lines : List String) : Bool :=
  match lines with
  | l0 :: l1 :: rest => l0 == "#ifdef " ++ T && l1 == "#undef " ++ T && closesBlock 0 rest
  | _ => false

/-- The directive lines among the lines. -/
def directives (lines : List String) : List String :=
  lines.filter isDirective

/-- The macro a `#define` line defines: the identifier after `#define `. -/
def defineTarget (line : String) : Option String :=
  if ("#define ").data.isPrefixOf line.data then
    some (String.mk ((line.data.drop 8).takeWhile (fun c => c.isAlphanum || c == '_')))
  else none

/-- The macros defined by the directives of the lines, in order. -/
def definedMacros (lines : List String) : List String :=
  (directives lines).filterMap defineTarget

/-- Whether, among the directives of the lines, a `#define` of `M` is followed
by `#undef M`, itself followed by an `#endif`. -/
def undefinedBeforeEnd (M : String) (lines : List String) : Bool :=
  (((directives lines).dropWhile (fun l => defineTarget l != some M)).dropWhile
    (fun l => l != "#undef " ++ M)).contains "#endif"

/-- The four toggles of lines 35, 66, 82 and 116. -/
def toggles : List String :=
  ["GET_ATTR_NAMES", "GET_ATTR_ENUM", "GET_ATTR_COMPAT_FUNC", "GET_ATTR_PROP_TABLE"]

/-- The macros that the name-table block defines (lines 39 and 44). -/
def nameTableMacros : List String :=
  ["ATTRIBUTE_ALL", "ATTRIBUTE_ENUM", "ATTRIBUTE_STRBOOL", "ATTRIBUTE_COMPLEXSTR"]

/-- The lines are four blocks, guarded in turn by the four toggles; the first
block defines the macros of `nameTableMacros` and no other, and undefines each
of them again before its closing `#endif`. -/
def FourGuardedBlocks (lines : List String) : Prop :=
  ∃ L1 L2 L3 L4, lines = L1 ++ (L2 ++ (L3 ++ L4)) ∧
    isGuardedBlock "GET_ATTR_NAMES" L1 = true ∧
    isGuardedBlock "GET_ATTR_ENUM" L2 = true ∧
    isGuardedBlock "GET_ATTR_COMPAT_FUNC" L3 = true ∧
    isGuardedBlock "GET_ATTR_PROP_TABLE" L4 = true ∧
    definedMacros L1 = nameTableMacros ∧
    ∀ M ∈ nameTableMacros, undefinedBeforeEnd M L1 = true

/-- The strings of a record. -/
def Record.strings (d : Record) : List String :=
  [d.Name, d.AttrString, d.CompatFunc, d.AttrName, d.MergeFunc] ++ d.Properties

/-- The class names whose records the backend reads. -/
def readClassNames : List String :=
  AttrKindNames ++ ["CompatRule", "MergeRule"]

/-- No string of a record that the backend reads contains a newline. -/
def NoNewlines (Records : RecordKeeper) : Prop :=
  ∀ K ∈ readClassNames, ∀ d ∈ Records.getAllDerivedDefinitions K, ∀ s ∈ d.strings,
    '\n' ∉ s.data

/-- No name of a code-bearing definition and no `MergeFunc` begins, after
blanks, with `#`. -/
def NoDirectiveStart (Records : RecordKeeper) : Prop :=
  (∀ K ∈ EnumKindNames, ∀ d ∈ Records.getAllDerivedDefinitions K, isDirective d.Name = false) ∧
  (∀ r ∈ Records.getAllDerivedDefinitions "MergeRule", isDirective r.MergeFunc = false)

/-- A stream whose text is the given lines, each ended by a newline. -/
def RendersAs (OS : raw_ostream) (ls : List String) : Prop :=
  renderAll OS = unlines ls ∧ ∀ l ∈ ls, '\n' ∉ l.data

/-- A database whose only definition is an EnumAttr named `#endif`. -/
def hashNameRecords : RecordKeeper where
  getAllDerivedDefinitions := fun ClassName =>
    if ClassName = "EnumAttr" then [attrDef "#endif" "x" []]
    else []

/-- A database whose only record is a `MergeRule` with the `MergeFunc`
`#endif`. -/
def hashMergeRecords : RecordKeeper where
  getAllDerivedDefinitions := fun ClassName =>
    if ClassName = "MergeRule" then [mergeRule "anonymous_0" "#endif"]
    else []


/-! ## The lines of the four blocks -/

/-- The line written by an output statement that writes one whole line. -/
def Piece.line : Piece → String
  | Piece.ifndefMacro MacroName => "#ifndef " ++ MacroName
  | Piece.defineMacro MacroName =>
      "#define " ++ MacroName ++ "(FIRST, SECOND) ATTRIBUTE_ALL(FIRST, SECOND)"
  | Piece.invoke MacroName Name AttrString =>
      MacroName ++ "(" ++ Name ++ "," ++ AttrString ++ ")"
  | Piece.enumFirst KindName Value => "First" ++ KindName ++ " = " ++ toString Value ++ ","
  | Piece.enumDef Name Value => Name ++ " = " ++ toString Value ++ ","
  | Piece.enumLast KindName Value => "Last" ++ KindName ++ " = " ++ toString Value ++ ","
  | Piece.mergeCall FuncName => "  " ++ FuncName ++ "(Caller, Callee);"
  | p => p.render

/-- The lines of a block guarded by `T`, with the lines `body` between the
`#undef` and the closing `#endif`, and the lines `trailing` after it. -/
def blockLines (T : String) (body trailing : List String) : List String :=
  ("#ifdef " ++ T) :: ("#undef " ++ T) :: (body ++ "#endif" :: trailing)

/-- The lines of a group of the name table. -/
def groupLines (MacroName : String) (Defs : List Record) : List String :=
  ["#ifndef " ++ MacroName,
    "#define " ++ MacroName ++ "(FIRST, SECOND) ATTRIBUTE_ALL(FIRST, SECOND)", "#endif", ""] ++
  (Defs.map (fun A => (Piece.invoke MacroName A.Name A.AttrString).line) ++
  ["#undef " ++ MacroName, ""])

/-- The lines of the name-table block between its `#undef` and closing `#endif`. -/
def namesBody (Records : RecordKeeper) : List String :=
  ["#ifndef ATTRIBUTE_ALL", "#define ATTRIBUTE_ALL(FIRST, SECOND)", "#endif", ""] ++
  (groupLines "ATTRIBUTE_ENUM" (codeBearing Records) ++
  (groupLines "ATTRIBUTE_STRBOOL" (Records.getAllDerivedDefinitions "StrBoolAttr") ++
  (groupLines "ATTRIBUTE_COMPLEXSTR" (Records.getAllDerivedDefinitions "ComplexStrAttr") ++
  ["#undef ATTRIBUTE_ALL"])))

/-- The lines of the enum block between its `#undef` and closing `#endif`. -/
def enumBody (Records : RecordKeeper) : List String :=
  (enumSections Records 1 EnumKindNames).map Piece.line

/-- The line of the statement of lines 91-95 for a rule. -/
def compatLine (Rule : Record) : String :=
  "  Ret &= " ++ Rule.CompatFunc ++ "(Caller, Callee" ++
    (if Rule.AttrName = "" then "" else ", \"" ++ Rule.AttrName ++ "\"") ++ ");"

/-- The lines of the compatibility block between its `#undef` and closing
`#endif`. -/
def compatBody (Records : RecordKeeper) : List String :=
  ["static inline bool hasCompatibleFnAttrs(const Function &Caller,",
    "                                        const Function &Callee) \x7b",
    "  bool Ret = true;", ""] ++
  ((Records.getAllDerivedDefinitions "CompatRule").map compatLine ++
  (["", "  return Ret;", "\x7d", "",
    "static inline void mergeFnAttrs(Function &Caller,",
    "                                const Function &Callee) \x7b"] ++
  ((Records.getAllDerivedDefinitions "MergeRule").map
    (fun Rule => (Piece.mergeCall Rule.MergeFunc).line) ++
  ["\x7d", ""])))

/-- The lines of the property-table block between its `#undef` and closing
`#endif`. -/
def propBody (Records : RecordKeeper) : List String :=
  ["static const uint8_t AttrPropTable[] = \x7b"] ++
  ((codeBearing Records).map (fun A => entryText A.Properties ++ ",") ++ ["\x7d;"])

/-- Whether a string begins with a character that is neither a blank nor `#`. -/
def plainStart (s : String) : Bool :=
  match s.data with
  | c :: _ => !isBlank c && c != '#'
  | [] => false


/-! # Lemmas -/

theorem emitEnumDefs_eq (Defs : List Record) (OS : raw_ostream) (Value : Nat) :
    emitEnumDefs Defs (OS, Value) = (OS ++ enumDefPieces Value Defs, Value + Defs.length) := by
  induction Defs generalizing OS Value with
  | nil => simp [emitEnumDefs, enumDefPieces]
  | cons A As ih =>
    have h := ih (OS ++ [Piece.enumDef A.Name Value]) (Value + 1)
    simp only [emitEnumDefs, List.foldl_cons] at h ⊢
    rw [h]
    simp [enumDefPieces, List.enumFrom_cons]
    omega

theorem emitEnumKind_eq (Records : RecordKeeper) (OS : raw_ostream) (Value : Nat)
    (KindName : String) :
    emitEnumKind Records (OS, Value) KindName =
      (OS ++ enumSection Records Value KindName,
        Value + (Records.getAllDerivedDefinitions KindName).length) := by
  simp [emitEnumKind, emitEnumDefs_eq, enumSection]

theorem emitEnumKinds_eq (Records : RecordKeeper) (KindNames : List String)
    (OS : raw_ostream) (Value : Nat) :
    KindNames.foldl (emitEnumKind Records) (OS, Value) =
      (OS ++ enumSections Records Value KindNames,
        Value + (KindNames.flatMap Records.getAllDerivedDefinitions).length) := by
  induction KindNames generalizing OS Value with
  | nil => simp [enumSections]
  | cons K Ks ih =>
    simp only [List.foldl_cons, emitEnumKind_eq, ih, enumSections]
    simp [Nat.add_assoc]

theorem emitInvocations_eq (MacroName : String) (Defs : List Record) (OS : raw_ostream) :
    emitInvocations MacroName Defs OS =
      OS ++ Defs.map (fun A => Piece.invoke MacroName A.Name A.AttrString) := by
  induction Defs generalizing OS with
  | nil => simp [emitInvocations]
  | cons A As ih =>
    have h := ih (OS ++ [Piece.invoke MacroName A.Name A.AttrString])
    simp only [emitInvocations, List.foldl_cons] at h ⊢
    rw [h]
    simp

theorem emitInvocationsKinds_eq (Records : RecordKeeper) (MacroName : String)
    (KindNames : List String) (OS : raw_ostream) :
    KindNames.foldl
        (fun OS KindName =>
          emitInvocations MacroName (Records.getAllDerivedDefinitions KindName) OS) OS =
      OS ++ (KindNames.flatMap Records.getAllDerivedDefinitions).map
        (fun A => Piece.invoke MacroName A.Name A.AttrString) := by
  induction KindNames generalizing OS with
  | nil => simp
  | cons K Ks ih =>
    rw [List.foldl_cons, ih, emitInvocations_eq]
    simp

theorem Emit_eq (Records : RecordKeeper) (KindNames : List String) (MacroName : String)
    (OS : raw_ostream) :
    Emit Records KindNames MacroName OS = OS ++ emitPieces Records KindNames MacroName := by
  simp [Emit, emitInvocationsKinds_eq, emitPieces]

theorem emitTargetIndependentNames_eq (Records : RecordKeeper) (OS : raw_ostream) :
    emitTargetIndependentNames Records OS = OS ++ (namesBlock Records ++ enumBlock Records) := by
  simp [emitTargetIndependentNames, Emit_eq, emitEnumKinds_eq, namesBlock, enumBlock]

theorem enumAssignments_append (xs ys : List Piece) :
    enumAssignments (xs ++ ys) = enumAssignments xs ++ enumAssignments ys := by
  simp [enumAssignments]

theorem enumAssignments_emitPieces (Records : RecordKeeper) (KindNames : List String)
    (MacroName : String) : enumAssignments (emitPieces Records KindNames MacroName) = [] := by
  simp [enumAssignments, emitPieces, Piece.assignment?, List.filterMap_eq_nil_iff]

theorem enumAssignments_namesBlock (Records : RecordKeeper) :
    enumAssignments (namesBlock Records) = [] := by
  simp only [namesBlock, enumAssignments_append, enumAssignments_emitPieces]
  simp [enumAssignments, Piece.assignment?]

theorem enumAssignments_enumDefPieces (Value : Nat) (Defs : List Record) :
    enumAssignments (enumDefPieces Value Defs) =
      (Defs.enumFrom Value).map (fun p => (p.2.Name, p.1)) := by
  induction Defs generalizing Value with
  | nil => simp [enumAssignments, enumDefPieces]
  | cons A As ih =>
    have h := ih (Value + 1)
    simp only [enumAssignments, enumDefPieces] at h ⊢
    simp [List.enumFrom_cons, Piece.assignment?, h]

theorem enumAssignments_enumSections (Records : RecordKeeper) (Value : Nat)
    (KindNames : List String) :
    enumAssignments (enumSections Records Value KindNames) =
      ((KindNames.flatMap Records.getAllDerivedDefinitions).enumFrom Value).map
        (fun p => (p.2.Name, p.1)) := by
  induction KindNames generalizing Value with
  | nil => simp [enumSections, enumAssignments]
  | cons K Ks ih =>
    simp only [enumSections, enumSection, enumAssignments_append, ih, List.flatMap_cons,
      List.enumFrom_append, List.map_append]
    rw [show Piece.enumFirst K Value ::
        (enumDefPieces Value (Records.getAllDerivedDefinitions K) ++
          [Piece.enumLast K (Value + (Records.getAllDerivedDefinitions K).length - 1)]) =
        [Piece.enumFirst K Value] ++
        (enumDefPieces Value (Records.getAllDerivedDefinitions K) ++
          [Piece.enumLast K (Value + (Records.getAllDerivedDefinitions K).length - 1)]) from rfl]
    simp only [enumAssignments_append, enumAssignments_enumDefPieces]
    simp [enumAssignments, Piece.assignment?]

theorem enumAssignments_emitTargetIndependentNames (Records : RecordKeeper) :
    enumAssignments (emitTargetIndependentNames Records []) =
      ((codeBearing Records).enumFrom 1).map (fun p => (p.2.Name, p.1)) := by
  rw [emitTargetIndependentNames_eq]
  simp only [List.nil_append, enumAssignments_append, enumAssignments_namesBlock, enumBlock,
    enumAssignments_enumSections, codeBearing]
  simp [enumAssignments, Piece.assignment?]

theorem enumCodes_eq (Records : RecordKeeper) :
    (enumAssignments (emitTargetIndependentNames Records [])).map Prod.snd =
      List.range' 1 (codeBearing Records).length := by
  rw [enumAssignments_emitTargetIndependentNames, List.map_map]
  exact List.enumFrom_map_fst 1 (codeBearing Records)

/-! ## The markers of the enum block -/

theorem enumMarkers_append (xs ys : List Piece) :
    enumMarkers (xs ++ ys) = enumMarkers xs ++ enumMarkers ys := by
  simp [enumMarkers]

theorem enumMarkers_emitPieces (Records : RecordKeeper) (KindNames : List String)
    (MacroName : String) : enumMarkers (emitPieces Records KindNames MacroName) = [] := by
  simp [enumMarkers, emitPieces, Piece.isMarker, List.filter_eq_nil_iff]
  intros; subst_vars; rfl

theorem enumMarkers_namesBlock (Records : RecordKeeper) :
    enumMarkers (namesBlock Records) = [] := by
  simp only [namesBlock, enumMarkers_append, enumMarkers_emitPieces]
  simp [enumMarkers, Piece.isMarker]

theorem enumMarkers_enumDefPieces (Value : Nat) (Defs : List Record) :
    enumMarkers (enumDefPieces Value Defs) = [] := by
  simp [enumMarkers, enumDefPieces, Piece.isMarker, List.filter_eq_nil_iff]
  intros; subst_vars; rfl

theorem enumMarkers_enumSection (Records : RecordKeeper) (P : Nat) (KindName : String) :
    enumMarkers (enumSection Records (1 + P) KindName) =
      [Piece.enumFirst KindName (1 + P),
       Piece.enumLast KindName (P + (Records.getAllDerivedDefinitions KindName).length)] := by
  have h : 1 + P + (Records.getAllDerivedDefinitions KindName).length - 1 =
      P + (Records.getAllDerivedDefinitions KindName).length := by omega
  rw [enumSection, h]
  rw [show Piece.enumFirst KindName (1 + P) ::
        (enumDefPieces (1 + P) (Records.getAllDerivedDefinitions KindName) ++
          [Piece.enumLast KindName (P + (Records.getAllDerivedDefinitions KindName).length)]) =
      [Piece.enumFirst KindName (1 + P)] ++
        (enumDefPieces (1 + P) (Records.getAllDerivedDefinitions KindName) ++
          [Piece.enumLast KindName (P + (Records.getAllDerivedDefinitions KindName).length)])
      from rfl]
  simp only [enumMarkers_append, enumMarkers_enumDefPieces]
  simp [enumMarkers, Piece.isMarker]

theorem enumMarkers_enumSections (Records : RecordKeeper) (P : Nat) (KindNames : List String) :
    enumMarkers (enumSections Records (1 + P) KindNames) =
      sectionMarkers Records P KindNames := by
  induction KindNames generalizing P with
  | nil => simp [enumSections, sectionMarkers, enumMarkers]
  | cons K Ks ih =>
    rw [enumSections, enumMarkers_append, enumMarkers_enumSection, Nat.add_assoc, ih]
    simp [sectionMarkers]

theorem precedingCount_values (Records : RecordKeeper) :
    precedingCount Records "EnumAttr" = 0 ∧
    precedingCount Records "TypeAttr" = (Records.getAllDerivedDefinitions "EnumAttr").length ∧
    precedingCount Records "IntAttr" =
      (Records.getAllDerivedDefinitions "EnumAttr").length +
      (Records.getAllDerivedDefinitions "TypeAttr").length ∧
    precedingCount Records "ConstantRangeAttr" =
      (Records.getAllDerivedDefinitions "EnumAttr").length +
      (Records.getAllDerivedDefinitions "TypeAttr").length +
      (Records.getAllDerivedDefinitions "IntAttr").length ∧
    precedingCount Records "ConstantRangeListAttr" =
      (Records.getAllDerivedDefinitions "EnumAttr").length +
      (Records.getAllDerivedDefinitions "TypeAttr").length +
      (Records.getAllDerivedDefinitions "IntAttr").length +
      (Records.getAllDerivedDefinitions "ConstantRangeAttr").length := by
  simp [precedingCount, EnumKindNames, List.takeWhile, Nat.add_assoc]

theorem enumMarkers_emitTargetIndependentNames (Records : RecordKeeper) :
    enumMarkers (emitTargetIndependentNames Records []) =
      EnumKindNames.flatMap (fun K =>
        [Piece.enumFirst K (1 + precedingCount Records K),
         Piece.enumLast K
           (precedingCount Records K + (Records.getAllDerivedDefinitions K).length)]) := by
  obtain ⟨h1, h2, h3, h4, h5⟩ := precedingCount_values Records
  rw [emitTargetIndependentNames_eq]
  simp only [List.nil_append, enumMarkers_append, enumMarkers_namesBlock, enumBlock]
  rw [show (1 : Nat) = 1 + 0 from rfl, enumMarkers_enumSections]
  simp [EnumKindNames, sectionMarkers, enumMarkers, Piece.isMarker, h1, h2, h3, h4, h5]

theorem firstOf_emitTargetIndependentNames (Records : RecordKeeper) (K : String)
    (hK : K ∈ EnumKindNames) :
    firstOf (emitTargetIndependentNames Records []) K = some (1 + precedingCount Records K) := by
  rw [firstOf, enumMarkers_emitTargetIndependentNames]
  simp only [EnumKindNames, List.mem_cons, List.mem_singleton, List.not_mem_nil, or_false] at hK
  rcases hK with rfl | rfl | rfl | rfl | rfl <;>
    simp [EnumKindNames, List.findSome?]

theorem lastOf_emitTargetIndependentNames (Records : RecordKeeper) (K : String)
    (hK : K ∈ EnumKindNames) :
    lastOf (emitTargetIndependentNames Records []) K =
      some (precedingCount Records K + (Records.getAllDerivedDefinitions K).length) := by
  rw [lastOf, enumMarkers_emitTargetIndependentNames]
  simp only [EnumKindNames, List.mem_cons, List.mem_singleton, List.not_mem_nil, or_false] at hK
  rcases hK with rfl | rfl | rfl | rfl | rfl <;>
    simp [EnumKindNames, List.findSome?]

/-! ## Where a category's section sits in the enum block -/

theorem enumSections_append (Records : RecordKeeper) (Value : Nat) (Ks1 Ks2 : List String) :
    enumSections Records Value (Ks1 ++ Ks2) =
      enumSections Records Value Ks1 ++
        enumSections Records
          (Value + (Ks1.flatMap Records.getAllDerivedDefinitions).length) Ks2 := by
  induction Ks1 generalizing Value with
  | nil => simp [enumSections]
  | cons K Ks ih => simp [enumSections, ih, Nat.add_assoc]

theorem enumSection_within (Records : RecordKeeper) (Value : Nat) (pre post : List String)
    (K : String) :
    enumSection Records (Value + (pre.flatMap Records.getAllDerivedDefinitions).length) K <:+:
      enumSections Records Value (pre ++ K :: post) := by
  rw [enumSections_append, enumSections]
  exact ⟨enumSections Records Value pre,
    enumSections Records
      (Value + (pre.flatMap Records.getAllDerivedDefinitions).length +
        (Records.getAllDerivedDefinitions K).length) post,
    by simp only [List.append_assoc]⟩

theorem enumSection_within_emitTargetIndependentNames (Records : RecordKeeper) (K : String)
    (hK : K ∈ EnumKindNames) :
    enumSection Records (1 + precedingCount Records K) K <:+:
      emitTargetIndependentNames Records [] := by
  have hblock : enumSections Records 1 EnumKindNames <:+:
      emitTargetIndependentNames Records [] := by
    rw [emitTargetIndependentNames_eq]
    exact ⟨namesBlock Records ++
      [Piece.text "#ifdef GET_ATTR_ENUM\n", Piece.text "#undef GET_ATTR_ENUM\n"],
      [Piece.text "#endif\n\n"], by simp [enumBlock]⟩
  refine List.IsInfix.trans ?_ hblock
  obtain ⟨h1, h2, h3, h4, h5⟩ := precedingCount_values Records
  simp only [EnumKindNames, List.mem_cons, List.mem_singleton, List.not_mem_nil, or_false] at hK
  rcases hK with rfl | rfl | rfl | rfl | rfl
  · have h := enumSection_within Records 1 [] ["TypeAttr", "IntAttr", "ConstantRangeAttr",
      "ConstantRangeListAttr"] "EnumAttr"
    simpa [EnumKindNames, h1] using h
  · have h := enumSection_within Records 1 ["EnumAttr"] ["IntAttr", "ConstantRangeAttr",
      "ConstantRangeListAttr"] "TypeAttr"
    simpa [EnumKindNames, h2] using h
  · have h := enumSection_within Records 1 ["EnumAttr", "TypeAttr"] ["ConstantRangeAttr",
      "ConstantRangeListAttr"] "IntAttr"
    simpa [EnumKindNames, h3] using h
  · have h := enumSection_within Records 1 ["EnumAttr", "TypeAttr", "IntAttr"]
      ["ConstantRangeListAttr"] "ConstantRangeAttr"
    simpa [EnumKindNames, h4, Nat.add_assoc] using h
  · have h := enumSection_within Records 1 ["EnumAttr", "TypeAttr", "IntAttr",
      "ConstantRangeAttr"] [] "ConstantRangeListAttr"
    simpa [EnumKindNames, h5, Nat.add_assoc] using h

theorem enumDefPieces_append (Value : Nat) (xs ys : List Record) :
    enumDefPieces Value (xs ++ ys) =
      enumDefPieces Value xs ++ enumDefPieces (Value + xs.length) ys := by
  simp [enumDefPieces, List.enumFrom_append]

theorem final_assignment_within (Records : RecordKeeper) (P : Nat) (K : String) (d : Record)
    (hd : (Records.getAllDerivedDefinitions K).getLast? = some d) :
    [Piece.enumDef d.Name (P + (Records.getAllDerivedDefinitions K).length),
     Piece.enumLast K (P + (Records.getAllDerivedDefinitions K).length)] <:+:
      enumSection Records (1 + P) K := by
  obtain ⟨init, hinit⟩ := List.getLast?_eq_some_iff.mp hd
  rw [enumSection, hinit, enumDefPieces_append]
  have e1 : 1 + P + init.length = P + (init ++ [d]).length := by simp; omega
  have e2 : 1 + P + (init ++ [d]).length - 1 = P + (init ++ [d]).length := by omega
  rw [e2, e1]
  exact ⟨Piece.enumFirst K (1 + P) :: enumDefPieces (1 + P) init, [],
    by simp [enumDefPieces]⟩

/-! ## Which category a code falls in -/

theorem codeBearing_split (Records : RecordKeeper) (K : String) (hK : K ∈ EnumKindNames) :
    ∃ pre post, codeBearing Records = pre ++ (Records.getAllDerivedDefinitions K ++ post) ∧
      pre.length = precedingCount Records K := by
  obtain ⟨h1, h2, h3, h4, h5⟩ := precedingCount_values Records
  simp only [EnumKindNames, List.mem_cons, List.mem_singleton, List.not_mem_nil, or_false] at hK
  rcases hK with rfl | rfl | rfl | rfl | rfl
  · exact ⟨[], Records.getAllDerivedDefinitions "TypeAttr" ++
      (Records.getAllDerivedDefinitions "IntAttr" ++
      (Records.getAllDerivedDefinitions "ConstantRangeAttr" ++
      Records.getAllDerivedDefinitions "ConstantRangeListAttr")),
      by simp [codeBearing, EnumKindNames], by simp [h1]⟩
  · exact ⟨Records.getAllDerivedDefinitions "EnumAttr",
      Records.getAllDerivedDefinitions "IntAttr" ++
      (Records.getAllDerivedDefinitions "ConstantRangeAttr" ++
      Records.getAllDerivedDefinitions "ConstantRangeListAttr"),
      by simp [codeBearing, EnumKindNames], by simp [h2]⟩
  · exact ⟨Records.getAllDerivedDefinitions "EnumAttr" ++
      Records.getAllDerivedDefinitions "TypeAttr",
      Records.getAllDerivedDefinitions "ConstantRangeAttr" ++
      Records.getAllDerivedDefinitions "ConstantRangeListAttr",
      by simp [codeBearing, EnumKindNames], by simp [h3]⟩
  · exact ⟨Records.getAllDerivedDefinitions "EnumAttr" ++
      (Records.getAllDerivedDefinitions "TypeAttr" ++
      Records.getAllDerivedDefinitions "IntAttr"),
      Records.getAllDerivedDefinitions "ConstantRangeListAttr",
      by simp [codeBearing, EnumKindNames], by simp [h4, Nat.add_assoc]⟩
  · exact ⟨Records.getAllDerivedDefinitions "EnumAttr" ++
      (Records.getAllDerivedDefinitions "TypeAttr" ++
      (Records.getAllDerivedDefinitions "IntAttr" ++
      Records.getAllDerivedDefinitions "ConstantRangeAttr")), [],
      by simp [codeBearing, EnumKindNames], by simp [h5, Nat.add_assoc]⟩

theorem mem_middle_of_getElem? {α : Type} (pre mid post : List α) (k : Nat) (d : α)
    (h : (pre ++ (mid ++ post))[k]? = some d) (h1 : pre.length ≤ k)
    (h2 : k < pre.length + mid.length) : d ∈ mid := by
  rw [List.getElem?_append_right h1, List.getElem?_append_left (by omega)] at h
  exact List.getElem?_mem h

/-- The definition at index `k` of the concatenated listings is listed under
`K` when `k` lies in the index range of `K`. -/
theorem mem_listing_of_range (Records : RecordKeeper) (K : String) (hK : K ∈ EnumKindNames)
    (k : Nat) (d : Record) (hd : (codeBearing Records)[k]? = some d)
    (h1 : precedingCount Records K ≤ k)
    (h2 : k < precedingCount Records K + (Records.getAllDerivedDefinitions K).length) :
    d ∈ Records.getAllDerivedDefinitions K := by
  obtain ⟨pre, post, hsplit, hlen⟩ := codeBearing_split Records K hK
  rw [hsplit] at hd
  exact mem_middle_of_getElem? pre _ post k d hd (by omega) (by omega)

/-- Every index of the concatenated listings lies in the range of one class name. -/
theorem exists_range_of_lt (Records : RecordKeeper) (k : Nat)
    (hk : k < (codeBearing Records).length) :
    ∃ K ∈ EnumKindNames, precedingCount Records K ≤ k ∧
      k < precedingCount Records K + (Records.getAllDerivedDefinitions K).length := by
  obtain ⟨h1, h2, h3, h4, h5⟩ := precedingCount_values Records
  simp only [codeBearing, EnumKindNames, List.flatMap_cons, List.flatMap_nil, List.append_nil,
    List.length_append] at hk
  by_cases c1 : k < (Records.getAllDerivedDefinitions "EnumAttr").length
  · exact ⟨"EnumAttr", by simp [EnumKindNames], by omega, by omega⟩
  by_cases c2 : k < precedingCount Records "TypeAttr" +
      (Records.getAllDerivedDefinitions "TypeAttr").length
  · exact ⟨"TypeAttr", by simp [EnumKindNames], by omega, c2⟩
  by_cases c3 : k < precedingCount Records "IntAttr" +
      (Records.getAllDerivedDefinitions "IntAttr").length
  · exact ⟨"IntAttr", by simp [EnumKindNames], by omega, c3⟩
  by_cases c4 : k < precedingCount Records "ConstantRangeAttr" +
      (Records.getAllDerivedDefinitions "ConstantRangeAttr").length
  · exact ⟨"ConstantRangeAttr", by simp [EnumKindNames], by omega, c4⟩
  · exact ⟨"ConstantRangeListAttr", by simp [EnumKindNames], by omega, by omega⟩

/-! ## The shape of the property table -/

theorem emitProperties_ok (AllowIntersectAnd AllowIntersectMin : Bool) (Ps : List String)
    (OS : raw_ostream)
    (h : ∀ P ∈ Ps, rejected AllowIntersectAnd AllowIntersectMin P = false) :
    emitProperties AllowIntersectAnd AllowIntersectMin Ps OS =
      Result.ok (OS ++ Ps.map Piece.propTag) := by
  induction Ps generalizing OS with
  | nil => simp [emitProperties]
  | cons P Ps ih =>
    have hP := h P (List.mem_cons_self P Ps)
    simp only [rejected, Bool.or_eq_false_iff] at hP
    have ih2 := ih (OS ++ [Piece.propTag P]) (fun Q hQ => h Q (List.mem_cons_of_mem P hQ))
    simp [emitProperties, hP.1, hP.2, ih2]

theorem emitProperties_fatal (AllowIntersectAnd AllowIntersectMin : Bool) (Ps : List String)
    (OS : raw_ostream)
    (h : ∃ P ∈ Ps, rejected AllowIntersectAnd AllowIntersectMin P = true) :
    ∃ OS2 Msg, emitProperties AllowIntersectAnd AllowIntersectMin Ps OS =
      Result.fatal OS2 Msg := by
  induction Ps generalizing OS with
  | nil => simp at h
  | cons P Ps ih =>
    by_cases c1 : (!AllowIntersectAnd && P == "IntersectAnd") = true
    · exact ⟨OS, "'IntersectAnd' only compatible with 'EnumAttr'",
        by simp [emitProperties, c1]⟩
    by_cases c2 : (!AllowIntersectMin && P == "IntersectMin") = true
    · exact ⟨OS, "'IntersectMin' only compatible with 'IntAttr'",
        by simp [emitProperties, c1, c2]⟩
    have hrest : ∃ Q ∈ Ps, rejected AllowIntersectAnd AllowIntersectMin Q = true := by
      obtain ⟨Q, hQ, hbad⟩ := h
      rcases List.mem_cons.mp hQ with rfl | hQ2
      · simp only [rejected, Bool.or_eq_true] at hbad
        rcases hbad with hbad | hbad
        · exact absurd hbad c1
        · exact absurd hbad c2
      · exact ⟨Q, hQ2, hbad⟩
    obtain ⟨OS2, Msg, hres⟩ := ih (OS ++ [Piece.propTag P]) hrest
    exact ⟨OS2, Msg, by simp [emitProperties, c1, c2, hres]⟩

theorem emitPropDefs_ok (AllowIntersectAnd AllowIntersectMin : Bool) (Defs : List Record)
    (OS : raw_ostream)
    (h : ∀ A ∈ Defs, ∀ P ∈ A.Properties,
      rejected AllowIntersectAnd AllowIntersectMin P = false) :
    emitPropDefs AllowIntersectAnd AllowIntersectMin Defs OS =
      Result.ok (OS ++ Defs.flatMap entryPieces) := by
  induction Defs generalizing OS with
  | nil => simp [emitPropDefs]
  | cons A As ih =>
    have hA := emitProperties_ok AllowIntersectAnd AllowIntersectMin A.Properties
      (OS ++ [Piece.propZero]) (h A (List.mem_cons_self A As))
    have ih2 := ih (OS ++ [Piece.propZero] ++ A.Properties.map Piece.propTag ++ [Piece.propEnd])
      (fun B hB => h B (List.mem_cons_of_mem A hB))
    simp only [emitPropDefs, hA, ih2]
    simp [entryPieces]

theorem emitPropDefs_fatal (AllowIntersectAnd AllowIntersectMin : Bool) (Defs : List Record)
    (OS : raw_ostream)
    (h : ∃ A ∈ Defs, ∃ P ∈ A.Properties,
      rejected AllowIntersectAnd AllowIntersectMin P = true) :
    ∃ OS2 Msg, emitPropDefs AllowIntersectAnd AllowIntersectMin Defs OS =
      Result.fatal OS2 Msg := by
  induction Defs generalizing OS with
  | nil => simp at h
  | cons A As ih =>
    by_cases cA : ∃ P ∈ A.Properties, rejected AllowIntersectAnd AllowIntersectMin P = true
    · obtain ⟨OS2, Msg, hres⟩ := emitProperties_fatal AllowIntersectAnd AllowIntersectMin
        A.Properties (OS ++ [Piece.propZero]) cA
      exact ⟨OS2, Msg, by simp only [emitPropDefs, hres]⟩
    · have hA : ∀ P ∈ A.Properties,
          rejected AllowIntersectAnd AllowIntersectMin P = false := by
        intro P hP
        cases hr : rejected AllowIntersectAnd AllowIntersectMin P
        · rfl
        · exact absurd ⟨P, hP, hr⟩ cA
      have hok := emitProperties_ok AllowIntersectAnd AllowIntersectMin A.Properties
        (OS ++ [Piece.propZero]) hA
      have hrest : ∃ B ∈ As, ∃ P ∈ B.Properties,
          rejected AllowIntersectAnd AllowIntersectMin P = true := by
        obtain ⟨B, hB, hbad⟩ := h
        rcases List.mem_cons.mp hB with rfl | hB2
        · exact absurd hbad cA
        · exact ⟨B, hB2, hbad⟩
      obtain ⟨OS2, Msg, hres⟩ := ih
        (OS ++ [Piece.propZero] ++ List.map Piece.propTag A.Properties ++ [Piece.propEnd]) hrest
      exact ⟨OS2, Msg, by simp only [emitPropDefs, hok, hres]⟩

theorem emitPropKinds_ok (Records : RecordKeeper) (KindNames : List String) (OS : raw_ostream)
    (h : AllAccepted Records KindNames) :
    emitPropKinds Records KindNames OS =
      Result.ok (OS ++
        (KindNames.flatMap Records.getAllDerivedDefinitions).flatMap entryPieces) := by
  induction KindNames generalizing OS with
  | nil => simp [emitPropKinds]
  | cons K Ks ih =>
    have hK := emitPropDefs_ok (K == "EnumAttr") (K == "IntAttr")
      (Records.getAllDerivedDefinitions K) OS (h K (List.mem_cons_self K Ks))
    have ih2 := ih (OS ++ (Records.getAllDerivedDefinitions K).flatMap entryPieces)
      (fun K2 hK2 => h K2 (List.mem_cons_of_mem K hK2))
    simp only [emitPropKinds, hK, ih2]
    simp

theorem emitPropKinds_fatal (Records : RecordKeeper) (KindNames : List String)
    (OS : raw_ostream) (h : ¬ AllAccepted Records KindNames) :
    ∃ OS2 Msg, emitPropKinds Records KindNames OS = Result.fatal OS2 Msg := by
  induction KindNames generalizing OS with
  | nil => exact absurd (fun K hK => by simp at hK) h
  | cons K Ks ih =>
    by_cases cK : ∃ A ∈ Records.getAllDerivedDefinitions K, ∃ P ∈ A.Properties,
        rejected (K == "EnumAttr") (K == "IntAttr") P = true
    · obtain ⟨OS2, Msg, hres⟩ := emitPropDefs_fatal (K == "EnumAttr") (K == "IntAttr")
        (Records.getAllDerivedDefinitions K) OS cK
      exact ⟨OS2, Msg, by simp only [emitPropKinds, hres]⟩
    · have hK : ∀ A ∈ Records.getAllDerivedDefinitions K, ∀ P ∈ A.Properties,
          rejected (K == "EnumAttr") (K == "IntAttr") P = false := by
        intro A hA P hP
        cases hr : rejected (K == "EnumAttr") (K == "IntAttr") P
        · rfl
        · exact absurd ⟨A, hA, P, hP, hr⟩ cK
      have hok := emitPropDefs_ok (K == "EnumAttr") (K == "IntAttr")
        (Records.getAllDerivedDefinitions K) OS hK
      have hrest : ¬ AllAccepted Records Ks := by
        intro hall
        apply h
        intro K2 hK2
        rcases List.mem_cons.mp hK2 with rfl | hK3
        · exact hK
        · exact hall K2 hK3
      obtain ⟨OS2, Msg, hres⟩ := ih
        (OS ++ (Records.getAllDerivedDefinitions K).flatMap entryPieces) hrest
      exact ⟨OS2, Msg, by simp only [emitPropKinds, hok, hres]⟩

theorem emitAttributeProperties_ok (Records : RecordKeeper) (OS : raw_ostream)
    (h : AllAccepted Records EnumKindNames) :
    emitAttributeProperties Records OS = Result.ok (OS ++ propBlock Records) := by
  simp only [emitAttributeProperties, emitPropKinds_ok Records EnumKindNames _ h]
  simp [propBlock, codeBearing]

theorem emitAttributeProperties_fatal (Records : RecordKeeper) (OS : raw_ostream)
    (h : ¬ AllAccepted Records EnumKindNames) :
    ∃ OS2 Msg, emitAttributeProperties Records OS = Result.fatal OS2 Msg := by
  obtain ⟨OS2, Msg, hres⟩ := emitPropKinds_fatal Records EnumKindNames
    (OS ++ [Piece.text "#ifdef GET_ATTR_PROP_TABLE\n"] ++
      [Piece.text "#undef GET_ATTR_PROP_TABLE\n"] ++
      [Piece.text "static const uint8_t AttrPropTable[] = \x7b\n"]) h
  exact ⟨OS2, Msg, by simp only [emitAttributeProperties, hres]⟩

theorem emitAttributeProperties_eq_of_ok (Records : RecordKeeper) (OS OS2 : raw_ostream)
    (h : emitAttributeProperties Records OS = Result.ok OS2) :
    AllAccepted Records EnumKindNames ∧ OS2 = OS ++ propBlock Records := by
  by_cases hall : AllAccepted Records EnumKindNames
  · rw [emitAttributeProperties_ok Records OS hall] at h
    exact ⟨hall, (Result.ok.inj h).symm⟩
  · obtain ⟨OS3, Msg, hres⟩ := emitAttributeProperties_fatal Records OS hall
    rw [hres] at h
    cases h

/-- A tag is rejected under class name `K` exactly when it is `IntersectAnd`
outside EnumAttr or `IntersectMin` outside IntAttr. -/
theorem rejected_iff (K P : String) :
    rejected (K == "EnumAttr") (K == "IntAttr") P = true ↔
      (P = "IntersectAnd" ∧ K ≠ "EnumAttr") ∨ (P = "IntersectMin" ∧ K ≠ "IntAttr") := by
  simp [rejected]
  tauto

theorem not_allAccepted_iff (Records : RecordKeeper) (KindNames : List String) :
    ¬ AllAccepted Records KindNames ↔
      ∃ K ∈ KindNames, ∃ d ∈ Records.getAllDerivedDefinitions K,
        ("IntersectAnd" ∈ d.Properties ∧ K ≠ "EnumAttr") ∨
        ("IntersectMin" ∈ d.Properties ∧ K ≠ "IntAttr") := by
  constructor
  · intro h
    by_contra hno
    apply h
    intro K hK d hd P hP
    cases hr : rejected (K == "EnumAttr") (K == "IntAttr") P
    · rfl
    · exfalso
      apply hno
      rcases (rejected_iff K P).mp hr with ⟨rfl, hne⟩ | ⟨rfl, hne⟩
      · exact ⟨K, hK, d, hd, Or.inl ⟨hP, hne⟩⟩
      · exact ⟨K, hK, d, hd, Or.inr ⟨hP, hne⟩⟩
  · rintro ⟨K, hK, d, hd, hbad⟩ hall
    rcases hbad with ⟨hP, hne⟩ | ⟨hP, hne⟩
    · have := hall K hK d hd _ hP
      rw [(rejected_iff K "IntersectAnd").mpr (Or.inl ⟨rfl, hne⟩)] at this
      cases this
    · have := hall K hK d hd _ hP
      rw [(rejected_iff K "IntersectMin").mpr (Or.inr ⟨rfl, hne⟩)] at this
      cases this

/-! ## Reading the property table back -/

theorem readEntries_tags (tags : List String) (rest cur : List Piece) :
    readEntries (tags.map Piece.propTag ++ rest) cur =
      readEntries rest (cur ++ tags.map Piece.propTag) := by
  induction tags generalizing cur with
  | nil => simp
  | cons t ts ih => simp [readEntries, ih]

theorem readEntries_entryPieces (A : Record) (rest cur : List Piece) :
    readEntries (entryPieces A ++ rest) cur =
      (Piece.propZero :: A.Properties.map Piece.propTag) :: readEntries rest [] := by
  simp [entryPieces, readEntries, readEntries_tags]

theorem readEntries_entries (Defs : List Record) (rest cur : List Piece) :
    readEntries (Defs.flatMap entryPieces ++ rest) cur =
      match Defs with
      | [] => readEntries rest cur
      | _ :: _ =>
        Defs.map (fun A => Piece.propZero :: A.Properties.map Piece.propTag) ++
          readEntries rest [] := by
  induction Defs generalizing cur with
  | nil => simp
  | cons A As ih =>
    have h := ih []
    simp only [List.flatMap_cons, List.append_assoc, readEntries_entryPieces]
    rw [h]
    cases As <;> simp

theorem propTableEntries_propBlock (Records : RecordKeeper) :
    propTableEntries (propBlock Records) =
      (codeBearing Records).map (fun A => Piece.propZero :: A.Properties.map Piece.propTag) := by
  have h : ∀ (a b c : String) (rest : List Piece),
      readEntries ([Piece.text a, Piece.text b, Piece.text c] ++ rest) [] =
        readEntries rest [] := by
    intro a b c rest
    simp [readEntries]
  rw [propTableEntries, propBlock, h, readEntries_entries]
  cases codeBearing Records <;> simp [readEntries]

theorem renderAll_entry (tags : List String) :
    renderAll (Piece.propZero :: tags.map Piece.propTag) = entryText tags := by
  have h : renderAll (tags.map Piece.propTag) =
      tags.foldr (fun t rest => " | AttributeProperty::" ++ t ++ rest) "" := by
    induction tags with
    | nil => rfl
    | cons t ts ih => simp [renderAll, Piece.render, ih, String.append_assoc]
  simp [renderAll, Piece.render, entryText, h]

theorem entryValue_entry (flag : String → Nat) (tags : List String) :
    entryValue flag (Piece.propZero :: tags.map Piece.propTag) =
      tags.foldl (fun acc t => acc ||| flag t) 0 := by
  simp [entryValue, List.foldl_map]

theorem testBit_foldl_lor (flag : String → Nat) (tags : List String) (acc b : Nat) :
    (tags.foldl (fun acc t => acc ||| flag t) acc).testBit b = true ↔
      acc.testBit b = true ∨ ∃ t ∈ tags, (flag t).testBit b = true := by
  induction tags generalizing acc with
  | nil => simp
  | cons t ts ih =>
    simp only [List.foldl_cons, ih, Nat.testBit_lor, Bool.or_eq_true, List.mem_cons,
      exists_eq_or_imp]
    tauto

theorem foldl_lor_lt (flag : String → Nat) (tags : List String) (acc : Nat)
    (hacc : acc < 2 ^ 8) (h : ∀ t ∈ tags, flag t < 2 ^ 8) :
    tags.foldl (fun acc t => acc ||| flag t) acc < 2 ^ 8 := by
  induction tags generalizing acc with
  | nil => simpa using hacc
  | cons t ts ih =>
    exact ih _ (Nat.or_lt_two_pow hacc (h t (List.mem_cons_self t ts)))
      (fun u hu => h u (List.mem_cons_of_mem t hu))

theorem run_eq (Records : RecordKeeper) (OS : raw_ostream) :
    run Records OS =
      emitAttributeProperties Records
        (emitFnAttrCompatCheck Records (emitTargetIndependentNames Records OS) false) := rfl

/-! ## The shape of the compatibility block -/

theorem emitCompatRule_eq (OS : raw_ostream) (Rule : Record) :
    emitCompatRule OS Rule = OS ++ compatStatement Rule := by
  by_cases h : Rule.AttrName = ""
  · have h2 : Rule.AttrName.isEmpty = true := (String.isEmpty_iff _).mpr h
    simp [emitCompatRule, compatStatement, h2, if_pos h]
  · have h2 : Rule.AttrName.isEmpty = false := by
      cases hb : Rule.AttrName.isEmpty
      · rfl
      · exact absurd ((String.isEmpty_iff _).mp hb) h
    simp [emitCompatRule, compatStatement, h, h2]

theorem emitCompatRules_eq (Rules : List Record) (OS : raw_ostream) :
    Rules.foldl emitCompatRule OS = OS ++ Rules.flatMap compatStatement := by
  induction Rules generalizing OS with
  | nil => simp
  | cons Rule Rules ih => simp [List.foldl_cons, ih, emitCompatRule_eq]

theorem emitMergeRules_eq (Rules : List Record) (OS : raw_ostream) :
    Rules.foldl emitMergeRule OS =
      OS ++ Rules.map (fun Rule => Piece.mergeCall Rule.MergeFunc) := by
  induction Rules generalizing OS with
  | nil => simp
  | cons Rule Rules ih => simp [List.foldl_cons, ih, emitMergeRule]

theorem emitFnAttrCompatCheck_eq (Records : RecordKeeper) (OS : raw_ostream)
    (IsStringAttr : Bool) :
    emitFnAttrCompatCheck Records OS IsStringAttr = OS ++ compatBlock Records := by
  simp [emitFnAttrCompatCheck, emitCompatRules_eq, emitMergeRules_eq, compatBlock,
    compatSignature, mergeSignature, closeFunction]

theorem dropWhile_append_of_all {α : Type} (p : α → Bool) (xs ys : List α)
    (h : ∀ x ∈ xs, p x = true) : (xs ++ ys).dropWhile p = ys.dropWhile p := by
  induction xs with
  | nil => rfl
  | cons x xs ih =>
    simp only [List.cons_append, List.dropWhile_cons, h x (List.mem_cons_self x xs), if_true]
    exact ih (fun y hy => h y (List.mem_cons_of_mem x hy))

theorem takeWhile_append_stop {α : Type} (p : α → Bool) (xs : List α) (y : α) (rest : List α)
    (h : ∀ x ∈ xs, p x = true) (hy : p y = false) :
    (xs ++ y :: rest).takeWhile p = xs := by
  induction xs with
  | nil => simp [List.takeWhile_cons, hy]
  | cons x xs ih =>
    simp only [List.cons_append, List.takeWhile_cons, h x (List.mem_cons_self x xs), if_true]
    rw [ih (fun z hz => h z (List.mem_cons_of_mem x hz))]

theorem mem_flatMap_compatStatement_ne_text (Rules : List Record) (t : String) :
    ∀ x ∈ Rules.flatMap compatStatement, (x != Piece.text t) = true := by
  intro x hx
  simp only [List.mem_flatMap, compatStatement] at hx
  obtain ⟨Rule, _, hmem⟩ := hx
  by_cases h : Rule.AttrName = "" <;> simp [h] at hmem <;>
    rcases hmem with rfl | hmem <;> try rfl
  all_goals (first | (subst hmem; rfl) | (rcases hmem with rfl | rfl <;> rfl))

theorem functionBody_compat (Records : RecordKeeper) (IsStringAttr : Bool) :
    functionBody compatSignature (emitFnAttrCompatCheck Records [] IsStringAttr) =
      [Piece.text "  bool Ret = true;\n\n"] ++
        ((Records.getAllDerivedDefinitions "CompatRule").flatMap compatStatement ++
        [Piece.text "\n", Piece.text "  return Ret;\n"]) := by
  have hshape : compatBlock Records =
      [Piece.text "#ifdef GET_ATTR_COMPAT_FUNC\n", Piece.text "#undef GET_ATTR_COMPAT_FUNC\n"] ++
      (Piece.text compatSignature ::
        (([Piece.text "  bool Ret = true;\n\n"] ++
          ((Records.getAllDerivedDefinitions "CompatRule").flatMap compatStatement ++
          [Piece.text "\n", Piece.text "  return Ret;\n"])) ++
        (Piece.text closeFunction ::
        (([Piece.text mergeSignature] ++
          (Records.getAllDerivedDefinitions "MergeRule").map
            (fun Rule => Piece.mergeCall Rule.MergeFunc)) ++
        [Piece.text closeFunction, Piece.text "#endif\n"])))) := rfl
  rw [emitFnAttrCompatCheck_eq, List.nil_append, hshape, functionBody,
    dropWhile_append_of_all _ _ _ (by decide)]
  rw [List.dropWhile_cons]
  simp only [bne_self_eq_false, Bool.false_eq_true, if_false, List.drop_one, List.tail_cons]
  apply takeWhile_append_stop
  · intro x hx
    simp only [List.mem_append, List.mem_singleton, List.mem_cons, List.not_mem_nil,
      or_false] at hx
    rcases hx with rfl | hx | rfl | rfl
    · decide
    · exact mem_flatMap_compatStatement_ne_text _ _ x hx
    · decide
    · decide
  · simp

theorem functionBody_merge (Records : RecordKeeper) (IsStringAttr : Bool) :
    functionBody mergeSignature (emitFnAttrCompatCheck Records [] IsStringAttr) =
      (Records.getAllDerivedDefinitions "MergeRule").map
        (fun Rule => Piece.mergeCall Rule.MergeFunc) := by
  have hshape : compatBlock Records =
      ([Piece.text "#ifdef GET_ATTR_COMPAT_FUNC\n", Piece.text "#undef GET_ATTR_COMPAT_FUNC\n",
        Piece.text compatSignature, Piece.text "  bool Ret = true;\n\n"] ++
        ((Records.getAllDerivedDefinitions "CompatRule").flatMap compatStatement ++
          [Piece.text "\n", Piece.text "  return Ret;\n", Piece.text closeFunction])) ++
      (Piece.text mergeSignature ::
        ((Records.getAllDerivedDefinitions "MergeRule").map
            (fun Rule => Piece.mergeCall Rule.MergeFunc) ++
          Piece.text closeFunction :: [Piece.text "#endif\n"])) := by
    simp [compatBlock]
  have hpre : ∀ x ∈ [Piece.text "#ifdef GET_ATTR_COMPAT_FUNC\n",
        Piece.text "#undef GET_ATTR_COMPAT_FUNC\n",
        Piece.text compatSignature, Piece.text "  bool Ret = true;\n\n"] ++
        ((Records.getAllDerivedDefinitions "CompatRule").flatMap compatStatement ++
          [Piece.text "\n", Piece.text "  return Ret;\n", Piece.text closeFunction]),
      (x != Piece.text mergeSignature) = true := by
    intro x hx
    rcases List.mem_append.mp hx with hx | hx
    · simp only [List.mem_cons, List.mem_singleton, List.not_mem_nil, or_false] at hx
      rcases hx with rfl | rfl | rfl | rfl <;> decide
    · rcases List.mem_append.mp hx with hx | hx
      · exact mem_flatMap_compatStatement_ne_text _ _ x hx
      · simp only [List.mem_cons, List.mem_singleton, List.not_mem_nil, or_false] at hx
        rcases hx with rfl | rfl | rfl <;> decide
  rw [emitFnAttrCompatCheck_eq, List.nil_append, hshape, functionBody,
    dropWhile_append_of_all _ _ _ hpre, List.dropWhile_cons]
  simp only [bne_self_eq_false, Bool.false_eq_true, if_false, List.drop_one, List.tail_cons]
  apply takeWhile_append_stop
  · intro x hx
    obtain ⟨Rule, _, rfl⟩ := List.mem_map.mp hx
    rfl
  · simp

theorem readStatements_compatStatement (Rule : Record) (rest cur : List Piece) :
    readStatements (compatStatement Rule ++ rest) cur =
      compatStatement Rule :: readStatements rest [] := by
  by_cases h : Rule.AttrName = "" <;> simp [compatStatement, readStatements, h]

theorem readStatements_statements (Rules : List Record) (rest cur : List Piece) :
    readStatements (Rules.flatMap compatStatement ++ rest) cur =
      match Rules with
      | [] => readStatements rest cur
      | _ :: _ => Rules.map compatStatement ++ readStatements rest [] := by
  induction Rules generalizing cur with
  | nil => simp
  | cons Rule Rules ih =>
    have h := ih []
    simp only [List.flatMap_cons, List.append_assoc, readStatements_compatStatement]
    rw [h]
    cases Rules <;> simp

theorem compatStatements_functionBody (Records : RecordKeeper) (IsStringAttr : Bool) :
    compatStatements
        (functionBody compatSignature (emitFnAttrCompatCheck Records [] IsStringAttr)) =
      (Records.getAllDerivedDefinitions "CompatRule").map compatStatement := by
  rw [functionBody_compat, compatStatements]
  rw [show [Piece.text "  bool Ret = true;\n\n"] ++
      ((Records.getAllDerivedDefinitions "CompatRule").flatMap compatStatement ++
        [Piece.text "\n", Piece.text "  return Ret;\n"]) =
      Piece.text "  bool Ret = true;\n\n" ::
      ((Records.getAllDerivedDefinitions "CompatRule").flatMap compatStatement ++
        [Piece.text "\n", Piece.text "  return Ret;\n"]) from rfl]
  have h0 : ∀ (t : String) (rest cur : List Piece),
      readStatements (Piece.text t :: rest) cur = readStatements rest cur := by
    intro t rest cur
    simp [readStatements]
  rw [h0, readStatements_statements]
  cases Records.getAllDerivedDefinitions "CompatRule" <;> simp [readStatements]

theorem renderAll_compatStatement (Rule : Record) :
    renderAll (compatStatement Rule) =
      "  Ret &= " ++ Rule.CompatFunc ++ "(Caller, Callee" ++
        (if Rule.AttrName = "" then "" else ", \"" ++ Rule.AttrName ++ "\"") ++ ");\n" := by
  by_cases h : Rule.AttrName = "" <;>
    simp [compatStatement, renderAll, Piece.render, h, String.append_assoc]

theorem foldl_compatRun {σ : Type} (call : List Piece → σ → Bool × σ)
    (stmts : List (List Piece)) (st : CompatRun σ)
    (hst : st.Ret = st.calls.all (fun c => c.2)) :
    (stmts.foldl
      (fun st stmt =>
        ({ Ret := st.Ret && (call stmt st.env).1,
           calls := st.calls ++ [(stmt, (call stmt st.env).1)],
           env := (call stmt st.env).2 } : CompatRun σ)) st).calls.map Prod.fst =
        st.calls.map Prod.fst ++ stmts ∧
    (stmts.foldl
      (fun st stmt =>
        ({ Ret := st.Ret && (call stmt st.env).1,
           calls := st.calls ++ [(stmt, (call stmt st.env).1)],
           env := (call stmt st.env).2 } : CompatRun σ)) st).Ret =
      (stmts.foldl
        (fun st stmt =>
          ({ Ret := st.Ret && (call stmt st.env).1,
             calls := st.calls ++ [(stmt, (call stmt st.env).1)],
             env := (call stmt st.env).2 } : CompatRun σ)) st).calls.all (fun c => c.2) := by
  induction stmts generalizing st with
  | nil => simp [hst]
  | cons stmt stmts ih =>
    simp only [List.foldl_cons]
    have h := ih
      ({ Ret := st.Ret && (call stmt st.env).1,
         calls := st.calls ++ [(stmt, (call stmt st.env).1)],
         env := (call stmt st.env).2 } : CompatRun σ)
      (by simp [hst])
    refine ⟨?_, h.2⟩
    rw [h.1]
    simp

/-! ## The name table -/

theorem emitPieces_eq_macroGroup (Records : RecordKeeper) (KindNames : List String)
    (MacroName : String) :
    emitPieces Records KindNames MacroName =
      macroGroup MacroName (KindNames.flatMap Records.getAllDerivedDefinitions) := rfl

theorem mem_macroGroup_ne_text (MacroName : String) (Defs : List Record) (t : String)
    (ht : t ≠ "#endif\n\n") :
    ∀ x ∈ macroGroup MacroName Defs, (x != Piece.text t) = true := by
  intro x hx
  simp only [macroGroup, List.mem_append, List.mem_cons, List.mem_singleton, List.not_mem_nil,
    or_false, List.mem_map] at hx
  rcases hx with (rfl | rfl | rfl) | ⟨A, _, rfl⟩ | rfl
  · rfl
  · rfl
  · simpa using fun h => ht h.symm
  · rfl
  · rfl

theorem nameTable_emitTargetIndependentNames (Records : RecordKeeper) :
    nameTable (emitTargetIndependentNames Records []) = namesBlock Records := by
  rw [emitTargetIndependentNames_eq, List.nil_append, nameTable, enumBlock]
  apply takeWhile_append_stop
  · intro x hx
    simp only [namesBlock, emitPieces_eq_macroGroup, List.mem_append] at hx
    rcases hx with hx | hx | hx | hx | hx
    · simp only [List.mem_cons, List.mem_singleton, List.not_mem_nil, or_false] at hx
      rcases hx with rfl | rfl | rfl | rfl | rfl <;> decide
    · exact mem_macroGroup_ne_text _ _ _ (by decide) x hx
    · exact mem_macroGroup_ne_text _ _ _ (by decide) x hx
    · exact mem_macroGroup_ne_text _ _ _ (by decide) x hx
    · simp only [List.mem_cons, List.mem_singleton, List.not_mem_nil, or_false] at hx
      rcases hx with rfl | rfl <;> decide
  · simp

theorem renderAll_append (xs ys : List Piece) :
    renderAll (xs ++ ys) = renderAll xs ++ renderAll ys := by
  induction xs with
  | nil => simp [renderAll]
  | cons x xs ih => simp [renderAll, ih, String.append_assoc]

theorem renderAll_invocations (MacroName : String) (Defs : List Record) :
    renderAll (Defs.map (fun A => Piece.invoke MacroName A.Name A.AttrString)) =
      Defs.foldr
        (fun A rest => MacroName ++ "(" ++ A.Name ++ "," ++ A.AttrString ++ ")\n" ++ rest) "" := by
  induction Defs with
  | nil => rfl
  | cons A As ih => simp [renderAll, Piece.render, ih]

theorem invocations_append (xs ys : List Piece) :
    invocations (xs ++ ys) = invocations xs ++ invocations ys := by
  simp [invocations]

theorem invocations_macroGroup (MacroName : String) (Defs : List Record) :
    invocations (macroGroup MacroName Defs) =
      Defs.map (fun A => (MacroName, A.Name, A.AttrString)) := by
  have h : List.filterMap Piece.invocation?
      (Defs.map (fun A => Piece.invoke MacroName A.Name A.AttrString)) =
      Defs.map (fun A => (MacroName, A.Name, A.AttrString)) := by
    induction Defs with
    | nil => rfl
    | cons A As ih => simp [Piece.invocation?, ih]
  simp only [invocations, macroGroup, List.filterMap_append, h]
  simp [Piece.invocation?]

theorem invocations_enumDefPieces (Value : Nat) (Defs : List Record) :
    invocations (enumDefPieces Value Defs) = [] := by
  simp [invocations, enumDefPieces, List.filterMap_eq_nil_iff]
  intros; rfl

theorem invocations_enumSections (Records : RecordKeeper) (Value : Nat)
    (KindNames : List String) : invocations (enumSections Records Value KindNames) = [] := by
  induction KindNames generalizing Value with
  | nil => rfl
  | cons K Ks ih =>
    rw [enumSections, invocations_append, ih, enumSection]
    rw [show Piece.enumFirst K Value ::
        (enumDefPieces Value (Records.getAllDerivedDefinitions K) ++
          [Piece.enumLast K (Value + (Records.getAllDerivedDefinitions K).length - 1)]) =
        [Piece.enumFirst K Value] ++
        (enumDefPieces Value (Records.getAllDerivedDefinitions K) ++
          [Piece.enumLast K (Value + (Records.getAllDerivedDefinitions K).length - 1)]) from rfl]
    simp only [invocations_append, invocations_enumDefPieces]
    simp [invocations, Piece.invocation?]

theorem invocations_emitTargetIndependentNames (Records : RecordKeeper) :
    invocations (emitTargetIndependentNames Records []) =
      (codeBearing Records).map (fun A => ("ATTRIBUTE_ENUM", A.Name, A.AttrString)) ++
      ((Records.getAllDerivedDefinitions "StrBoolAttr").map
        (fun A => ("ATTRIBUTE_STRBOOL", A.Name, A.AttrString)) ++
      (Records.getAllDerivedDefinitions "ComplexStrAttr").map
        (fun A => ("ATTRIBUTE_COMPLEXSTR", A.Name, A.AttrString))) := by
  rw [emitTargetIndependentNames_eq, List.nil_append]
  simp only [namesBlock, enumBlock, emitPieces_eq_macroGroup, invocations_append,
    invocations_macroGroup, invocations_enumSections, codeBearing]
  simp [invocations, Piece.invocation?]


theorem emitPropKinds_congr (Records Records2 : RecordKeeper) (KindNames : List String)
    (OS : raw_ostream)
    (h : ∀ K ∈ KindNames,
      Records2.getAllDerivedDefinitions K = Records.getAllDerivedDefinitions K) :
    emitPropKinds Records2 KindNames OS = emitPropKinds Records KindNames OS := by
  induction KindNames generalizing OS with
  | nil => rfl
  | cons K Ks ih =>
    simp only [emitPropKinds, h K (List.mem_cons_self K Ks)]
    cases emitPropDefs (K == "EnumAttr") (K == "IntAttr")
        (Records.getAllDerivedDefinitions K) OS with
    | ok OS2 => exact ih OS2 (fun K2 hK2 => h K2 (List.mem_cons_of_mem K hK2))
    | fatal OS2 Msg => rfl

theorem codeBearing_congr (Records Records2 : RecordKeeper)
    (h : ∀ K ∈ EnumKindNames,
      Records2.getAllDerivedDefinitions K = Records.getAllDerivedDefinitions K) :
    codeBearing Records2 = codeBearing Records := by
  simp only [codeBearing, EnumKindNames, List.flatMap_cons, List.flatMap_nil]
  rw [h "EnumAttr" (by decide), h "TypeAttr" (by decide), h "IntAttr" (by decide),
    h "ConstantRangeAttr" (by decide), h "ConstantRangeListAttr" (by decide)]

theorem mem_codeBearing (Records : RecordKeeper) (d : Record) :
    d ∈ codeBearing Records ↔
      ∃ K ∈ EnumKindNames, d ∈ Records.getAllDerivedDefinitions K := by
  simp [codeBearing, List.mem_flatMap]


/-! ## Where a failing run stops -/

theorem violates_eq_rejected (K P : String) :
    violates (K, P) = rejected (K == "EnumAttr") (K == "IntAttr") P := by
  simp only [violates, rejected, bne]
  cases (K == "EnumAttr") <;> cases (K == "IntAttr") <;>
    cases (P == "IntersectAnd") <;> cases (P == "IntersectMin") <;> rfl

theorem emitProperties_first (AllowIntersectAnd AllowIntersectMin : Bool) (Ps : List String)
    (P : String) (h : Ps.find? (rejected AllowIntersectAnd AllowIntersectMin) = some P) :
    ∃ pre rest, Ps.map Piece.propTag = pre ++ rest ∧ rest ≠ [] ∧
      ∀ OS, emitProperties AllowIntersectAnd AllowIntersectMin Ps OS =
        Result.fatal (OS ++ pre) (diagnosticFor P) := by
  induction Ps with
  | nil => simp at h
  | cons Q Qs ih =>
    rw [List.find?_cons] at h
    cases hQ : rejected AllowIntersectAnd AllowIntersectMin Q
    · rw [hQ] at h
      obtain ⟨pre, rest, hsplit, hrest, hrun⟩ := ih h
      refine ⟨Piece.propTag Q :: pre, rest, by simp [hsplit], hrest, ?_⟩
      intro OS
      simp only [rejected, Bool.or_eq_false_iff] at hQ
      simp [emitProperties, hQ.1, hQ.2, hrun]
    · rw [hQ] at h
      have hPQ : Q = P := Option.some.inj h
      subst hPQ
      refine ⟨[], List.map Piece.propTag (Q :: Qs), by simp, by simp, ?_⟩
      intro OS
      by_cases c1 : (!AllowIntersectAnd && Q == "IntersectAnd") = true
      · have hQ1 : Q = "IntersectAnd" := by
          simp only [Bool.and_eq_true, beq_iff_eq] at c1
          exact c1.2
        rw [emitProperties, if_pos c1]
        simp [diagnosticFor, hQ1]
      · have c2 : (!AllowIntersectMin && Q == "IntersectMin") = true := by
          simp only [rejected, Bool.or_eq_true] at hQ
          rcases hQ with hQ | hQ
          · exact absurd hQ c1
          · exact hQ
        have hQ2 : Q = "IntersectMin" := by
          simp only [Bool.and_eq_true, beq_iff_eq] at c2
          exact c2.2
        have hne : ¬ Q = "IntersectAnd" := by rw [hQ2]; decide
        rw [emitProperties, if_neg c1, if_pos c2]
        simp [diagnosticFor, hne]

theorem emitPropDefs_first (AllowIntersectAnd AllowIntersectMin : Bool) (Defs : List Record)
    (P : String)
    (h : (Defs.flatMap (fun A => A.Properties)).find?
      (rejected AllowIntersectAnd AllowIntersectMin) = some P) :
    ∃ pre rest, Defs.flatMap entryPieces = pre ++ rest ∧ rest ≠ [] ∧
      ∀ OS, emitPropDefs AllowIntersectAnd AllowIntersectMin Defs OS =
        Result.fatal (OS ++ pre) (diagnosticFor P) := by
  induction Defs with
  | nil => simp at h
  | cons A As ih =>
    rw [List.flatMap_cons, List.find?_append] at h
    cases hA : A.Properties.find? (rejected AllowIntersectAnd AllowIntersectMin) with
    | some Q =>
      rw [hA] at h
      have hQP : Q = P := Option.some.inj h
      subst hQP
      obtain ⟨pre, rest, hsplit, hrest, hrun⟩ :=
        emitProperties_first AllowIntersectAnd AllowIntersectMin A.Properties Q hA
      refine ⟨Piece.propZero :: pre, rest ++ Piece.propEnd :: As.flatMap entryPieces,
        by simp [entryPieces, hsplit], by simp [hrest], ?_⟩
      intro OS
      simp [emitPropDefs, hrun]
    | none =>
      rw [hA] at h
      obtain ⟨pre, rest, hsplit, hrest, hrun⟩ := ih h
      have hok := emitProperties_ok AllowIntersectAnd AllowIntersectMin A.Properties
      refine ⟨entryPieces A ++ pre, rest, by simp [hsplit], hrest, ?_⟩
      intro OS
      rw [emitPropDefs, hok (OS ++ [Piece.propZero]) (fun Q hQ => by
        have := List.find?_eq_none.mp hA Q hQ
        simpa using this)]
      simp [hrun, entryPieces]

theorem emitPropKinds_first (Records : RecordKeeper) (KindNames : List String)
    (K P : String) (h : (scannedTags Records KindNames).find? violates = some (K, P)) :
    ∃ pre rest,
      (KindNames.flatMap Records.getAllDerivedDefinitions).flatMap entryPieces = pre ++ rest ∧
      rest ≠ [] ∧
      ∀ OS, emitPropKinds Records KindNames OS = Result.fatal (OS ++ pre) (diagnosticFor P) := by
  induction KindNames with
  | nil => simp [scannedTags] at h
  | cons K2 Ks ih =>
    have hcomp : (violates ∘ fun Q : String => (K2, Q)) =
        rejected (K2 == "EnumAttr") (K2 == "IntAttr") := by
      funext Q
      exact violates_eq_rejected K2 Q
    rw [scannedTags, List.flatMap_cons, List.find?_append, List.find?_map, hcomp] at h
    cases hK : ((Records.getAllDerivedDefinitions K2).flatMap (fun A => A.Properties)).find?
        (rejected (K2 == "EnumAttr") (K2 == "IntAttr")) with
    | some Q =>
      rw [hK] at h
      have hQP : Q = P := by
        have := Option.some.inj h
        exact (Prod.mk.inj this).2
      subst hQP
      obtain ⟨pre, rest, hsplit, hrest, hrun⟩ :=
        emitPropDefs_first (K2 == "EnumAttr") (K2 == "IntAttr")
          (Records.getAllDerivedDefinitions K2) Q hK
      refine ⟨pre, rest ++ (Ks.flatMap Records.getAllDerivedDefinitions).flatMap entryPieces,
        by simp [hsplit], by simp [hrest], ?_⟩
      intro OS
      simp [emitPropKinds, hrun]
    | none =>
      rw [hK] at h
      obtain ⟨pre, rest, hsplit, hrest, hrun⟩ := ih h
      have hok := emitPropDefs_ok (K2 == "EnumAttr") (K2 == "IntAttr")
        (Records.getAllDerivedDefinitions K2)
      refine ⟨(Records.getAllDerivedDefinitions K2).flatMap entryPieces ++ pre, rest,
        by simp [hsplit], hrest, ?_⟩
      intro OS
      rw [emitPropKinds, hok OS (fun A hA Q hQ => by
        have := List.find?_eq_none.mp hK Q (List.mem_flatMap.mpr ⟨A, hA, hQ⟩)
        simpa using this)]
      simp [hrun]

theorem emitAttributeProperties_first (Records : RecordKeeper) (K P : String)
    (h : firstViolation Records = some (K, P)) :
    ∃ pre rest, propBlock Records = pre ++ rest ∧ rest ≠ [] ∧
      ∀ OS, emitAttributeProperties Records OS =
        Result.fatal (OS ++ pre) (diagnosticFor P) := by
  obtain ⟨pre, rest, hsplit, hrest, hrun⟩ := emitPropKinds_first Records EnumKindNames K P h
  refine ⟨[Piece.text "#ifdef GET_ATTR_PROP_TABLE\n", Piece.text "#undef GET_ATTR_PROP_TABLE\n",
      Piece.text "static const uint8_t AttrPropTable[] = \x7b\n"] ++ pre,
    rest ++ [Piece.text "\x7d;\n", Piece.text "#endif\n"], ?_, by simp [hrest], ?_⟩
  · rw [propBlock, codeBearing, hsplit]
    simp
  · intro OS
    simp [emitAttributeProperties, hrun]

theorem firstViolation_eq_none_iff (Records : RecordKeeper) :
    firstViolation Records = none ↔ AllAccepted Records EnumKindNames := by
  rw [firstViolation, List.find?_eq_none]
  constructor
  · intro h K hK A hA P hP
    have hmem : (K, P) ∈ scannedTags Records EnumKindNames := by
      simp only [scannedTags, List.mem_flatMap, List.mem_map]
      exact ⟨K, hK, P, ⟨A, hA, hP⟩, rfl⟩
    have := h (K, P) hmem
    rw [violates_eq_rejected] at this
    simpa using this
  · intro h kp hkp
    simp only [scannedTags, List.mem_flatMap, List.mem_map] at hkp
    obtain ⟨K, hK, P, ⟨A, hA, hP⟩, rfl⟩ := hkp
    rw [violates_eq_rejected, h K hK A hA P hP]
    simp


/-! ## Lines of a text -/

theorem splitLines_line (l : List Char) (hl : '\n' ∉ l) (cur rest : List Char) :
    splitLines cur (l ++ '\n' :: rest) = (cur ++ l) :: splitLines [] rest := by
  induction l generalizing cur with
  | nil => simp [splitLines]
  | cons c cs ih =>
    have hc : c ≠ '\n' := fun h => hl (by simp [h])
    have hcs : '\n' ∉ cs := fun h => hl (by simp [h])
    simp [splitLines, hc, ih hcs]

theorem splitLines_unlines (ls : List String) (h : ∀ l ∈ ls, '\n' ∉ l.data) :
    (splitLines [] (unlines ls).data).map String.mk = ls := by
  induction ls with
  | nil => rfl
  | cons l ls ih =>
    have h1 := h l (List.mem_cons_self l ls)
    have h2 := ih (fun m hm => h m (List.mem_cons_of_mem l hm))
    simp only [unlines, String.data_append]
    rw [List.append_assoc, List.singleton_append, splitLines_line l.data h1]
    simp [h2]

theorem linesOf_of_rendersAs (OS : raw_ostream) (ls : List String) (h : RendersAs OS ls) :
    linesOf OS = ls := by
  rw [linesOf, h.1]
  exact splitLines_unlines ls h.2

theorem unlines_append (xs ys : List String) :
    unlines (xs ++ ys) = unlines xs ++ unlines ys := by
  induction xs with
  | nil => simp [unlines]
  | cons x xs ih => simp [unlines, ih, String.append_assoc]

theorem rendersAs_nil : RendersAs [] [] := ⟨rfl, by simp⟩

theorem rendersAs_append (A B : raw_ostream) (la lb : List String)
    (hA : RendersAs A la) (hB : RendersAs B lb) : RendersAs (A ++ B) (la ++ lb) := by
  refine ⟨?_, ?_⟩
  · rw [renderAll_append, unlines_append, hA.1, hB.1]
  · intro l hl
    rcases List.mem_append.mp hl with hl | hl
    · exact hA.2 l hl
    · exact hB.2 l hl

theorem rendersAs_flatMap {α : Type} (xs : List α) (f : α → List Piece) (g : α → List String)
    (h : ∀ x ∈ xs, RendersAs (f x) (g x)) : RendersAs (xs.flatMap f) (xs.flatMap g) := by
  induction xs with
  | nil => exact rendersAs_nil
  | cons x xs ih =>
    simp only [List.flatMap_cons]
    exact rendersAs_append _ _ _ _ (h x (List.mem_cons_self x xs))
      (ih (fun y hy => h y (List.mem_cons_of_mem x hy)))

theorem rendersAs_map {α : Type} (xs : List α) (f : α → Piece) (g : α → String)
    (h : ∀ x ∈ xs, RendersAs [f x] [g x]) : RendersAs (xs.map f) (xs.map g) := by
  induction xs with
  | nil => exact rendersAs_nil
  | cons x xs ih =>
    simp only [List.map_cons]
    exact rendersAs_append [f x] _ [g x] _ (h x (List.mem_cons_self x xs))
      (ih (fun y hy => h y (List.mem_cons_of_mem x hy)))

theorem linesOf_append (A B : raw_ostream) (la lb : List String)
    (hA : RendersAs A la) (hB : RendersAs B lb) :
    linesOf (A ++ B) = linesOf A ++ linesOf B := by
  rw [linesOf_of_rendersAs _ _ (rendersAs_append A B la lb hA hB),
    linesOf_of_rendersAs _ _ hA, linesOf_of_rendersAs _ _ hB]

/-! ## Directive lines -/

theorem startsHash_cons_blank (c : Char) (cs : List Char) (hc : isBlank c = true) :
    startsHash (c :: cs) = startsHash cs := by
  simp [startsHash, List.dropWhile_cons, hc]

theorem startsHash_cons_other (c : Char) (cs : List Char) (hc : isBlank c = false)
    (hh : c ≠ '#') : startsHash (c :: cs) = false := by
  simp only [startsHash, List.dropWhile_cons, hc]
  split
  · rename_i heq
    simp only [Bool.false_eq_true, if_false, List.cons.injEq] at heq
    exact absurd heq.1 hh
  · rfl

theorem startsHash_append (a b : List Char) (ha : startsHash a = false)
    (hb : startsHash b = false) : startsHash (a ++ b) = false := by
  induction a with
  | nil => simpa using hb
  | cons c cs ih =>
    cases hc : isBlank c
    · have hh : c ≠ '#' := by
        intro h
        subst h
        simp [startsHash, List.dropWhile_cons, isBlank] at ha
      exact startsHash_cons_other c (cs ++ b) hc hh
    · rw [List.cons_append, startsHash_cons_blank c _ hc]
      rw [startsHash_cons_blank c _ hc] at ha
      exact ih ha

theorem isDirective_append (s t : String) (hs : isDirective s = false)
    (ht : isDirective t = false) : isDirective (s ++ t) = false := by
  simp only [isDirective, String.data_append] at *
  exact startsHash_append _ _ hs ht

theorem opensConditional_eq_false (l : String) (h : isDirective l = false) :
    opensConditional l = false := by
  simp [opensConditional, h]

theorem closesConditional_eq_false (l : String) (h : isDirective l = false) :
    closesConditional l = false := by
  simp [closesConditional, h]

theorem depthAfter_directives (d : Nat) (ls : List String) :
    depthAfter d (directives ls) = depthAfter d ls := by
  induction ls generalizing d with
  | nil => rfl
  | cons l ls ih =>
    cases hl : isDirective l
    · simp only [directives, List.filter_cons, hl, Bool.false_eq_true, if_false] at ih ⊢
      simp only [depthAfter, opensConditional_eq_false l hl, closesConditional_eq_false l hl,
        Bool.false_eq_true, if_false]
      exact ih d
    · simp only [directives, List.filter_cons, hl, if_true] at ih ⊢
      simp only [depthAfter]
      split
      · exact ih (d + 1)
      · split
        · cases d with
          | zero => rfl
          | succ k => exact ih k
        · exact ih d

theorem closesBlock_append (body rest : List String) (d e : Nat)
    (h : depthAfter d body = some e) :
    closesBlock d (body ++ rest) = closesBlock e rest := by
  induction body generalizing d with
  | nil =>
    simp only [depthAfter, Option.some.injEq] at h
    simp [h]
  | cons l ls ih =>
    simp only [depthAfter] at h
    simp only [List.cons_append, closesBlock]
    split
    · rename_i ho
      simp only [ho, if_true] at h
      exact ih (d + 1) h
    · rename_i ho
      simp only [ho, Bool.false_eq_true, if_false] at h
      split
      · rename_i hc
        simp only [hc, if_true] at h
        cases d with
        | zero => cases h
        | succ k => exact ih k h
      · rename_i hc
        simp only [hc, Bool.false_eq_true, if_false] at h
        exact ih d h

theorem depthAfter_of_closesBlock (rest : List String) (k d : Nat)
    (h : closesBlock k rest = true) : depthAfter (d + k + 1) rest = some d := by
  induction rest generalizing k with
  | nil => simp [closesBlock] at h
  | cons l ls ih =>
    simp only [closesBlock] at h
    simp only [depthAfter]
    split
    · rename_i ho
      simp only [ho, if_true] at h
      exact ih (k + 1) h
    · rename_i ho
      simp only [ho, Bool.false_eq_true, if_false] at h
      split
      · rename_i hc
        simp only [hc, if_true] at h
        cases k with
        | zero =>
          simp only [Bool.and_eq_true, List.all_eq_true, beq_iff_eq] at h
          have hblank : ∀ m ∈ ls, isDirective m = false := by
            intro m hm
            rw [h.2 m hm]
            rfl
          have hdir : directives ls = [] := by
            simp only [directives, List.filter_eq_nil_iff]
            intro m hm
            simp [hblank m hm]
          show depthAfter d ls = some d
          rw [← depthAfter_directives, hdir]
          rfl
        | succ j => exact ih j h
      · rename_i hc
        simp only [hc, Bool.false_eq_true, if_false] at h
        exact ih k h

theorem depthAfter_append (xs ys : List String) (d e : Nat) (h : depthAfter d xs = some e) :
    depthAfter d (xs ++ ys) = depthAfter e ys := by
  induction xs generalizing d with
  | nil =>
    simp only [depthAfter, Option.some.injEq] at h
    simp [h]
  | cons l ls ih =>
    simp only [depthAfter] at h
    simp only [List.cons_append, depthAfter]
    split
    · rename_i ho
      simp only [ho, if_true] at h
      exact ih (d + 1) h
    · rename_i ho
      simp only [ho, Bool.false_eq_true, if_false] at h
      split
      · rename_i hc
        simp only [hc, if_true] at h
        cases d with
        | zero => cases h
        | succ k => exact ih k h
      · rename_i hc
        simp only [hc, Bool.false_eq_true, if_false] at h
        exact ih d h


/-! ## The text of the blocks, line by line -/

theorem digitChar_ne_newline (k : Nat) : Nat.digitChar k ≠ '\n' := by
  by_cases hk : k < 16
  · interval_cases k <;> decide
  · have h : Nat.digitChar k = '*' := by
      unfold Nat.digitChar
      repeat rw [if_neg (by omega)]
    rw [h]
    decide

theorem toDigitsCore_no_newline (f n : Nat) (ds : List Char) (h : '\n' ∉ ds) :
    '\n' ∉ Nat.toDigitsCore 10 f n ds := by
  induction f generalizing n ds with
  | zero => simpa [Nat.toDigitsCore] using h
  | succ f ih =>
    simp only [Nat.toDigitsCore]
    split
    · intro hm
      rcases List.mem_cons.mp hm with hm | hm
      · exact digitChar_ne_newline _ hm.symm
      · exact h hm
    · apply ih
      intro hm
      rcases List.mem_cons.mp hm with hm | hm
      · exact digitChar_ne_newline _ hm.symm
      · exact h hm

theorem toString_no_newline (n : Nat) : '\n' ∉ (toString n).data := by
  show '\n' ∉ Nat.toDigitsCore 10 (n + 1) n []
  exact toDigitsCore_no_newline _ _ [] (by simp)

theorem rendersAs_pieces (ps : List Piece) (h : ∀ p ∈ ps, RendersAs [p] [p.line]) :
    RendersAs ps (ps.map Piece.line) := by
  have := rendersAs_map ps id Piece.line h
  simpa using this

theorem rendersAs_chunks {α : Type} (xs : List α) (f : α → List Piece) (g : α → String)
    (h : ∀ x ∈ xs, RendersAs (f x) [g x]) : RendersAs (xs.flatMap f) (xs.map g) := by
  have e : ∀ ys : List α, ys.flatMap (fun x => [g x]) = ys.map g := by
    intro ys
    induction ys with
    | nil => rfl
    | cons y ys ih => simp [List.flatMap_cons, ih]
  have := rendersAs_flatMap xs f (fun x => [g x]) h
  rwa [e] at this

theorem rendersAs_invoke (M N S : String) (hM : '\n' ∉ M.data) (hN : '\n' ∉ N.data)
    (hS : '\n' ∉ S.data) : RendersAs [Piece.invoke M N S] [(Piece.invoke M N S).line] := by
  refine ⟨?_, ?_⟩
  · apply String.ext
    simp [renderAll, Piece.render, Piece.line, unlines, String.data_append]
  · simp [Piece.line, String.data_append, hM, hN, hS]

theorem rendersAs_ifndefMacro (M : String) (hM : '\n' ∉ M.data) :
    RendersAs [Piece.ifndefMacro M] [(Piece.ifndefMacro M).line] := by
  refine ⟨?_, ?_⟩
  · apply String.ext
    simp [renderAll, Piece.render, Piece.line, unlines, String.data_append]
  · simp [Piece.line, String.data_append, hM]

theorem rendersAs_defineMacro (M : String) (hM : '\n' ∉ M.data) :
    RendersAs [Piece.defineMacro M] [(Piece.defineMacro M).line] := by
  refine ⟨?_, ?_⟩
  · apply String.ext
    simp [renderAll, Piece.render, Piece.line, unlines, String.data_append]
  · simp [Piece.line, String.data_append, hM]

theorem rendersAs_undefMacro (M : String) (hM : '\n' ∉ M.data) :
    RendersAs [Piece.undefMacro M] ["#undef " ++ M, ""] := by
  refine ⟨?_, ?_⟩
  · apply String.ext
    simp [renderAll, Piece.render, unlines, String.data_append]
  · simp [String.data_append, hM]

theorem rendersAs_enumFirst (K : String) (V : Nat) (hK : '\n' ∉ K.data) :
    RendersAs [Piece.enumFirst K V] [(Piece.enumFirst K V).line] := by
  refine ⟨?_, ?_⟩
  · apply String.ext
    simp [renderAll, Piece.render, Piece.line, unlines, String.data_append]
  · simp [Piece.line, String.data_append, hK, toString_no_newline]

theorem rendersAs_enumDef (N : String) (V : Nat) (hN : '\n' ∉ N.data) :
    RendersAs [Piece.enumDef N V] [(Piece.enumDef N V).line] := by
  refine ⟨?_, ?_⟩
  · apply String.ext
    simp [renderAll, Piece.render, Piece.line, unlines, String.data_append]
  · simp [Piece.line, String.data_append, hN, toString_no_newline]

theorem rendersAs_enumLast (K : String) (V : Nat) (hK : '\n' ∉ K.data) :
    RendersAs [Piece.enumLast K V] [(Piece.enumLast K V).line] := by
  refine ⟨?_, ?_⟩
  · apply String.ext
    simp [renderAll, Piece.render, Piece.line, unlines, String.data_append]
  · simp [Piece.line, String.data_append, hK, toString_no_newline]

theorem rendersAs_mergeCall (F : String) (hF : '\n' ∉ F.data) :
    RendersAs [Piece.mergeCall F] [(Piece.mergeCall F).line] := by
  refine ⟨?_, ?_⟩
  · apply String.ext
    simp [renderAll, Piece.render, Piece.line, unlines, String.data_append]
  · simp [Piece.line, String.data_append, hF]

theorem rendersAs_compatStatement (Rule : Record) (hF : '\n' ∉ Rule.CompatFunc.data)
    (hA : '\n' ∉ Rule.AttrName.data) :
    RendersAs (compatStatement Rule) [compatLine Rule] := by
  refine ⟨?_, ?_⟩
  · apply String.ext
    by_cases h : Rule.AttrName = "" <;>
      simp [compatStatement, compatLine, renderAll, Piece.render, unlines,
        String.data_append, h]
  · by_cases h : Rule.AttrName = "" <;>
      simp [compatLine, String.data_append, hF, hA, h]

theorem entryText_no_newline (tags : List String) (h : ∀ t ∈ tags, '\n' ∉ t.data) :
    '\n' ∉ (entryText tags).data := by
  have h2 : '\n' ∉
      (tags.foldr (fun t rest => " | AttributeProperty::" ++ t ++ rest) "").data := by
    induction tags with
    | nil => simp
    | cons t ts ih =>
      simp only [List.foldr_cons, String.data_append, List.mem_append, not_or]
      exact ⟨⟨by decide, h t (List.mem_cons_self t ts)⟩,
        ih (fun u hu => h u (List.mem_cons_of_mem t hu))⟩
  simp only [entryText, String.data_append, List.mem_append, not_or]
  exact ⟨by decide, h2⟩

theorem rendersAs_entryPieces (A : Record) (h : ∀ t ∈ A.Properties, '\n' ∉ t.data) :
    RendersAs (entryPieces A) [entryText A.Properties ++ ","] := by
  refine ⟨?_, ?_⟩
  · have e : entryPieces A =
        (Piece.propZero :: A.Properties.map Piece.propTag) ++ [Piece.propEnd] := by
      simp [entryPieces]
    rw [e, renderAll_append, renderAll_entry]
    apply String.ext
    simp [renderAll, Piece.render, unlines, String.data_append]
  · intro l hl
    simp only [List.mem_singleton] at hl
    subst hl
    simp only [String.data_append, List.mem_append, not_or]
    exact ⟨entryText_no_newline _ h, by decide⟩


theorem noNewlines_attr (Records : RecordKeeper) (hn : NoNewlines Records) (K : String)
    (hK : K ∈ AttrKindNames) (d : Record) (hd : d ∈ Records.getAllDerivedDefinitions K) :
    '\n' ∉ d.Name.data ∧ '\n' ∉ d.AttrString.data ∧ ∀ t ∈ d.Properties, '\n' ∉ t.data := by
  have hK2 : K ∈ readClassNames := List.mem_append_left _ hK
  refine ⟨hn K hK2 d hd _ (by simp [Record.strings]),
    hn K hK2 d hd _ (by simp [Record.strings]), ?_⟩
  intro t ht
  exact hn K hK2 d hd t (by simp [Record.strings, ht])

theorem noNewlines_codeBearing (Records : RecordKeeper) (hn : NoNewlines Records) (d : Record)
    (hd : d ∈ codeBearing Records) :
    '\n' ∉ d.Name.data ∧ '\n' ∉ d.AttrString.data ∧ ∀ t ∈ d.Properties, '\n' ∉ t.data := by
  obtain ⟨K, hK, hmem⟩ := (mem_codeBearing Records d).mp hd
  exact noNewlines_attr Records hn K (List.mem_append_left _ hK) d hmem

theorem rendersAs_macroGroup (M : String) (Defs : List Record) (hM : '\n' ∉ M.data)
    (hD : ∀ A ∈ Defs, '\n' ∉ A.Name.data ∧ '\n' ∉ A.AttrString.data) :
    RendersAs (macroGroup M Defs) (groupLines M Defs) := by
  have h3 : RendersAs [Piece.text "#endif\n\n"] ["#endif", ""] := ⟨by decide, by decide⟩
  have hinv : RendersAs (Defs.map (fun A => Piece.invoke M A.Name A.AttrString))
      (Defs.map (fun A => (Piece.invoke M A.Name A.AttrString).line)) :=
    rendersAs_map Defs _ _ (fun A hA => rendersAs_invoke M A.Name A.AttrString hM
      (hD A hA).1 (hD A hA).2)
  exact rendersAs_append [Piece.ifndefMacro M, Piece.defineMacro M, Piece.text "#endif\n\n"] _
    ["#ifndef " ++ M,
      "#define " ++ M ++ "(FIRST, SECOND) ATTRIBUTE_ALL(FIRST, SECOND)", "#endif", ""] _
    (rendersAs_append [Piece.ifndefMacro M] _ [(Piece.ifndefMacro M).line] _
      (rendersAs_ifndefMacro M hM)
      (rendersAs_append [Piece.defineMacro M] _ [(Piece.defineMacro M).line] _
        (rendersAs_defineMacro M hM) h3))
    (rendersAs_append _ _ _ _ hinv (rendersAs_undefMacro M hM))

theorem rendersAs_namesBlock (Records : RecordKeeper) (hn : NoNewlines Records) :
    RendersAs (namesBlock Records) (blockLines "GET_ATTR_NAMES" (namesBody Records) [""]) := by
  have hhead : RendersAs
      [Piece.text "#ifdef GET_ATTR_NAMES\n", Piece.text "#undef GET_ATTR_NAMES\n",
        Piece.text "#ifndef ATTRIBUTE_ALL\n",
        Piece.text "#define ATTRIBUTE_ALL(FIRST, SECOND)\n", Piece.text "#endif\n\n"]
      ["#ifdef " ++ "GET_ATTR_NAMES", "#undef " ++ "GET_ATTR_NAMES", "#ifndef ATTRIBUTE_ALL",
        "#define ATTRIBUTE_ALL(FIRST, SECOND)", "#endif", ""] := ⟨by decide, by decide⟩
  have htail : RendersAs [Piece.text "#undef ATTRIBUTE_ALL\n", Piece.text "#endif\n\n"]
      ["#undef ATTRIBUTE_ALL", "#endif", ""] := ⟨by decide, by decide⟩
  have g1 := rendersAs_macroGroup "ATTRIBUTE_ENUM" (codeBearing Records) (by decide)
    (fun A hA => ⟨(noNewlines_codeBearing Records hn A hA).1,
      (noNewlines_codeBearing Records hn A hA).2.1⟩)
  have g2 := rendersAs_macroGroup "ATTRIBUTE_STRBOOL"
    (Records.getAllDerivedDefinitions "StrBoolAttr") (by decide)
    (fun A hA => ⟨(noNewlines_attr Records hn "StrBoolAttr" (by decide) A hA).1,
      (noNewlines_attr Records hn "StrBoolAttr" (by decide) A hA).2.1⟩)
  have g3 := rendersAs_macroGroup "ATTRIBUTE_COMPLEXSTR"
    (Records.getAllDerivedDefinitions "ComplexStrAttr") (by decide)
    (fun A hA => ⟨(noNewlines_attr Records hn "ComplexStrAttr" (by decide) A hA).1,
      (noNewlines_attr Records hn "ComplexStrAttr" (by decide) A hA).2.1⟩)
  have hall := rendersAs_append _ _ _ _ hhead
    (rendersAs_append _ _ _ _ g1 (rendersAs_append _ _ _ _ g2
      (rendersAs_append _ _ _ _ g3 htail)))
  have e2 : blockLines "GET_ATTR_NAMES" (namesBody Records) [""] =
      ["#ifdef " ++ "GET_ATTR_NAMES", "#undef " ++ "GET_ATTR_NAMES", "#ifndef ATTRIBUTE_ALL",
        "#define ATTRIBUTE_ALL(FIRST, SECOND)", "#endif", ""] ++
      (groupLines "ATTRIBUTE_ENUM" (codeBearing Records) ++
      (groupLines "ATTRIBUTE_STRBOOL" (Records.getAllDerivedDefinitions "StrBoolAttr") ++
      (groupLines "ATTRIBUTE_COMPLEXSTR" (Records.getAllDerivedDefinitions "ComplexStrAttr") ++
      ["#undef ATTRIBUTE_ALL", "#endif", ""]))) := by
    simp only [blockLines, namesBody, List.cons_append, List.nil_append, List.append_assoc]
  have e1 : namesBlock Records =
      [Piece.text "#ifdef GET_ATTR_NAMES\n", Piece.text "#undef GET_ATTR_NAMES\n",
        Piece.text "#ifndef ATTRIBUTE_ALL\n",
        Piece.text "#define ATTRIBUTE_ALL(FIRST, SECOND)\n", Piece.text "#endif\n\n"] ++
      (macroGroup "ATTRIBUTE_ENUM" (codeBearing Records) ++
      (macroGroup "ATTRIBUTE_STRBOOL" (Records.getAllDerivedDefinitions "StrBoolAttr") ++
      (macroGroup "ATTRIBUTE_COMPLEXSTR" (Records.getAllDerivedDefinitions "ComplexStrAttr") ++
      [Piece.text "#undef ATTRIBUTE_ALL\n", Piece.text "#endif\n\n"]))) := by
    simp [namesBlock, emitPieces_eq_macroGroup, codeBearing]
  rw [e1, e2]
  exact hall

theorem mem_enumDefPieces (Value : Nat) (Defs : List Record) (p : Piece)
    (hp : p ∈ enumDefPieces Value Defs) : ∃ d ∈ Defs, ∃ v, p = Piece.enumDef d.Name v := by
  induction Defs generalizing Value with
  | nil => simp [enumDefPieces] at hp
  | cons A As ih =>
    have e : enumDefPieces Value (A :: As) =
        Piece.enumDef A.Name Value :: enumDefPieces (Value + 1) As := by
      simp [enumDefPieces, List.enumFrom_cons]
    rw [e] at hp
    rcases List.mem_cons.mp hp with rfl | hp
    · exact ⟨A, List.mem_cons_self A As, Value, rfl⟩
    · obtain ⟨d, hd, v, hv⟩ := ih (Value + 1) hp
      exact ⟨d, List.mem_cons_of_mem A hd, v, hv⟩

theorem mem_enumSections (Records : RecordKeeper) (Value : Nat) (KindNames : List String)
    (p : Piece) (hp : p ∈ enumSections Records Value KindNames) :
    (∃ K ∈ KindNames, ∃ v, p = Piece.enumFirst K v ∨ p = Piece.enumLast K v) ∨
    (∃ K ∈ KindNames, ∃ d ∈ Records.getAllDerivedDefinitions K, ∃ v,
      p = Piece.enumDef d.Name v) := by
  induction KindNames generalizing Value with
  | nil => simp [enumSections] at hp
  | cons K Ks ih =>
    rw [enumSections] at hp
    rcases List.mem_append.mp hp with hp | hp
    · rw [enumSection] at hp
      rcases List.mem_cons.mp hp with rfl | hp
      · exact Or.inl ⟨K, List.mem_cons_self K Ks, _, Or.inl rfl⟩
      · rcases List.mem_append.mp hp with hp | hp
        · obtain ⟨d, hd, v, hv⟩ := mem_enumDefPieces _ _ p hp
          exact Or.inr ⟨K, List.mem_cons_self K Ks, d, hd, v, hv⟩
        · rw [List.mem_singleton] at hp
          exact Or.inl ⟨K, List.mem_cons_self K Ks, _, Or.inr hp⟩
    · rcases ih _ hp with ⟨K2, hK2, v, hv⟩ | ⟨K2, hK2, d, hd, v, hv⟩
      · exact Or.inl ⟨K2, List.mem_cons_of_mem K hK2, v, hv⟩
      · exact Or.inr ⟨K2, List.mem_cons_of_mem K hK2, d, hd, v, hv⟩

theorem rendersAs_enumBlock (Records : RecordKeeper) (hn : NoNewlines Records) :
    RendersAs (enumBlock Records) (blockLines "GET_ATTR_ENUM" (enumBody Records) [""]) := by
  have hhead : RendersAs
      [Piece.text "#ifdef GET_ATTR_ENUM\n", Piece.text "#undef GET_ATTR_ENUM\n"]
      ["#ifdef " ++ "GET_ATTR_ENUM", "#undef " ++ "GET_ATTR_ENUM"] := ⟨by decide, by decide⟩
  have htail : RendersAs [Piece.text "#endif\n\n"] ["#endif", ""] := ⟨by decide, by decide⟩
  have hK : ∀ K ∈ EnumKindNames, '\n' ∉ K.data := by decide
  have hbody : RendersAs (enumSections Records 1 EnumKindNames) (enumBody Records) := by
    apply rendersAs_pieces
    intro p hp
    rcases mem_enumSections Records 1 EnumKindNames p hp with
      ⟨K, hK2, v, rfl | rfl⟩ | ⟨K, hK2, d, hd, v, rfl⟩
    · exact rendersAs_enumFirst K v (hK K hK2)
    · exact rendersAs_enumLast K v (hK K hK2)
    · exact rendersAs_enumDef d.Name v
        (noNewlines_attr Records hn K (List.mem_append_left _ hK2) d hd).1
  exact rendersAs_append _ _ _ _ hhead (rendersAs_append _ _ _ _ hbody htail)

theorem rendersAs_compatBlock (Records : RecordKeeper) (hn : NoNewlines Records) :
    RendersAs (compatBlock Records)
      (blockLines "GET_ATTR_COMPAT_FUNC" (compatBody Records) []) := by
  have h1 : RendersAs
      [Piece.text "#ifdef GET_ATTR_COMPAT_FUNC\n", Piece.text "#undef GET_ATTR_COMPAT_FUNC\n",
        Piece.text compatSignature, Piece.text "  bool Ret = true;\n\n"]
      ["#ifdef " ++ "GET_ATTR_COMPAT_FUNC", "#undef " ++ "GET_ATTR_COMPAT_FUNC",
        "static inline bool hasCompatibleFnAttrs(const Function &Caller,",
        "                                        const Function &Callee) \x7b",
        "  bool Ret = true;", ""] :=
    ⟨by set_option maxRecDepth 8000 in decide, by set_option maxRecDepth 8000 in decide⟩
  have h2 : RendersAs
      [Piece.text "\n", Piece.text "  return Ret;\n", Piece.text closeFunction,
        Piece.text mergeSignature]
      ["", "  return Ret;", "\x7d", "",
        "static inline void mergeFnAttrs(Function &Caller,",
        "                                const Function &Callee) \x7b"] :=
    ⟨by set_option maxRecDepth 8000 in decide, by set_option maxRecDepth 8000 in decide⟩
  have h3 : RendersAs [Piece.text closeFunction, Piece.text "#endif\n"]
      ["\x7d", "", "#endif"] := ⟨by decide, by decide⟩
  have hc : RendersAs
      ((Records.getAllDerivedDefinitions "CompatRule").flatMap compatStatement)
      ((Records.getAllDerivedDefinitions "CompatRule").map compatLine) :=
    rendersAs_chunks _ _ _ (fun Rule hR => rendersAs_compatStatement Rule
      (hn "CompatRule" (by decide) Rule hR _ (by simp [Record.strings]))
      (hn "CompatRule" (by decide) Rule hR _ (by simp [Record.strings])))
  have hm : RendersAs
      ((Records.getAllDerivedDefinitions "MergeRule").map
        (fun Rule => Piece.mergeCall Rule.MergeFunc))
      ((Records.getAllDerivedDefinitions "MergeRule").map
        (fun Rule => (Piece.mergeCall Rule.MergeFunc).line)) :=
    rendersAs_map _ _ _ (fun Rule hR => rendersAs_mergeCall Rule.MergeFunc
      (hn "MergeRule" (by decide) Rule hR _ (by simp [Record.strings])))
  have hall := rendersAs_append _ _ _ _ h1
    (rendersAs_append _ _ _ _ hc (rendersAs_append _ _ _ _ h2
      (rendersAs_append _ _ _ _ hm h3)))
  have e1 : compatBlock Records =
      [Piece.text "#ifdef GET_ATTR_COMPAT_FUNC\n", Piece.text "#undef GET_ATTR_COMPAT_FUNC\n",
        Piece.text compatSignature, Piece.text "  bool Ret = true;\n\n"] ++
      ((Records.getAllDerivedDefinitions "CompatRule").flatMap compatStatement ++
      ([Piece.text "\n", Piece.text "  return Ret;\n", Piece.text closeFunction,
        Piece.text mergeSignature] ++
      ((Records.getAllDerivedDefinitions "MergeRule").map
        (fun Rule => Piece.mergeCall Rule.MergeFunc) ++
      [Piece.text closeFunction, Piece.text "#endif\n"]))) := by
    simp only [compatBlock, List.cons_append, List.nil_append, List.append_assoc]
  have e2 : blockLines "GET_ATTR_COMPAT_FUNC" (compatBody Records) [] =
      ["#ifdef " ++ "GET_ATTR_COMPAT_FUNC", "#undef " ++ "GET_ATTR_COMPAT_FUNC",
        "static inline bool hasCompatibleFnAttrs(const Function &Caller,",
        "                                        const Function &Callee) \x7b",
        "  bool Ret = true;", ""] ++
      ((Records.getAllDerivedDefinitions "CompatRule").map compatLine ++
      (["", "  return Ret;", "\x7d", "",
        "static inline void mergeFnAttrs(Function &Caller,",
        "                                const Function &Callee) \x7b"] ++
      ((Records.getAllDerivedDefinitions "MergeRule").map
        (fun Rule => (Piece.mergeCall Rule.MergeFunc).line) ++
      ["\x7d", "", "#endif"]))) := by
    simp only [blockLines, compatBody, List.cons_append, List.nil_append, List.append_assoc]
  rw [e1, e2]
  exact hall

theorem rendersAs_propBlock (Records : RecordKeeper) (hn : NoNewlines Records) :
    RendersAs (propBlock Records)
      (blockLines "GET_ATTR_PROP_TABLE" (propBody Records) []) := by
  have h1 : RendersAs
      [Piece.text "#ifdef GET_ATTR_PROP_TABLE\n", Piece.text "#undef GET_ATTR_PROP_TABLE\n",
        Piece.text "static const uint8_t AttrPropTable[] = \x7b\n"]
      ["#ifdef " ++ "GET_ATTR_PROP_TABLE", "#undef " ++ "GET_ATTR_PROP_TABLE",
        "static const uint8_t AttrPropTable[] = \x7b"] := ⟨by decide, by decide⟩
  have h3 : RendersAs [Piece.text "\x7d;\n", Piece.text "#endif\n"] ["\x7d;", "#endif"] :=
    ⟨by decide, by decide⟩
  have he : RendersAs ((codeBearing Records).flatMap entryPieces)
      ((codeBearing Records).map (fun A => entryText A.Properties ++ ",")) :=
    rendersAs_chunks _ _ _ (fun A hA => rendersAs_entryPieces A
      (noNewlines_codeBearing Records hn A hA).2.2)
  have hall := rendersAs_append _ _ _ _ h1 (rendersAs_append _ _ _ _ he h3)
  have e2 : blockLines "GET_ATTR_PROP_TABLE" (propBody Records) [] =
      ["#ifdef " ++ "GET_ATTR_PROP_TABLE", "#undef " ++ "GET_ATTR_PROP_TABLE",
        "static const uint8_t AttrPropTable[] = \x7b"] ++
      ((codeBearing Records).map (fun A => entryText A.Properties ++ ",") ++
        ["\x7d;", "#endif"]) := by
    simp only [blockLines, propBody, List.cons_append, List.nil_append, List.append_assoc]
  rw [e2]
  exact hall


/-! ## The directives of the four blocks -/

theorem directives_append (xs ys : List String) :
    directives (xs ++ ys) = directives xs ++ directives ys := by
  simp [directives]

theorem directives_eq_nil (ls : List String) (h : ∀ l ∈ ls, isDirective l = false) :
    directives ls = [] := by
  simp only [directives, List.filter_eq_nil_iff]
  intro l hl
  simp [h l hl]

theorem isDirective_of_plainStart (s t : String) (hs : plainStart s = true) :
    isDirective (s ++ t) = false := by
  simp only [isDirective, String.data_append]
  simp only [plainStart] at hs
  cases hd : s.data with
  | nil => simp [hd] at hs
  | cons c cs =>
    simp only [hd, Bool.and_eq_true, Bool.not_eq_true', bne_iff_ne, ne_eq] at hs
    exact startsHash_cons_other c (cs ++ t.data) hs.1 hs.2

theorem isDirective_two_blanks (s : String) : isDirective ("  " ++ s) = isDirective s := by
  simp only [isDirective, String.data_append]
  show startsHash (' ' :: ' ' :: s.data) = startsHash s.data
  rw [startsHash_cons_blank ' ' _ (by decide), startsHash_cons_blank ' ' _ (by decide)]

theorem directives_groupLines (M : String) (Defs : List Record) (hM : plainStart M = true) :
    directives (groupLines M Defs) = directives (groupLines M []) := by
  have h : directives (Defs.map (fun A => (Piece.invoke M A.Name A.AttrString).line)) = [] := by
    apply directives_eq_nil
    intro l hl
    obtain ⟨A, _, rfl⟩ := List.mem_map.mp hl
    simp only [Piece.line, String.append_assoc]
    exact isDirective_of_plainStart M _ hM
  simp only [groupLines, directives_append, h, List.map_nil]
  rfl

theorem directives_namesBody (Records : RecordKeeper) :
    directives (namesBody Records) =
      ["#ifndef ATTRIBUTE_ALL", "#define ATTRIBUTE_ALL(FIRST, SECOND)", "#endif",
        "#ifndef ATTRIBUTE_ENUM",
        "#define ATTRIBUTE_ENUM(FIRST, SECOND) ATTRIBUTE_ALL(FIRST, SECOND)", "#endif",
        "#undef ATTRIBUTE_ENUM",
        "#ifndef ATTRIBUTE_STRBOOL",
        "#define ATTRIBUTE_STRBOOL(FIRST, SECOND) ATTRIBUTE_ALL(FIRST, SECOND)", "#endif",
        "#undef ATTRIBUTE_STRBOOL",
        "#ifndef ATTRIBUTE_COMPLEXSTR",
        "#define ATTRIBUTE_COMPLEXSTR(FIRST, SECOND) ATTRIBUTE_ALL(FIRST, SECOND)", "#endif",
        "#undef ATTRIBUTE_COMPLEXSTR", "#undef ATTRIBUTE_ALL"] := by
  rw [namesBody]
  simp only [directives_append, directives_groupLines "ATTRIBUTE_ENUM" _ (by decide),
    directives_groupLines "ATTRIBUTE_STRBOOL" _ (by decide),
    directives_groupLines "ATTRIBUTE_COMPLEXSTR" _ (by decide)]
  set_option maxRecDepth 8000 in decide

theorem directives_enumBody (Records : RecordKeeper) (hd : NoDirectiveStart Records) :
    directives (enumBody Records) = [] := by
  apply directives_eq_nil
  intro l hl
  obtain ⟨p, hp, rfl⟩ := List.mem_map.mp hl
  rcases mem_enumSections Records 1 EnumKindNames p hp with
    ⟨K, _, v, rfl | rfl⟩ | ⟨K, hK, d, hmem, v, rfl⟩
  · simp only [Piece.line, String.append_assoc]
    exact isDirective_of_plainStart "First" _ (by decide)
  · simp only [Piece.line, String.append_assoc]
    exact isDirective_of_plainStart "Last" _ (by decide)
  · simp only [Piece.line, String.append_assoc]
    apply isDirective_append _ _ (hd.1 K hK d hmem)
    simp only [isDirective, String.data_append]
    show startsHash (' ' :: '=' :: ' ' :: ((toString v).data ++ ",".data)) = false
    rw [startsHash_cons_blank ' ' _ (by decide)]
    exact startsHash_cons_other '=' _ (by decide) (by decide)

theorem directives_compatBody (Records : RecordKeeper) (hd : NoDirectiveStart Records) :
    directives (compatBody Records) = [] := by
  have hc : directives ((Records.getAllDerivedDefinitions "CompatRule").map compatLine) = [] := by
    apply directives_eq_nil
    intro l hl
    obtain ⟨Rule, _, rfl⟩ := List.mem_map.mp hl
    simp only [compatLine, String.append_assoc]
    rw [show "  Ret &= " = "  " ++ "Ret &= " from by decide, String.append_assoc,
      isDirective_two_blanks]
    exact isDirective_of_plainStart "Ret &= " _ (by decide)
  have hm : directives ((Records.getAllDerivedDefinitions "MergeRule").map
      (fun Rule => (Piece.mergeCall Rule.MergeFunc).line)) = [] := by
    apply directives_eq_nil
    intro l hl
    obtain ⟨Rule, hR, rfl⟩ := List.mem_map.mp hl
    simp only [Piece.line, String.append_assoc]
    rw [isDirective_two_blanks]
    exact isDirective_append _ _ (hd.2 Rule hR) (by decide)
  rw [compatBody]
  simp only [directives_append, hc, hm]
  set_option maxRecDepth 8000 in decide

theorem directives_propBody (Records : RecordKeeper) :
    directives (propBody Records) = [] := by
  have he : directives
      ((codeBearing Records).map (fun A => entryText A.Properties ++ ",")) = [] := by
    apply directives_eq_nil
    intro l hl
    obtain ⟨A, _, rfl⟩ := List.mem_map.mp hl
    simp only [entryText, String.append_assoc]
    exact isDirective_of_plainStart "0" _ (by decide)
  rw [propBody]
  simp only [directives_append, he]
  set_option maxRecDepth 8000 in decide

theorem isGuardedBlock_blockLines (T : String) (body trailing : List String)
    (hb : depthAfter 0 (directives body) = some 0) (ht : ∀ l ∈ trailing, l = "") :
    isGuardedBlock T (blockLines T body trailing) = true := by
  rw [depthAfter_directives] at hb
  have hall : trailing.all (fun m => m == "") = true := by
    simp only [List.all_eq_true, beq_iff_eq]
    exact ht
  have hend : closesBlock 0 ("#endif" :: trailing) = true := by
    have ho : opensConditional "#endif" = false := by decide
    have hc : closesConditional "#endif" = true := by decide
    simp [closesBlock, ho, hc, hall]
  simp only [isGuardedBlock, blockLines, beq_self_eq_true, Bool.true_and]
  rw [closesBlock_append body _ 0 0 hb]
  exact hend

theorem directives_blockLines (T : String) (body trailing : List String)
    (ht : ∀ l ∈ trailing, l = "") :
    directives (blockLines T body trailing) =
      directives ["#ifdef " ++ T, "#undef " ++ T] ++ (directives body ++ ["#endif"]) := by
  have h1 : directives trailing = [] := by
    apply directives_eq_nil
    intro l hl
    rw [ht l hl]
    rfl
  have h2 : blockLines T body trailing =
      ["#ifdef " ++ T, "#undef " ++ T] ++ (body ++ (["#endif"] ++ trailing)) := rfl
  rw [h2, directives_append, directives_append, directives_append, h1]
  have h3 : directives ["#endif"] = ["#endif"] := by decide
  rw [h3, List.append_nil]

/-- The depth of conditionals after a guarded block is the depth before it. -/
theorem depthAfter_of_isGuardedBlock (T : String) (L : List String) (d : Nat)
    (hT : opensConditional ("#ifdef " ++ T) = true)
    (hU : opensConditional ("#undef " ++ T) = false ∧ closesConditional ("#undef " ++ T) = false)
    (h : isGuardedBlock T L = true) : depthAfter d L = some d := by
  match L, h with
  | l0 :: l1 :: rest, h =>
    simp only [isGuardedBlock, Bool.and_eq_true, beq_iff_eq] at h
    obtain ⟨⟨h0, h1⟩, hrest⟩ := h
    subst h0
    subst h1
    simp only [depthAfter, hT, hU.1, hU.2, if_true, Bool.false_eq_true, if_false]
    exact depthAfter_of_closesBlock rest 0 d hrest

theorem depthAfter_of_fourGuardedBlocks (lines : List String) (h : FourGuardedBlocks lines) :
    depthAfter 0 lines = some 0 := by
  obtain ⟨L1, L2, L3, L4, hsplit, g1, g2, g3, g4, _, _⟩ := h
  have d1 := depthAfter_of_isGuardedBlock "GET_ATTR_NAMES" L1 0 (by decide)
    ⟨by decide, by decide⟩ g1
  have d2 := depthAfter_of_isGuardedBlock "GET_ATTR_ENUM" L2 0 (by decide)
    ⟨by decide, by decide⟩ g2
  have d3 := depthAfter_of_isGuardedBlock "GET_ATTR_COMPAT_FUNC" L3 0 (by decide)
    ⟨by decide, by decide⟩ g3
  have d4 := depthAfter_of_isGuardedBlock "GET_ATTR_PROP_TABLE" L4 0 (by decide)
    ⟨by decide, by decide⟩ g4
  rw [hsplit, depthAfter_append L1 _ 0 0 d1, depthAfter_append L2 _ 0 0 d2,
    depthAfter_append L3 _ 0 0 d3, d4]


theorem run_eq_of_ok (Records : RecordKeeper) (OS OS2 : raw_ostream)
    (h : run Records OS = Result.ok OS2) :
    OS2 = OS ++ (namesBlock Records ++ (enumBlock Records ++
      (compatBlock Records ++ propBlock Records))) := by
  rw [run_eq, emitTargetIndependentNames_eq, emitFnAttrCompatCheck_eq] at h
  obtain ⟨_, hOS⟩ := emitAttributeProperties_eq_of_ok Records _ OS2 h
  rw [hOS]
  simp

theorem directives_namesLines (Records : RecordKeeper) :
    directives (blockLines "GET_ATTR_NAMES" (namesBody Records) [""]) =
      ["#ifdef GET_ATTR_NAMES", "#undef GET_ATTR_NAMES",
        "#ifndef ATTRIBUTE_ALL", "#define ATTRIBUTE_ALL(FIRST, SECOND)", "#endif",
        "#ifndef ATTRIBUTE_ENUM",
        "#define ATTRIBUTE_ENUM(FIRST, SECOND) ATTRIBUTE_ALL(FIRST, SECOND)", "#endif",
        "#undef ATTRIBUTE_ENUM",
        "#ifndef ATTRIBUTE_STRBOOL",
        "#define ATTRIBUTE_STRBOOL(FIRST, SECOND) ATTRIBUTE_ALL(FIRST, SECOND)", "#endif",
        "#undef ATTRIBUTE_STRBOOL",
        "#ifndef ATTRIBUTE_COMPLEXSTR",
        "#define ATTRIBUTE_COMPLEXSTR(FIRST, SECOND) ATTRIBUTE_ALL(FIRST, SECOND)", "#endif",
        "#undef ATTRIBUTE_COMPLEXSTR", "#undef ATTRIBUTE_ALL", "#endif"] := by
  rw [directives_blockLines _ _ _ (by simp), directives_namesBody]
  decide


/-! ## Claims -/

/-- C1: in the enum block written by `emitTargetIndependentNames`, the k-th
definition (k from 1) of the concatenated EnumAttr, TypeAttr, IntAttr,
ConstantRangeAttr and ConstantRangeListAttr listings is assigned the code k; so
the codes, in the order written, are 1, 2, ..., strictly increasing, pairwise
distinct, and never 0. -/
theorem C1_enum_codes_sequential (Records : RecordKeeper) :
    (∀ (k : Nat) (d : Record), (codeBearing Records)[k]? = some d →
      (enumAssignments (emitTargetIndependentNames Records []))[k]? = some (d.Name, k + 1)) ∧
    (enumAssignments (emitTargetIndependentNames Records [])).length =
      (codeBearing Records).length ∧
    (enumAssignments (emitTargetIndependentNames Records [])).map Prod.snd =
      List.range' 1 (codeBearing Records).length ∧
    ((enumAssignments (emitTargetIndependentNames Records [])).map Prod.snd).Pairwise
      (fun a b => a < b) ∧
    ((enumAssignments (emitTargetIndependentNames Records [])).map Prod.snd).Nodup ∧
    0 ∉ (enumAssignments (emitTargetIndependentNames Records [])).map Prod.snd := by
  refine ⟨?_, ?_, enumCodes_eq Records, ?_, ?_, ?_⟩
  · intro k d hk
    rw [enumAssignments_emitTargetIndependentNames]
    simp [List.getElem?_enumFrom, hk, Nat.add_comm]
  · rw [enumAssignments_emitTargetIndependentNames]
    simp
  · rw [enumCodes_eq]
    exact List.pairwise_lt_range' 1 _
  · rw [enumCodes_eq]
    exact List.nodup_range' 1 _
  · rw [enumCodes_eq]
    simp only [List.mem_range'_1]
    omega

/-- C2: for each of the five code-bearing class names K the enum block has
exactly one `First<K>` and one `Last<K>` marker, also when K lists nothing;
`First<K>` is bound to 1 plus the number of definitions listed before K, and
`Last<K>` to the code of K's final definition when K lists one (the marker comes
right after that definition's assignment and carries its code) and to
`First<K> - 1` when K lists none. -/
theorem C2_first_last_markers (Records : RecordKeeper) :
    enumMarkers (emitTargetIndependentNames Records []) =
      EnumKindNames.flatMap (fun K =>
        [Piece.enumFirst K (1 + precedingCount Records K),
         Piece.enumLast K
           (precedingCount Records K + (Records.getAllDerivedDefinitions K).length)]) ∧
    (∀ K ∈ EnumKindNames,
      firstOf (emitTargetIndependentNames Records []) K =
        some (1 + precedingCount Records K)) ∧
    (∀ K ∈ EnumKindNames, ∀ d : Record,
      (Records.getAllDerivedDefinitions K).getLast? = some d →
      ∃ l, lastOf (emitTargetIndependentNames Records []) K = some l ∧
        [Piece.enumDef d.Name l, Piece.enumLast K l] <:+:
          emitTargetIndependentNames Records []) ∧
    (∀ K ∈ EnumKindNames, Records.getAllDerivedDefinitions K = [] →
      ∃ f l, firstOf (emitTargetIndependentNames Records []) K = some f ∧
        lastOf (emitTargetIndependentNames Records []) K = some l ∧ l = f - 1) := by
  refine ⟨enumMarkers_emitTargetIndependentNames Records,
    fun K hK => firstOf_emitTargetIndependentNames Records K hK, ?_, ?_⟩
  · intro K hK d hd
    exact ⟨_, lastOf_emitTargetIndependentNames Records K hK,
      (final_assignment_within Records _ K d hd).trans
        (enumSection_within_emitTargetIndependentNames Records K hK)⟩
  · intro K hK hnil
    refine ⟨_, _, firstOf_emitTargetIndependentNames Records K hK,
      lastOf_emitTargetIndependentNames Records K hK, ?_⟩
    simp [hnil]

/-- C3: when no definition is listed under two of the five code-bearing class
names, then for the definition d at any position of the concatenated listings,
with its assigned code c, and for each of the five class names K:
`First<K> <= c <= Last<K>` holds exactly when d is listed under K; and the
bounds of a class name that lists nothing contain no code. -/
theorem C3_bounds_decide_category (Records : RecordKeeper)
    (huniq : ∀ (d : Record) (K1 K2 : String), K1 ∈ EnumKindNames → K2 ∈ EnumKindNames →
      d ∈ Records.getAllDerivedDefinitions K1 → d ∈ Records.getAllDerivedDefinitions K2 →
      K1 = K2) :
    (∀ (k : Nat) (d : Record) (K : String), K ∈ EnumKindNames →
      (codeBearing Records)[k]? = some d →
      ∃ c f l,
        (enumAssignments (emitTargetIndependentNames Records []))[k]? = some (d.Name, c) ∧
        firstOf (emitTargetIndependentNames Records []) K = some f ∧
        lastOf (emitTargetIndependentNames Records []) K = some l ∧
        ((f ≤ c ∧ c ≤ l) ↔ d ∈ Records.getAllDerivedDefinitions K)) ∧
    (∀ K ∈ EnumKindNames, Records.getAllDerivedDefinitions K = [] →
      ∃ f l, firstOf (emitTargetIndependentNames Records []) K = some f ∧
        lastOf (emitTargetIndependentNames Records []) K = some l ∧
        ∀ c : Nat, ¬ (f ≤ c ∧ c ≤ l)) := by
  constructor
  · intro k d K hK hd
    refine ⟨k + 1, _, _, ?_, firstOf_emitTargetIndependentNames Records K hK,
      lastOf_emitTargetIndependentNames Records K hK, ?_⟩
    · rw [enumAssignments_emitTargetIndependentNames]
      simp [List.getElem?_enumFrom, hd, Nat.add_comm]
    · constructor
      · rintro ⟨h1, h2⟩
        exact mem_listing_of_range Records K hK k d hd (by omega) (by omega)
      · intro hmem
        have hk : k < (codeBearing Records).length := by
          rcases Nat.lt_or_ge k (codeBearing Records).length with h | h
          · exact h
          · rw [List.getElem?_eq_none h] at hd
            cases hd
        obtain ⟨K2, hK2, h1, h2⟩ := exists_range_of_lt Records k hk
        have hmem2 := mem_listing_of_range Records K2 hK2 k d hd h1 h2
        have hKK : K = K2 := huniq d K K2 hK hK2 hmem hmem2
        subst hKK
        omega
  · intro K hK hnil
    refine ⟨_, _, firstOf_emitTargetIndependentNames Records K hK,
      lastOf_emitTargetIndependentNames Records K hK, ?_⟩
    intro c
    simp only [hnil, List.length_nil]
    omega

/-- C3 applied to `sampleRecords`, where `NoReturn` is listed under EnumAttr
only and `Alignment` under IntAttr only. -/
theorem C3_bounds_decide_category_witness :
    (∀ (d : Record) (K1 K2 : String), K1 ∈ EnumKindNames → K2 ∈ EnumKindNames →
      d ∈ sampleRecords.getAllDerivedDefinitions K1 →
      d ∈ sampleRecords.getAllDerivedDefinitions K2 → K1 = K2) ∧
    ((∀ (k : Nat) (d : Record) (K : String), K ∈ EnumKindNames →
      (codeBearing sampleRecords)[k]? = some d →
      ∃ c f l,
        (enumAssignments (emitTargetIndependentNames sampleRecords []))[k]? =
          some (d.Name, c) ∧
        firstOf (emitTargetIndependentNames sampleRecords []) K = some f ∧
        lastOf (emitTargetIndependentNames sampleRecords []) K = some l ∧
        ((f ≤ c ∧ c ≤ l) ↔ d ∈ sampleRecords.getAllDerivedDefinitions K)) ∧
    (∀ K ∈ EnumKindNames, sampleRecords.getAllDerivedDefinitions K = [] →
      ∃ f l, firstOf (emitTargetIndependentNames sampleRecords []) K = some f ∧
        lastOf (emitTargetIndependentNames sampleRecords []) K = some l ∧
        ∀ c : Nat, ¬ (f ≤ c ∧ c ≤ l))) := by
  have huniq : ∀ (d : Record) (K1 K2 : String), K1 ∈ EnumKindNames → K2 ∈ EnumKindNames →
      d ∈ sampleRecords.getAllDerivedDefinitions K1 →
      d ∈ sampleRecords.getAllDerivedDefinitions K2 → K1 = K2 := by
    intro d K1 K2 h1 h2 hd1 hd2
    simp only [EnumKindNames, List.mem_cons, List.mem_singleton, List.not_mem_nil,
      or_false] at h1 h2
    rcases h1 with rfl | rfl | rfl | rfl | rfl <;>
      rcases h2 with rfl | rfl | rfl | rfl | rfl <;>
      simp [sampleRecords, attrDef] at hd1 hd2 ⊢
    · rw [hd1] at hd2; simp at hd2
    · rw [hd1] at hd2; simp at hd2
  exact ⟨huniq, C3_bounds_decide_category sampleRecords huniq⟩

/-- C4: when `emitAttributeProperties` succeeds, the property table has as many
entries as the enum block has assignments, and the entry at index i (from 0) is
the one built from the properties of the definition whose assignment in the
enum block carries the code i+1. -/
theorem C4_table_index_matches_code (Records : RecordKeeper) (OS2 : raw_ostream)
    (h : emitAttributeProperties Records [] = Result.ok OS2) :
    (propTableEntries OS2).length =
      (enumAssignments (emitTargetIndependentNames Records [])).length ∧
    ∀ (i : Nat) (d : Record), (codeBearing Records)[i]? = some d →
      (enumAssignments (emitTargetIndependentNames Records []))[i]? = some (d.Name, i + 1) ∧
      (propTableEntries OS2)[i]? = some (Piece.propZero :: d.Properties.map Piece.propTag) := by
  obtain ⟨_, hOS⟩ := emitAttributeProperties_eq_of_ok Records [] OS2 h
  rw [hOS, List.nil_append, propTableEntries_propBlock,
    enumAssignments_emitTargetIndependentNames]
  refine ⟨by simp, ?_⟩
  intro i d hd
  simp [List.getElem?_enumFrom, hd, Nat.add_comm]

/-- C4 applied to `sampleRecords`, whose property table is `samplePropTable`. -/
theorem C4_table_index_matches_code_witness :
    emitAttributeProperties sampleRecords [] = Result.ok samplePropTable ∧
    ((propTableEntries samplePropTable).length =
      (enumAssignments (emitTargetIndependentNames sampleRecords [])).length ∧
    ∀ (i : Nat) (d : Record), (codeBearing sampleRecords)[i]? = some d →
      (enumAssignments (emitTargetIndependentNames sampleRecords []))[i]? =
        some (d.Name, i + 1) ∧
      (propTableEntries samplePropTable)[i]? =
        some (Piece.propZero :: d.Properties.map Piece.propTag)) :=
  ⟨by decide, C4_table_index_matches_code sampleRecords samplePropTable (by decide)⟩

/-- C5: when `emitAttributeProperties` succeeds, the table entry of a
code-bearing definition with declared tags t1, ..., tn is the expression
`0 | AttributeProperty::t1 | ... | AttributeProperty::tn`, tags in declared
order; under any flag values its value is the OR of the declared tags' values,
a bit is set in it exactly when it is set in the value of a declared tag, it
fits a byte when the flag values do, and with no tags the entry is `0`. -/
theorem C5_entry_is_or_of_declared_tags (Records : RecordKeeper) (OS2 : raw_ostream)
    (h : emitAttributeProperties Records [] = Result.ok OS2)
    (i : Nat) (d : Record) (hd : (codeBearing Records)[i]? = some d) :
    ∃ entry, (propTableEntries OS2)[i]? = some entry ∧
      entry = Piece.propZero :: d.Properties.map Piece.propTag ∧
      renderAll entry = entryText d.Properties ∧
      (∀ flag : String → Nat,
        entryValue flag entry = d.Properties.foldl (fun acc t => acc ||| flag t) 0 ∧
        (∀ b : Nat, (entryValue flag entry).testBit b = true ↔
          ∃ t ∈ d.Properties, (flag t).testBit b = true) ∧
        ((∀ t ∈ d.Properties, flag t < 2 ^ 8) → entryValue flag entry < 2 ^ 8)) ∧
      (d.Properties = [] → renderAll entry = "0" ∧
        ∀ flag : String → Nat, entryValue flag entry = 0) := by
  obtain ⟨_, hOS⟩ := emitAttributeProperties_eq_of_ok Records [] OS2 h
  refine ⟨Piece.propZero :: d.Properties.map Piece.propTag, ?_, rfl, renderAll_entry _, ?_, ?_⟩
  · rw [hOS, List.nil_append, propTableEntries_propBlock]
    simp [hd]
  · intro flag
    rw [entryValue_entry]
    refine ⟨rfl, ?_, ?_⟩
    · intro b
      rw [testBit_foldl_lor]
      simp
    · intro hlt
      exact foldl_lor_lt flag d.Properties 0 (by decide) hlt
  · intro hnil
    rw [hnil]
    exact ⟨by decide, fun flag => by simp [entryValue]⟩

/-- C5 applied to `sampleRecords` at index 1, the definition `Alignment` with
the single tag `IntersectMin`. -/
theorem C5_entry_is_or_of_declared_tags_witness :
    emitAttributeProperties sampleRecords [] = Result.ok samplePropTable ∧
    (codeBearing sampleRecords)[1]? = some (attrDef "Alignment" "align" ["IntersectMin"]) ∧
    ∃ entry, (propTableEntries samplePropTable)[1]? = some entry ∧
      entry = Piece.propZero ::
        (attrDef "Alignment" "align" ["IntersectMin"]).Properties.map Piece.propTag ∧
      renderAll entry = entryText (attrDef "Alignment" "align" ["IntersectMin"]).Properties ∧
      (∀ flag : String → Nat,
        entryValue flag entry =
          (attrDef "Alignment" "align" ["IntersectMin"]).Properties.foldl
            (fun acc t => acc ||| flag t) 0 ∧
        (∀ b : Nat, (entryValue flag entry).testBit b = true ↔
          ∃ t ∈ (attrDef "Alignment" "align" ["IntersectMin"]).Properties,
            (flag t).testBit b = true) ∧
        ((∀ t ∈ (attrDef "Alignment" "align" ["IntersectMin"]).Properties, flag t < 2 ^ 8) →
          entryValue flag entry < 2 ^ 8)) ∧
      ((attrDef "Alignment" "align" ["IntersectMin"]).Properties = [] →
        renderAll entry = "0" ∧ ∀ flag : String → Nat, entryValue flag entry = 0) :=
  ⟨by decide, by decide,
    C5_entry_is_or_of_declared_tags sampleRecords samplePropTable (by decide) 1
      (attrDef "Alignment" "align" ["IntersectMin"]) (by decide)⟩

/-- C6: `emitAttributeProperties` ends in a fatal error exactly when some
definition listed under one of the five code-bearing class names carries
`IntersectAnd` while that class name is not EnumAttr, or `IntersectMin` while it
is not IntAttr. So a database in which `IntersectAnd` occurs only under EnumAttr
and `IntersectMin` only under IntAttr is accepted, whatever other tags occur. -/
theorem C6_fatal_iff_restricted_tag_misplaced (Records : RecordKeeper) (OS : raw_ostream) :
    ((∃ OS2 Msg, emitAttributeProperties Records OS = Result.fatal OS2 Msg) ↔
      ∃ K ∈ EnumKindNames, ∃ d ∈ Records.getAllDerivedDefinitions K,
        ("IntersectAnd" ∈ d.Properties ∧ K ≠ "EnumAttr") ∨
        ("IntersectMin" ∈ d.Properties ∧ K ≠ "IntAttr")) ∧
    ((∀ K ∈ EnumKindNames, ∀ d ∈ Records.getAllDerivedDefinitions K, ∀ P ∈ d.Properties,
        (P = "IntersectAnd" → K = "EnumAttr") ∧ (P = "IntersectMin" → K = "IntAttr")) →
      ∃ OS2, emitAttributeProperties Records OS = Result.ok OS2) := by
  constructor
  · constructor
    · rintro ⟨OS2, Msg, hres⟩
      rw [← not_allAccepted_iff]
      intro hall
      rw [emitAttributeProperties_ok Records OS hall] at hres
      cases hres
    · intro hbad
      exact emitAttributeProperties_fatal Records OS
        ((not_allAccepted_iff Records EnumKindNames).mpr hbad)
  · intro hgood
    refine ⟨_, emitAttributeProperties_ok Records OS ?_⟩
    by_contra hall
    obtain ⟨K, hK, d, hd, hbad⟩ := (not_allAccepted_iff Records EnumKindNames).mp hall
    rcases hbad with ⟨hP, hne⟩ | ⟨hP, hne⟩
    · exact hne ((hgood K hK d hd _ hP).1 rfl)
    · exact hne ((hgood K hK d hd _ hP).2 rfl)

/-- C7, as stated, fails: in `strBoolRecords` a StrBoolAttr definition carries
`IntersectAnd`, and the run ends normally. -/
theorem C7_counterexample :
    (∃ K ∈ AttrKindNames, K ≠ "EnumAttr" ∧
      ∃ d ∈ strBoolRecords.getAllDerivedDefinitions K, "IntersectAnd" ∈ d.Properties) ∧
    (run strBoolRecords []).isFatal = false ∧
    ¬ ∃ OS2 Msg, run strBoolRecords [] = Result.fatal OS2 Msg := by
  refine ⟨⟨"StrBoolAttr", by decide, by decide, attrDef "NoInfsFPMath" "no-infs-fp-math"
    ["IntersectAnd"], by decide, by decide⟩, by decide, ?_⟩
  rintro ⟨OS2, Msg, hres⟩
  have hfatal : (run strBoolRecords []).isFatal = true := by rw [hres]; rfl
  revert hfatal
  decide

/-- C7, amended: when a definition listed under one of the five code-bearing
class names other than EnumAttr carries `IntersectAnd`, or one listed under one
of the five other than IntAttr carries `IntersectMin`, the run ends in a fatal
error. -/
theorem C7_run_fatal_on_misplaced_tag (Records : RecordKeeper) (OS : raw_ostream)
    (h : ∃ K ∈ EnumKindNames, ∃ d ∈ Records.getAllDerivedDefinitions K,
      ("IntersectAnd" ∈ d.Properties ∧ K ≠ "EnumAttr") ∨
      ("IntersectMin" ∈ d.Properties ∧ K ≠ "IntAttr")) :
    ∃ OS2 Msg, run Records OS = Result.fatal OS2 Msg := by
  rw [run_eq]
  exact emitAttributeProperties_fatal Records _
    ((not_allAccepted_iff Records EnumKindNames).mpr h)

/-- The amended C7 applied to `misplacedRecords`, where a TypeAttr definition
carries `IntersectAnd`. -/
theorem C7_run_fatal_on_misplaced_tag_witness :
    (∃ K ∈ EnumKindNames, ∃ d ∈ misplacedRecords.getAllDerivedDefinitions K,
      ("IntersectAnd" ∈ d.Properties ∧ K ≠ "EnumAttr") ∨
      ("IntersectMin" ∈ d.Properties ∧ K ≠ "IntAttr")) ∧
    ∃ OS2 Msg, run misplacedRecords [] = Result.fatal OS2 Msg :=
  have h : ∃ K ∈ EnumKindNames, ∃ d ∈ misplacedRecords.getAllDerivedDefinitions K,
      ("IntersectAnd" ∈ d.Properties ∧ K ≠ "EnumAttr") ∨
      ("IntersectMin" ∈ d.Properties ∧ K ≠ "IntAttr") :=
    ⟨"TypeAttr", by decide, attrDef "ByVal" "byval" ["IntersectAnd"], by decide,
      Or.inl ⟨by decide, by decide⟩⟩
  ⟨h, C7_run_fatal_on_misplaced_tag misplacedRecords [] h⟩

/-- C8: the body of the generated `hasCompatibleFnAttrs` is the statement
initialising `Ret` to `true`, then one statement `Ret &= <CompatFunc>(Caller,
Callee ...);` per `CompatRule` record, in declaration order and under no
condition, then `return Ret;`. Hence a run of the body makes the call of every
rule, in order, `Ret` ends as the AND of what the calls returned, and with no
rules it ends as `true`. -/
theorem C8_compat_body_and_fold (Records : RecordKeeper) (IsStringAttr : Bool) :
    functionBody compatSignature (emitFnAttrCompatCheck Records [] IsStringAttr) =
      [Piece.text "  bool Ret = true;\n\n"] ++
        ((Records.getAllDerivedDefinitions "CompatRule").flatMap compatStatement ++
        [Piece.text "\n", Piece.text "  return Ret;\n"]) ∧
    (compatStatements
      (functionBody compatSignature (emitFnAttrCompatCheck Records [] IsStringAttr))).length =
      (Records.getAllDerivedDefinitions "CompatRule").length ∧
    (∀ (i : Nat) (Rule : Record),
      (Records.getAllDerivedDefinitions "CompatRule")[i]? = some Rule →
      ∃ stmt, (compatStatements (functionBody compatSignature
          (emitFnAttrCompatCheck Records [] IsStringAttr)))[i]? = some stmt ∧
        renderAll stmt =
          "  Ret &= " ++ Rule.CompatFunc ++ "(Caller, Callee" ++
            (if Rule.AttrName = "" then "" else ", \"" ++ Rule.AttrName ++ "\"") ++ ");\n") ∧
    (∀ (σ : Type) (call : List Piece → σ → Bool × σ) (env : σ),
      (runCompatBody call (functionBody compatSignature
          (emitFnAttrCompatCheck Records [] IsStringAttr)) env).calls.map Prod.fst =
        (Records.getAllDerivedDefinitions "CompatRule").map compatStatement ∧
      (runCompatBody call (functionBody compatSignature
          (emitFnAttrCompatCheck Records [] IsStringAttr)) env).Ret =
        (runCompatBody call (functionBody compatSignature
          (emitFnAttrCompatCheck Records [] IsStringAttr)) env).calls.all (fun c => c.2)) ∧
    (Records.getAllDerivedDefinitions "CompatRule" = [] →
      ∀ (σ : Type) (call : List Piece → σ → Bool × σ) (env : σ),
        (runCompatBody call (functionBody compatSignature
          (emitFnAttrCompatCheck Records [] IsStringAttr)) env).Ret = true) := by
  refine ⟨functionBody_compat Records IsStringAttr, ?_, ?_, ?_, ?_⟩
  · rw [compatStatements_functionBody]
    simp
  · intro i Rule hi
    refine ⟨compatStatement Rule, ?_, renderAll_compatStatement Rule⟩
    rw [compatStatements_functionBody]
    simp [hi]
  · intro σ call env
    rw [runCompatBody, compatStatements_functionBody]
    have h := foldl_compatRun call
      ((Records.getAllDerivedDefinitions "CompatRule").map compatStatement)
      ({ Ret := true, calls := [], env := env } : CompatRun σ) (by simp)
    exact ⟨by simpa using h.1, h.2⟩
  · intro hnil σ call env
    rw [runCompatBody, compatStatements_functionBody, hnil]
    rfl

/-- C9: the body of the generated `mergeFnAttrs` is one call
`<MergeFunc>(Caller, Callee);` per `MergeRule` record, in declaration order and
under no condition, and nothing else; for the rules A, B the call of A's
function comes before the call of B's function. -/
theorem C9_merge_body_in_order (Records : RecordKeeper) (IsStringAttr : Bool) :
    functionBody mergeSignature (emitFnAttrCompatCheck Records [] IsStringAttr) =
      (Records.getAllDerivedDefinitions "MergeRule").map
        (fun Rule => Piece.mergeCall Rule.MergeFunc) ∧
    (∀ (i : Nat) (Rule : Record),
      (Records.getAllDerivedDefinitions "MergeRule")[i]? = some Rule →
      ∃ p, (functionBody mergeSignature
          (emitFnAttrCompatCheck Records [] IsStringAttr))[i]? = some p ∧
        p.render = "  " ++ Rule.MergeFunc ++ "(Caller, Callee);\n") ∧
    (∀ p ∈ functionBody mergeSignature (emitFnAttrCompatCheck Records [] IsStringAttr),
      ∃ FuncName, p = Piece.mergeCall FuncName) ∧
    (∀ A B : Record, Records.getAllDerivedDefinitions "MergeRule" = [A, B] →
      functionBody mergeSignature (emitFnAttrCompatCheck Records [] IsStringAttr) =
        [Piece.mergeCall A.MergeFunc, Piece.mergeCall B.MergeFunc]) := by
  refine ⟨functionBody_merge Records IsStringAttr, ?_, ?_, ?_⟩
  · intro i Rule hi
    refine ⟨Piece.mergeCall Rule.MergeFunc, ?_, rfl⟩
    rw [functionBody_merge]
    simp [hi]
  · intro p hp
    rw [functionBody_merge] at hp
    obtain ⟨Rule, _, rfl⟩ := List.mem_map.mp hp
    exact ⟨Rule.MergeFunc, rfl⟩
  · intro A B hAB
    rw [functionBody_merge, hAB]
    rfl

/-- C10: the statement written for a `CompatRule` record in
`hasCompatibleFnAttrs` has a third argument exactly when the record's `AttrName`
is not empty; then the argument is the `AttrName` between double quotes, and
otherwise the call has the two arguments `(Caller, Callee)` only. -/
theorem C10_third_argument_iff_attrName (Records : RecordKeeper) (IsStringAttr : Bool)
    (i : Nat) (Rule : Record)
    (hi : (Records.getAllDerivedDefinitions "CompatRule")[i]? = some Rule) :
    ∃ stmt, (compatStatements (functionBody compatSignature
        (emitFnAttrCompatCheck Records [] IsStringAttr)))[i]? = some stmt ∧
      ((∃ AttrName, Piece.compatAttr AttrName ∈ stmt) ↔ Rule.AttrName ≠ "") ∧
      (Rule.AttrName ≠ "" →
        stmt = [Piece.compatCall Rule.CompatFunc, Piece.compatAttr Rule.AttrName,
          Piece.compatClose] ∧
        renderAll stmt =
          "  Ret &= " ++ Rule.CompatFunc ++ "(Caller, Callee, \"" ++ Rule.AttrName ++
            "\");\n") ∧
      (Rule.AttrName = "" →
        stmt = [Piece.compatCall Rule.CompatFunc, Piece.compatClose] ∧
        renderAll stmt = "  Ret &= " ++ Rule.CompatFunc ++ "(Caller, Callee);\n") := by
  refine ⟨compatStatement Rule, ?_, ?_, ?_, ?_⟩
  · rw [compatStatements_functionBody]
    simp [hi]
  · by_cases h : Rule.AttrName = "" <;> simp [compatStatement, h]
  · intro h
    refine ⟨by simp [compatStatement, h], ?_⟩
    have e : "(Caller, Callee" ++ ", \"" = "(Caller, Callee, \"" := by decide
    simp only [compatStatement, renderAll, Piece.render, h, if_false, List.singleton_append,
      String.append_assoc, String.append_empty]
    have e2 : "\"" ++ ");\n" = "\");\n" := by decide
    rw [← String.append_assoc "(Caller, Callee" ", \"", e, e2]
  · intro h
    refine ⟨by simp [compatStatement, h], ?_⟩
    have e : "(Caller, Callee" ++ ");\n" = "(Caller, Callee);\n" := by decide
    simp only [compatStatement, renderAll, Piece.render, h, if_true, List.nil_append,
      String.append_assoc, String.append_empty]
    rw [e]

/-- C10 applied to the second compatibility rule of `sampleRecords`, whose
`AttrName` is `sanitize`. -/
theorem C10_third_argument_iff_attrName_witness :
    (sampleRecords.getAllDerivedDefinitions "CompatRule")[1]? =
      some (compatRule "anonymous_1" "isEqual" "sanitize") ∧
    ∃ stmt, (compatStatements (functionBody compatSignature
        (emitFnAttrCompatCheck sampleRecords [] false)))[1]? = some stmt ∧
      ((∃ AttrName, Piece.compatAttr AttrName ∈ stmt) ↔
        (compatRule "anonymous_1" "isEqual" "sanitize").AttrName ≠ "") ∧
      ((compatRule "anonymous_1" "isEqual" "sanitize").AttrName ≠ "" →
        stmt = [Piece.compatCall (compatRule "anonymous_1" "isEqual" "sanitize").CompatFunc,
          Piece.compatAttr (compatRule "anonymous_1" "isEqual" "sanitize").AttrName,
          Piece.compatClose] ∧
        renderAll stmt =
          "  Ret &= " ++ (compatRule "anonymous_1" "isEqual" "sanitize").CompatFunc ++
            "(Caller, Callee, \"" ++
            (compatRule "anonymous_1" "isEqual" "sanitize").AttrName ++ "\");\n") ∧
      ((compatRule "anonymous_1" "isEqual" "sanitize").AttrName = "" →
        stmt = [Piece.compatCall (compatRule "anonymous_1" "isEqual" "sanitize").CompatFunc,
          Piece.compatClose] ∧
        renderAll stmt =
          "  Ret &= " ++ (compatRule "anonymous_1" "isEqual" "sanitize").CompatFunc ++
            "(Caller, Callee);\n") :=
  ⟨by decide, C10_third_argument_iff_attrName sampleRecords false 1
    (compatRule "anonymous_1" "isEqual" "sanitize") (by decide)⟩

/-- C11: the name-table block is the definition of `ATTRIBUTE_ALL`, then the
three groups `ATTRIBUTE_ENUM`, `ATTRIBUTE_STRBOOL`, `ATTRIBUTE_COMPLEXSTR` in
that order, then the `#undef` of `ATTRIBUTE_ALL`; a group is the default
definition of its macro forwarding to `ATTRIBUTE_ALL`, then one invocation
`MACRO(Name,AttrString)` per definition, then the `#undef` of the macro; the
first group lists the EnumAttr, TypeAttr, IntAttr, ConstantRangeAttr and
ConstantRangeListAttr definitions concatenated in that order, the other two the
StrBoolAttr and the ComplexStrAttr definitions, each in declaration order. -/
theorem C11_name_table_groups (Records : RecordKeeper) :
    nameTable (emitTargetIndependentNames Records []) =
      [Piece.text "#ifdef GET_ATTR_NAMES\n", Piece.text "#undef GET_ATTR_NAMES\n",
        Piece.text "#ifndef ATTRIBUTE_ALL\n",
        Piece.text "#define ATTRIBUTE_ALL(FIRST, SECOND)\n", Piece.text "#endif\n\n"] ++
      (macroGroup "ATTRIBUTE_ENUM"
        (Records.getAllDerivedDefinitions "EnumAttr" ++
          (Records.getAllDerivedDefinitions "TypeAttr" ++
          (Records.getAllDerivedDefinitions "IntAttr" ++
          (Records.getAllDerivedDefinitions "ConstantRangeAttr" ++
          Records.getAllDerivedDefinitions "ConstantRangeListAttr")))) ++
      (macroGroup "ATTRIBUTE_STRBOOL" (Records.getAllDerivedDefinitions "StrBoolAttr") ++
      (macroGroup "ATTRIBUTE_COMPLEXSTR" (Records.getAllDerivedDefinitions "ComplexStrAttr") ++
      [Piece.text "#undef ATTRIBUTE_ALL\n", Piece.text "#endif\n\n"]))) ∧
    (∀ (MacroName : String) (Defs : List Record),
      renderAll (macroGroup MacroName Defs) =
        ("#ifndef " ++ MacroName ++ "\n") ++
        (("#define " ++ MacroName ++ "(FIRST, SECOND) ATTRIBUTE_ALL(FIRST, SECOND)\n") ++
        ("#endif\n\n" ++
        (Defs.foldr
          (fun A rest => MacroName ++ "(" ++ A.Name ++ "," ++ A.AttrString ++ ")\n" ++ rest)
          "" ++
        ("#undef " ++ MacroName ++ "\n\n")))) ∧
      invocations (macroGroup MacroName Defs) =
        Defs.map (fun A => (MacroName, A.Name, A.AttrString))) := by
  constructor
  · rw [nameTable_emitTargetIndependentNames]
    simp [namesBlock, emitPieces_eq_macroGroup, EnumKindNames]
  · intro MacroName Defs
    refine ⟨?_, invocations_macroGroup MacroName Defs⟩
    rw [macroGroup, renderAll_append, renderAll_append, renderAll_invocations]
    simp only [renderAll, Piece.render, String.append_assoc, String.append_empty]

/-- C12: the names invoked with `ATTRIBUTE_ENUM` in the name table are, in
order, the names assigned codes in the enum block. Every assignment of the enum
block and every entry of the property table belongs to a definition listed under
one of the five code-bearing class names, and neither changes when only the
StrBoolAttr and ComplexStrAttr listings change; yet every StrBoolAttr and
ComplexStrAttr definition is invoked in the name table. -/
theorem C12_same_definitions_in_names_and_enum (Records : RecordKeeper) :
    ((invocations (emitTargetIndependentNames Records [])).filter
        (fun inv => inv.1 == "ATTRIBUTE_ENUM")).map (fun inv => inv.2.1) =
      (enumAssignments (emitTargetIndependentNames Records [])).map Prod.fst ∧
    (∀ (i : Nat) (Name : String) (Value : Nat),
      (enumAssignments (emitTargetIndependentNames Records []))[i]? = some (Name, Value) →
      ∃ K ∈ EnumKindNames, ∃ d ∈ Records.getAllDerivedDefinitions K, d.Name = Name) ∧
    (∀ (OS2 : raw_ostream), emitAttributeProperties Records [] = Result.ok OS2 →
      ∀ (i : Nat) (entry : List Piece), (propTableEntries OS2)[i]? = some entry →
      ∃ K ∈ EnumKindNames, ∃ d ∈ Records.getAllDerivedDefinitions K,
        entry = Piece.propZero :: d.Properties.map Piece.propTag) ∧
    (∀ Records2 : RecordKeeper,
      (∀ K ∈ EnumKindNames,
        Records2.getAllDerivedDefinitions K = Records.getAllDerivedDefinitions K) →
      enumAssignments (emitTargetIndependentNames Records2 []) =
        enumAssignments (emitTargetIndependentNames Records []) ∧
      enumMarkers (emitTargetIndependentNames Records2 []) =
        enumMarkers (emitTargetIndependentNames Records []) ∧
      emitAttributeProperties Records2 [] = emitAttributeProperties Records []) ∧
    (∀ d ∈ Records.getAllDerivedDefinitions "StrBoolAttr",
      ("ATTRIBUTE_STRBOOL", d.Name, d.AttrString) ∈
        invocations (emitTargetIndependentNames Records [])) ∧
    (∀ d ∈ Records.getAllDerivedDefinitions "ComplexStrAttr",
      ("ATTRIBUTE_COMPLEXSTR", d.Name, d.AttrString) ∈
        invocations (emitTargetIndependentNames Records [])) := by
  refine ⟨?_, ?_, ?_, ?_, ?_, ?_⟩
  · rw [invocations_emitTargetIndependentNames, enumAssignments_emitTargetIndependentNames]
    simp only [List.filter_append, List.map_append, List.filter_map, List.map_map]
    have h1 : ∀ l : List Record,
        List.filter ((fun inv : String × String × String => inv.1 == "ATTRIBUTE_ENUM") ∘
          fun A : Record => ("ATTRIBUTE_ENUM", A.Name, A.AttrString)) l = l := by
      intro l
      simp [List.filter_eq_self]
    have h2 : ∀ (M : String), M ≠ "ATTRIBUTE_ENUM" → ∀ l : List Record,
        List.filter ((fun inv : String × String × String => inv.1 == "ATTRIBUTE_ENUM") ∘
          fun A : Record => (M, A.Name, A.AttrString)) l = [] := by
      intro M hM l
      simp [List.filter_eq_nil_iff, hM]
    rw [h1, h2 "ATTRIBUTE_STRBOOL" (by decide), h2 "ATTRIBUTE_COMPLEXSTR" (by decide)]
    have h3 : (codeBearing Records).map
        ((fun inv : String × String × String => inv.2.1) ∘
          fun A : Record => ("ATTRIBUTE_ENUM", A.Name, A.AttrString)) =
        (codeBearing Records).map (fun A => A.Name) := rfl
    have h4 : ((codeBearing Records).enumFrom 1).map
        (Prod.fst ∘ fun p : Nat × Record => (p.2.Name, p.1)) =
        (codeBearing Records).map (fun A => A.Name) := by
      have h5 : (Prod.fst ∘ fun p : Nat × Record => (p.2.Name, p.1)) =
          (fun A : Record => A.Name) ∘ Prod.snd := rfl
      rw [h5, ← List.map_map, List.enumFrom_map_snd]
    simp [h3, h4]
  · intro i Name Value hi
    rw [enumAssignments_emitTargetIndependentNames] at hi
    simp only [List.getElem?_map, List.getElem?_enumFrom, Option.map_map,
      Option.map_eq_some'] at hi
    obtain ⟨d, hd, heq⟩ := hi
    obtain ⟨K, hK, hmem⟩ := (mem_codeBearing Records d).mp (List.getElem?_mem hd)
    simp only [Function.comp, Prod.mk.injEq] at heq
    exact ⟨K, hK, d, hmem, heq.1⟩
  · intro OS2 hok i entry hi
    obtain ⟨_, hOS⟩ := emitAttributeProperties_eq_of_ok Records [] OS2 hok
    rw [hOS, List.nil_append, propTableEntries_propBlock, List.getElem?_map,
      Option.map_eq_some'] at hi
    obtain ⟨d, hd, heq⟩ := hi
    obtain ⟨K, hK, hmem⟩ := (mem_codeBearing Records d).mp (List.getElem?_mem hd)
    exact ⟨K, hK, d, hmem, heq.symm⟩
  · intro Records2 h
    refine ⟨?_, ?_, ?_⟩
    · rw [enumAssignments_emitTargetIndependentNames,
        enumAssignments_emitTargetIndependentNames, codeBearing_congr Records Records2 h]
    · rw [enumMarkers_emitTargetIndependentNames, enumMarkers_emitTargetIndependentNames]
      obtain ⟨a1, a2, a3, a4, a5⟩ := precedingCount_values Records
      obtain ⟨b1, b2, b3, b4, b5⟩ := precedingCount_values Records2
      simp only [EnumKindNames, List.flatMap_cons, List.flatMap_nil, a1, a2, a3, a4, a5, b1, b2,
        b3, b4, b5]
      rw [h "EnumAttr" (by decide), h "TypeAttr" (by decide), h "IntAttr" (by decide),
        h "ConstantRangeAttr" (by decide), h "ConstantRangeListAttr" (by decide)]
    · simp only [emitAttributeProperties]
      rw [emitPropKinds_congr Records Records2 EnumKindNames _ h]
  · intro d hd
    rw [invocations_emitTargetIndependentNames]
    simp only [List.mem_append, List.mem_map]
    exact Or.inr (Or.inl ⟨d, hd, rfl⟩)
  · intro d hd
    rw [invocations_emitTargetIndependentNames]
    simp only [List.mem_append, List.mem_map]
    exact Or.inr (Or.inr ⟨d, hd, rfl⟩)


/-- C13: for the database holding only the EnumAttr definition `NoReturn` (no
properties) and the IntAttr definition `Alignment` (property `IntersectMin`),
the run succeeds; the enum block binds `FirstEnumAttr = 1`, `NoReturn = 1`,
`LastEnumAttr = 1`, `FirstIntAttr = 2`, `Alignment = 2`, `LastIntAttr = 2` (and
the markers of the three class names that list nothing); the property table has
the two entries `0` and `0 | AttributeProperty::IntersectMin`. -/
theorem C13_end_to_end_example :
    (run endToEndRecords []).isFatal = false ∧
    firstOf (emitTargetIndependentNames endToEndRecords []) "EnumAttr" = some 1 ∧
    lastOf (emitTargetIndependentNames endToEndRecords []) "EnumAttr" = some 1 ∧
    firstOf (emitTargetIndependentNames endToEndRecords []) "IntAttr" = some 2 ∧
    lastOf (emitTargetIndependentNames endToEndRecords []) "IntAttr" = some 2 ∧
    enumAssignments (emitTargetIndependentNames endToEndRecords []) =
      [("NoReturn", 1), ("Alignment", 2)] ∧
    renderAll (enumBlock endToEndRecords) =
      "#ifdef GET_ATTR_ENUM\n#undef GET_ATTR_ENUM\n" ++
      "FirstEnumAttr = 1,\nNoReturn = 1,\nLastEnumAttr = 1,\n" ++
      "FirstTypeAttr = 2,\nLastTypeAttr = 1,\n" ++
      "FirstIntAttr = 2,\nAlignment = 2,\nLastIntAttr = 2,\n" ++
      "FirstConstantRangeAttr = 3,\nLastConstantRangeAttr = 2,\n" ++
      "FirstConstantRangeListAttr = 3,\nLastConstantRangeListAttr = 2,\n" ++
      "#endif\n\n" ∧
    (∃ OS2, run endToEndRecords [] = Result.ok OS2 ∧
      propTableEntries OS2 =
        [[Piece.propZero], [Piece.propZero, Piece.propTag "IntersectMin"]] ∧
      (propTableEntries OS2).map renderAll = ["0", "0 | AttributeProperty::IntersectMin"]) := by
  refine ⟨by decide, by decide, by decide, by decide, by decide, by decide,
    by set_option maxRecDepth 4000 in decide, ?_⟩
  exact ⟨emitFnAttrCompatCheck endToEndRecords (emitTargetIndependentNames endToEndRecords [])
      false ++ propBlock endToEndRecords,
    by set_option maxRecDepth 8000 in decide,
    by set_option maxRecDepth 8000 in decide,
    by set_option maxRecDepth 8000 in decide⟩

/-- C16: the markers of the enum block tile the code range: `FirstEnumAttr` is
1, the `First` marker of each class name after the first is the `Last` marker of
the class name before it plus 1, and `LastConstantRangeListAttr` is the number
of code-bearing definitions. -/
theorem C16_markers_tile_code_range (Records : RecordKeeper) :
    firstOf (emitTargetIndependentNames Records []) "EnumAttr" = some 1 ∧
    (∀ p ∈ List.zip EnumKindNames EnumKindNames.tail,
      ∃ l, lastOf (emitTargetIndependentNames Records []) p.1 = some l ∧
        firstOf (emitTargetIndependentNames Records []) p.2 = some (l + 1)) ∧
    lastOf (emitTargetIndependentNames Records []) "ConstantRangeListAttr" =
      some (codeBearing Records).length := by
  obtain ⟨h1, h2, h3, h4, h5⟩ := precedingCount_values Records
  refine ⟨?_, ?_, ?_⟩
  · rw [firstOf_emitTargetIndependentNames Records "EnumAttr" (by decide), h1]
  · intro p hp
    simp only [EnumKindNames, List.tail_cons, List.zip_cons_cons, List.zip_nil_right,
      List.mem_cons, List.mem_singleton, List.not_mem_nil, or_false] at hp
    rcases hp with rfl | rfl | rfl | rfl
    · refine ⟨_, lastOf_emitTargetIndependentNames Records "EnumAttr" (by decide), ?_⟩
      rw [firstOf_emitTargetIndependentNames Records "TypeAttr" (by decide), h1, h2]
      simp; omega
    · refine ⟨_, lastOf_emitTargetIndependentNames Records "TypeAttr" (by decide), ?_⟩
      rw [firstOf_emitTargetIndependentNames Records "IntAttr" (by decide), h2, h3]
      simp; omega
    · refine ⟨_, lastOf_emitTargetIndependentNames Records "IntAttr" (by decide), ?_⟩
      rw [firstOf_emitTargetIndependentNames Records "ConstantRangeAttr" (by decide), h3, h4]
      simp; omega
    · refine ⟨_, lastOf_emitTargetIndependentNames Records "ConstantRangeAttr" (by decide), ?_⟩
      rw [firstOf_emitTargetIndependentNames Records "ConstantRangeListAttr" (by decide),
        h4, h5]
      simp; omega
  · rw [lastOf_emitTargetIndependentNames Records "ConstantRangeListAttr" (by decide), h5]
    simp only [codeBearing, EnumKindNames, List.flatMap_cons, List.flatMap_nil, List.append_nil,
      List.length_append]
    congr 1
    omega


/-- C14, as stated, fails: on `misplacedRecords` the run ends in a fatal error
after it has written to the stream, the opening of the name table among the
rest. -/
theorem C14_counterexample :
    (run misplacedRecords []).isFatal = true ∧
    (run misplacedRecords []).written ≠ [] ∧
    Piece.text "#ifdef GET_ATTR_NAMES\n" ∈ (run misplacedRecords []).written ∧
    renderAll (run misplacedRecords []).written ≠ "" := by
  refine ⟨by decide, by decide, by decide, ?_⟩
  set_option maxRecDepth 8000 in decide

/-- C14, amended: a run that ends in a fatal error has written the name-table,
enum and compatibility blocks in full and a proper initial part of the
property-table block, so what it has written is never the complete output; a
run that succeeds has written the four blocks in full. -/
theorem C14_partial_output_on_failure (Records : RecordKeeper) (OS : raw_ostream) :
    (∀ (OS2 : raw_ostream) (Msg : String), run Records OS = Result.fatal OS2 Msg →
      ∃ pre rest, propBlock Records = pre ++ rest ∧ rest ≠ [] ∧
        OS2 = OS ++ (namesBlock Records ++ (enumBlock Records ++
          (compatBlock Records ++ pre)))) ∧
    (∀ OS2 : raw_ostream, run Records OS = Result.ok OS2 →
      OS2 = OS ++ (namesBlock Records ++ (enumBlock Records ++
        (compatBlock Records ++ propBlock Records)))) := by
  constructor
  · intro OS2 Msg h
    rw [run_eq, emitTargetIndependentNames_eq, emitFnAttrCompatCheck_eq] at h
    cases hv : firstViolation Records with
    | none =>
      rw [emitAttributeProperties_ok Records _
        ((firstViolation_eq_none_iff Records).mp hv)] at h
      cases h
    | some kp =>
      obtain ⟨pre, rest, hsplit, hrest, hrun⟩ :=
        emitAttributeProperties_first Records kp.1 kp.2 hv
      rw [hrun] at h
      refine ⟨pre, rest, hsplit, hrest, ?_⟩
      have := (Result.fatal.inj h).1
      rw [← this]
      simp
  · intro OS2 h
    rw [run_eq, emitTargetIndependentNames_eq, emitFnAttrCompatCheck_eq] at h
    obtain ⟨_, hOS⟩ := emitAttributeProperties_eq_of_ok Records _ OS2 h
    rw [hOS]
    simp

/-- C17: when `emitAttributeProperties` ends in a fatal error, the diagnostic is
that of the first violating tag in the order of examination (class names in the
fixed order, definitions in declaration order, tags in declared order): the
text naming `IntersectAnd` and `EnumAttr` when that tag is `IntersectAnd`, the
text naming `IntersectMin` and `IntAttr` when it is `IntersectMin`. -/
theorem C17_diagnostic_of_first_violation (Records : RecordKeeper) (OS OS2 : raw_ostream)
    (Msg : String) (h : emitAttributeProperties Records OS = Result.fatal OS2 Msg) :
    ∃ K P, firstViolation Records = some (K, P) ∧ K ∈ EnumKindNames ∧
      ((P = "IntersectAnd" ∧ K ≠ "EnumAttr" ∧
          Msg = "'IntersectAnd' only compatible with 'EnumAttr'") ∨
       (P = "IntersectMin" ∧ K ≠ "IntAttr" ∧
          Msg = "'IntersectMin' only compatible with 'IntAttr'")) := by
  cases hv : firstViolation Records with
  | none =>
    rw [emitAttributeProperties_ok Records OS
      ((firstViolation_eq_none_iff Records).mp hv)] at h
    cases h
  | some kp =>
    obtain ⟨K, P⟩ := kp
    obtain ⟨pre, rest, _, _, hrun⟩ := emitAttributeProperties_first Records K P hv
    rw [hrun] at h
    have hMsg : diagnosticFor P = Msg := (Result.fatal.inj h).2
    have hviol : violates (K, P) = true := List.find?_some hv
    have hmem : (K, P) ∈ scannedTags Records EnumKindNames := List.mem_of_find?_eq_some hv
    have hK : K ∈ EnumKindNames := by
      simp only [scannedTags, List.mem_flatMap, List.mem_map] at hmem
      obtain ⟨K2, hK2, Q, _, heq⟩ := hmem
      rw [← (Prod.mk.inj heq).1]
      exact hK2
    refine ⟨K, P, rfl, hK, ?_⟩
    simp only [violates, Bool.or_eq_true, Bool.and_eq_true, beq_iff_eq, bne_iff_ne] at hviol
    rcases hviol with ⟨hP, hne⟩ | ⟨hP, hne⟩
    · exact Or.inl ⟨hP, hne, by rw [← hMsg, hP]; rfl⟩
    · exact Or.inr ⟨hP, hne, by rw [← hMsg, hP]; rfl⟩

/-- C17 applied to `twoViolationsRecords`: the TypeAttr definition carrying
`IntersectMin` is examined before the IntAttr definition carrying
`IntersectAnd`, and the diagnostic is the one naming `IntersectMin`. -/
theorem C17_diagnostic_of_first_violation_witness :
    emitAttributeProperties twoViolationsRecords [] =
      Result.fatal
        [Piece.text "#ifdef GET_ATTR_PROP_TABLE\n", Piece.text "#undef GET_ATTR_PROP_TABLE\n",
          Piece.text "static const uint8_t AttrPropTable[] = \x7b\n", Piece.propZero]
        "'IntersectMin' only compatible with 'IntAttr'" ∧
    ∃ K P, firstViolation twoViolationsRecords = some (K, P) ∧ K ∈ EnumKindNames ∧
      ((P = "IntersectAnd" ∧ K ≠ "EnumAttr" ∧
          "'IntersectMin' only compatible with 'IntAttr'" =
            "'IntersectAnd' only compatible with 'EnumAttr'") ∨
       (P = "IntersectMin" ∧ K ≠ "IntAttr" ∧
          "'IntersectMin' only compatible with 'IntAttr'" =
            "'IntersectMin' only compatible with 'IntAttr'")) :=
  ⟨by decide,
    C17_diagnostic_of_first_violation twoViolationsRecords []
      [Piece.text "#ifdef GET_ATTR_PROP_TABLE\n", Piece.text "#undef GET_ATTR_PROP_TABLE\n",
        Piece.text "static const uint8_t AttrPropTable[] = \x7b\n", Piece.propZero]
      "'IntersectMin' only compatible with 'IntAttr'" (by decide)⟩


/-- C15, as stated, fails: the strings of `hashNameRecords` and of
`hashMergeRecords` contain no newline and the run succeeds on both, but the
lines `#endif = 1,` of the enum block and `  #endif(Caller, Callee);` of the
compatibility block are read as the `#endif` of their block, and the output is
not four guarded blocks: its last `#endif` closes nothing. -/
theorem C15_counterexample :
    (NoNewlines hashNameRecords ∧
      (∃ OS2, run hashNameRecords [] = Result.ok OS2 ∧
        "#endif = 1," ∈ linesOf OS2 ∧
        depthAfter 0 (linesOf OS2) = none ∧
        ¬ FourGuardedBlocks (linesOf OS2))) ∧
    (NoNewlines hashMergeRecords ∧
      (∃ OS2, run hashMergeRecords [] = Result.ok OS2 ∧
        "  #endif(Caller, Callee);" ∈ linesOf OS2 ∧
        depthAfter 0 (linesOf OS2) = none ∧
        ¬ FourGuardedBlocks (linesOf OS2))) := by
  constructor
  · refine ⟨by unfold NoNewlines; decide, (run hashNameRecords []).written,
      by set_option maxRecDepth 100000 in decide,
      by set_option maxRecDepth 100000 in decide, ?_, ?_⟩
    · set_option maxRecDepth 100000 in decide
    · intro h
      have hd := depthAfter_of_fourGuardedBlocks _ h
      revert hd
      set_option maxRecDepth 100000 in decide
  · refine ⟨by unfold NoNewlines; decide, (run hashMergeRecords []).written,
      by set_option maxRecDepth 100000 in decide,
      by set_option maxRecDepth 100000 in decide, ?_, ?_⟩
    · set_option maxRecDepth 100000 in decide
    · intro h
      have hd := depthAfter_of_fourGuardedBlocks _ h
      revert hd
      set_option maxRecDepth 100000 in decide

/-- C15, amended: when no string of the records contains a newline and no name
of a code-bearing definition and no `MergeFunc` begins, after blanks, with `#`,
the lines of the output of a successful run are four blocks guarded in turn by
the pairwise distinct toggles `GET_ATTR_NAMES`, `GET_ATTR_ENUM`,
`GET_ATTR_COMPAT_FUNC`, `GET_ATTR_PROP_TABLE`: each block is the line `#ifdef T`,
the line `#undef T`, and lines ending in the `#endif` that matches the `#ifdef`;
the name-table block defines `ATTRIBUTE_ALL`, `ATTRIBUTE_ENUM`,
`ATTRIBUTE_STRBOOL`, `ATTRIBUTE_COMPLEXSTR` and no other macro, and undefines
each of them before its closing `#endif`. A line is read as a directive when
its first non-blank character is `#`. -/
theorem C15_four_guarded_blocks (Records : RecordKeeper) (hn : NoNewlines Records)
    (hd : NoDirectiveStart Records) (OS2 : raw_ostream)
    (h : run Records [] = Result.ok OS2) :
    FourGuardedBlocks (linesOf OS2) ∧
    toggles.Nodup ∧
    linesOf OS2 = linesOf (namesBlock Records) ++ (linesOf (enumBlock Records) ++
      (linesOf (compatBlock Records) ++ linesOf (propBlock Records))) := by
  have r1 := rendersAs_namesBlock Records hn
  have r2 := rendersAs_enumBlock Records hn
  have r3 := rendersAs_compatBlock Records hn
  have r4 := rendersAs_propBlock Records hn
  have hOS := run_eq_of_ok Records [] OS2 h
  rw [List.nil_append] at hOS
  have hlines : linesOf OS2 =
      blockLines "GET_ATTR_NAMES" (namesBody Records) [""] ++
      (blockLines "GET_ATTR_ENUM" (enumBody Records) [""] ++
      (blockLines "GET_ATTR_COMPAT_FUNC" (compatBody Records) [] ++
      blockLines "GET_ATTR_PROP_TABLE" (propBody Records) [])) := by
    rw [hOS]
    exact linesOf_of_rendersAs _ _
      (rendersAs_append _ _ _ _ r1 (rendersAs_append _ _ _ _ r2
        (rendersAs_append _ _ _ _ r3 r4)))
  have hdir := directives_namesLines Records
  refine ⟨⟨_, _, _, _, hlines, ?_, ?_, ?_, ?_, ?_, ?_⟩, by decide, ?_⟩
  · apply isGuardedBlock_blockLines
    · rw [directives_namesBody]
      decide
    · simp
  · apply isGuardedBlock_blockLines
    · rw [directives_enumBody Records hd]
      rfl
    · simp
  · apply isGuardedBlock_blockLines
    · rw [directives_compatBody Records hd]
      rfl
    · simp
  · apply isGuardedBlock_blockLines
    · rw [directives_propBody]
      rfl
    · simp
  · rw [definedMacros, hdir]
    decide
  · intro M hM
    simp only [nameTableMacros, List.mem_cons, List.mem_singleton, List.not_mem_nil,
      or_false] at hM
    rcases hM with rfl | rfl | rfl | rfl <;>
      (rw [undefinedBeforeEnd, hdir]; decide)
  · rw [hlines, linesOf_of_rendersAs _ _ r1, linesOf_of_rendersAs _ _ r2,
      linesOf_of_rendersAs _ _ r3, linesOf_of_rendersAs _ _ r4]

/-- The amended C15 applied to `sampleRecords`. -/
theorem C15_four_guarded_blocks_witness :
    NoNewlines sampleRecords ∧ NoDirectiveStart sampleRecords ∧
    run sampleRecords [] = Result.ok (run sampleRecords []).written ∧
    (FourGuardedBlocks (linesOf (run sampleRecords []).written) ∧
    toggles.Nodup ∧
    linesOf (run sampleRecords []).written =
      linesOf (namesBlock sampleRecords) ++ (linesOf (enumBlock sampleRecords) ++
      (linesOf (compatBlock sampleRecords) ++ linesOf (propBlock sampleRecords)))) :=
  have hn : NoNewlines sampleRecords := by unfold NoNewlines; decide
  have hd : NoDirectiveStart sampleRecords := by unfold NoDirectiveStart; decide
  have hr : run sampleRecords [] = Result.ok (run sampleRecords []).written := by
    set_option maxRecDepth 100000 in decide
  ⟨hn, hd, hr, C15_four_guarded_blocks sampleRecords hn hd _ hr⟩


end Attributes
